import Mathlib

/-!
# icanhazwordz: the replay engine, the letter multiset and the scorer

A shallow embedding of `src/src/words/words.go` and of the game core of
`src/app/lex.go`.

Modelling conventions.

* A Go `string` is a `Str`, the list of its code points (well-formed UTF-8).
  The byte-wise replacers `qFixer` and `qUnfixer` only look for ASCII bytes,
  which never occur inside a multi-byte sequence, so they act on code points.
* `strings.ToUpper` maps every code point through the Unicode case table, which
  is not part of this repository: it is the field `toUpper` of a `CaseMap`,
  known only to agree with ASCII upper-casing on ASCII code points.
* A Go `map[string]T` is an association list with distinct keys; the order of
  the list is one of the orders in which `range` may enumerate the map.
* `*rand.Rand` is an oracle `Rng`: a state, the seeding function and `Int63n`.
* Loops whose exit depends on the random stream take a fuel argument; a run
  ends in a value, in `Fault.outOfFuel`, or in `Fault.panic`.
-/

set_option autoImplicit false
set_option maxRecDepth 100000

/-- A Go string, as the list of its code points. -/
abbrev Str := List Char

/-- The Unicode upper-casing used by `strings.ToUpper`, with the one fact about
it that the development relies on: on ASCII it is ASCII upper-casing. -/
structure CaseMap where
  toUpper : Char → Char
  ascii : ∀ c : Char, c.toNat < 128 → toUpper c = c.toUpper

/-- The case map that upper-cases `a`..`z` and leaves every other code point. -/
def asciiCase : CaseMap := ⟨Char.toUpper, fun _ _ => rfl⟩

/-- Signed 64-bit wrap-around (`int64` arithmetic). -/
def wrap64 (x : Int) : Int := (x + 2 ^ 63) % 2 ^ 64 - 2 ^ 63

namespace words

/-- The type `countMap` (`map[string]int`). -/
abbrev countMap := List (Str × Int)

/-- Map read `cm[l]`: the stored value, or the zero value when `l` is absent. -/
def countMap.get : countMap → Str → Int
  | [], _ => 0
  | (k, v) :: rest, l => if k = l then v else countMap.get rest l

/-- Map write `cm[l] = c`: overwrite the entry of `l`, or add one. -/
def countMap.set : countMap → Str → Int → countMap
  | [], l, c => [(l, c)]
  | (k, v) :: rest, l, c => if k = l then (k, c) :: rest else (k, v) :: countMap.set rest l c

/-- The constant `kMinLen`. -/
def kMinLen : Nat := 3

/-- The function `strings.ToUpper`. -/
def ToUpper (U : CaseMap) (s : Str) : Str := s.map U.toUpper

/-- The replacer `qFixer = strings.NewReplacer("QU", "Q")`: one left-to-right
pass over non-overlapping occurrences. -/
def qFixer : Str → Str
  | [] => []
  | c :: rest =>
    if c = 'Q' then
      match rest with
      | [] => ['Q']
      | d :: rest2 => if d = 'U' then 'Q' :: qFixer rest2 else 'Q' :: qFixer (d :: rest2)
    else c :: qFixer rest

/-- The replacer `qUnfixer = strings.NewReplacer("Q", "Qu")`. -/
def qUnfixer : Str → Str
  | [] => []
  | c :: rest => if c = 'Q' then 'Q' :: 'u' :: qUnfixer rest else c :: qUnfixer rest

/-- The function `Normalize`. -/
def Normalize (U : CaseMap) (word : Str) : Str := qFixer (ToUpper U word)

/-- The function `Denormalize`. -/
def Denormalize (U : CaseMap) (word : Str) : Str := qUnfixer (Normalize U word)

/-- The call `strings.Split(s, "")`: one string per code point. -/
def Split (s : Str) : List Str := s.map fun c => [c]

/-- The function `CountLetters`: `c[l]++` for every letter in turn. -/
def CountLetters (letters : List Str) : countMap :=
  letters.foldl (fun c l => c.set l (c.get l + 1)) []

/-- The function `Count`. -/
def Count (U : CaseMap) (word : Str) : countMap := CountLetters (Split (Normalize U word))

/-- The method `countMap.Contains`: no entry of the needle exceeds the haystack. -/
def countMap.Contains (haystack needle : countMap) : Bool :=
  needle.all fun p => !decide (haystack.get p.1 < p.2)

end words

/-- How a run can fail to produce a value: the fuel of a random-driven loop ran
out, or the Go code panicked. -/
inductive Fault where
  | outOfFuel
  | panic
  deriving DecidableEq, Repr

/-- The random source `*rand.Rand` as an oracle: `newSource seed` is
`rand.New(rand.NewSource(seed))`, and `int63n s n` is the value and the next
state of `Int63n(n)` for a positive `n`. -/
structure Rng where
  State : Type
  newSource : Int → State
  int63n : State → Int → Int × State

/-- The method `(*rand.Rand).Int63n`, which panics unless `n` is positive. -/
def Rng.Int63n (R : Rng) (s : R.State) (n : Int) : Except Fault (Int × R.State) :=
  if n ≤ 0 then .error .panic else .ok (R.int63n s n)

namespace words

/-- String order `<` of Go (byte-wise, which on UTF-8 is code point-wise). -/
def strLess : Str → Str → Bool
  | [], [] => false
  | [], _ :: _ => true
  | _ :: _, [] => false
  | a :: as, b :: bs =>
    if a.toNat < b.toNat then true
    else if b.toNat < a.toNat then false
    else strLess as bs

/-- Insertion of one string into an ascending list. -/
def insertSorted (s : Str) : List Str → List Str
  | [] => [s]
  | t :: rest => if strLess t s then t :: insertSorted s rest else s :: t :: rest

/-- The call `sort.Sort(sort.StringSlice(letters))`. -/
def sortStrings (letters : List Str) : List Str :=
  letters.foldr insertSorted []

/-- The type `cdfPoint`. -/
structure cdfPoint where
  letter : Str
  mass : Int
  deriving DecidableEq, Repr

/-- The type `LetterGen`. -/
structure LetterGen where
  freqs : List (Str × Int)
  cdf : List cdfPoint
  total : Int
  deriving DecidableEq, Repr

/-- The second loop of `NewLetterGenFreqs`: the running `mass` and the table. -/
def buildCdf (freqs : List (Str × Int)) : Int → List Str → List cdfPoint
  | _, [] => []
  | mass, l :: rest =>
    let mass2 := wrap64 (mass + countMap.get freqs l)
    ⟨l, mass2⟩ :: buildCdf freqs mass2 rest

/-- The function `NewLetterGenFreqs`. -/
def NewLetterGenFreqs (freqs : List (Str × Int)) : LetterGen :=
  { freqs := freqs
    cdf := buildCdf freqs 0 (sortStrings (freqs.map Prod.fst))
    total := freqs.foldl (fun t p => wrap64 (t + p.2)) 0 }

/-- The scan of `LetterGen.Next`: the first entry whose mass exceeds `x`. -/
def scanCdf (x : Int) : List cdfPoint → Option Str
  | [] => none
  | c :: rest => if x < c.mass then some c.letter else scanCdf x rest

/-- The method `LetterGen.Next`; `panic("impossible")` is `Fault.panic`. -/
def LetterGen.Next (g : LetterGen) (R : Rng) (s : R.State) : Except Fault (Str × R.State) :=
  match R.Int63n s g.total with
  | .error e => .error e
  | .ok (x, s2) =>
    match scanCdf x g.cdf with
    | some l => .ok (l, s2)
    | none => .error .panic

/-- ASCII letters other than `q`/`Q`, with the two code points that Go's
case folding adds to `(?i:[a-pr-z])`: U+017F (folds to `s`) and U+212A (folds
to `k`). -/
def isWordRune (c : Char) : Bool :=
  let n := c.toNat
  (97 ≤ n && n ≤ 122 && n != 113) || (65 ≤ n && n ≤ 90 && n != 81) || n == 0x17F || n == 0x212A

/-- Number of units of `(?i:(?:[a-pr-z])|qu)` that spell the whole string, if
the string is made of such units. -/
def wordUnits : Str → Option Nat
  | [] => some 0
  | c :: rest =>
    if c = 'q' ∨ c = 'Q' then
      match rest with
      | [] => none
      | d :: rest2 => if d = 'u' ∨ d = 'U' then (wordUnits rest2).map (· + 1) else none
    else if isWordRune c then (wordUnits rest).map (· + 1)
    else none

/-- The regular expression `wordRE`, as `wordRE.MatchString`. -/
def wordRE (word : Str) : Bool :=
  match wordUnits word with
  | some n => decide (3 ≤ n)
  | none => false

/-- Length in bytes of a string (`len`). -/
def byteLen (s : Str) : Nat := (s.map Char.utf8Size).sum

/-- What `bufio.Scanner` hands out for the lines of the input: a trailing
carriage return is dropped, and scanning stops at the first line that does not
fit the 64 KiB token buffer. -/
def scanLines (lines : List Str) : List Str :=
  (lines.takeWhile fun l => decide (byteLen l < 65536)).map fun l =>
    if l.getLast? = some '\r' then l.dropLast else l

/-- The function `LoadValid`: the words sent on the channel, in order. The
argument is the reader's content cut at the newlines. -/
def LoadValid (U : CaseMap) (lines : List Str) (maxLen : Int) : List Str :=
  (scanLines lines).filter fun word =>
    wordRE word &&
      !(decide ((byteLen (Normalize U word) : Int) > maxLen) ||
        decide (byteLen (Normalize U word) < kMinLen))

/-- The regular expression `rejectRE` (`^[A-Z]`), as `rejectRE.MatchString`. The
package declares it and no function uses it. -/
def rejectRE (word : Str) : Bool :=
  match word with
  | [] => false
  | c :: _ => decide (65 ≤ c.toNat) && decide (c.toNat ≤ 90)

/-- The function `Max`: for every entry of every map in turn, keep `res[l]` when
it exceeds the entry's count, and store the count otherwise. -/
def Max (counts : List countMap) : countMap :=
  counts.foldl
    (fun res cm => cm.foldl
      (fun res p => if countMap.get res p.1 > p.2 then res else countMap.set res p.1 p.2) res)
    []

/-- The method `countMap.String`: every letter as often as it is counted, the
letters sorted and joined. -/
def countMap.String (cm : countMap) : Str :=
  (sortStrings (cm.flatMap fun p => List.replicate p.2.toNat p.1)).flatten

/-- The cumulative weight of a letter, as the sampler's contract states it: the
sum of the weights of the mapping's letters that are not greater than `l`. -/
def cumWeight (freqs : List (Str × Int)) (l : Str) : Int :=
  ((freqs.filter fun p => !strLess l p.1).map Prod.snd).sum

/-- The sum of the weights of the letters of a list that stand before `l`. -/
def weightBefore (freqs : List (Str × Int)) : List Str → Str → Int
  | [], _ => 0
  | k :: rest, l => if k = l then 0 else countMap.get freqs k + weightBefore freqs rest l

/-- A unit of `wordRE`, as the pattern reads: one code point of the class
`(?i:[a-pr-z])`, or the digraph "qu" in either case of either letter. -/
def isUnit (u : Str) : Bool :=
  match u with
  | [c] => isWordRune c
  | [c, d] => (decide (c = 'q') || decide (c = 'Q')) && (decide (d = 'u') || decide (d = 'U'))
  | _ => false

end words

namespace lex

open words

/-- The constant `kLen`. -/
def kLen : Nat := 4

/-- The constant `kSize`. -/
def kSize : Nat := kLen * kLen

/-- Map write `res[norm] = word` on a `map[string]string`. -/
def dictSet : List (Str × Str) → Str → Str → List (Str × Str)
  | [], k, v => [(k, v)]
  | (k2, v2) :: rest, k, v => if k2 = k then (k2, v) :: rest else (k2, v2) :: dictSet rest k v

/-- The test `_, has := dict[norm]`. -/
def dictHas : List (Str × Str) → Str → Bool
  | [], _ => false
  | (k, _) :: rest, norm => if k = norm then true else dictHas rest norm

/-- The function `mustLoadDict`, on the content of the word file. -/
def mustLoadDict (U : CaseMap) (lines : List Str) : List (Str × Str) :=
  (LoadValid U lines kSize).foldl (fun res word => dictSet res (Normalize U word) word) []

/-- The letters `'a'` to `'z'` of the first loop of `initFreqs`. -/
def lowerLetters : List Char := (List.range 26).map fun i => Char.ofNat (97 + i)

/-- The table `base` of `initFreqs`. -/
def base : List (Int × Str) := [(2, "lcfhmpvwy".toList), (3, "jkqxz".toList)]

/-- The function `initFreqs`: the value of `pointVals`. -/
def initFreqs (U : CaseMap) : List (Str × Int) :=
  let pv := lowerLetters.foldl (fun pv c => countMap.set pv (ToUpper U [c]) 1) []
  base.foldl (fun pv e => (Split (ToUpper U e.2)).foldl (fun pv l => countMap.set pv l e.1) pv) pv

/-- The function `invertPoints`: `res[l] = 1000 / v` for every entry; a zero
point value is a division by zero, which panics (`none`). -/
def invertPoints (points : List (Str × Int)) : Option (List (Str × Int)) :=
  points.foldl
    (fun acc e => acc.bind fun res =>
      if e.2 = 0 then none else some (countMap.set res e.1 (Int.tdiv 1000 e.2)))
    (some [])

/-- The package variables that the game reads. -/
structure Globals where
  kGameLen : Int
  dict : List (Str × Str)
  pointVals : List (Str × Int)
  letterGen : LetterGen

/-- The function `init`, as far as the game is concerned: `dev` is
`appengine.IsDevAppServer()` and `lines` the content of `filtered.words`. -/
def init (U : CaseMap) (dev : Bool) (lines : List Str) : Option Globals :=
  (invertPoints (initFreqs U)).map fun freqs =>
    { kGameLen := if dev then 4 else 10
      dict := mustLoadDict U lines
      pointVals := initFreqs U
      letterGen := NewLetterGenFreqs freqs }

/-- The type `Game`; `Started` is the Unix time of the time stamp. The field
`rng` is a nil pointer until `Unwind` sets it; the model holds a state there
that `Unwind` overwrites. -/
structure Game (R : Rng) where
  Started : Int
  Seed : Int
  Moves : List Str
  Letters : List Str
  Over : Bool
  rng : R.State

/-- The errors of `DoMove`. -/
inductive MoveError where
  | cantSpell (norm : Str) (board : countMap)
  | unknownWord (norm : Str)
  deriving DecidableEq, Repr

/-- The error of `Unwind`: the index of the failing move and its error. -/
structure ReplayError where
  step : Nat
  cause : MoveError
  deriving DecidableEq, Repr

/-- The loop of `RandLetter`: redraw while `Int63n(1 + pointVals[l]*cm[l]) > 0`.
The product of a point value and a tile count is taken without wrap-around. -/
def redraw (R : Rng) (G : Globals) (cm : countMap) :
    Nat → Str → R.State → Except Fault (Str × R.State)
  | 0, _, _ => .error .outOfFuel
  | fuel + 1, l, s =>
    match R.Int63n s (1 + countMap.get G.pointVals l * countMap.get cm l) with
    | .error e => .error e
    | .ok (x, s2) =>
      if x > 0 then
        match G.letterGen.Next R s2 with
        | .error e => .error e
        | .ok (l2, s3) => redraw R G cm fuel l2 s3
      else .ok (l, s2)

/-- The method `RandLetter`, on the board `letters`. -/
def RandLetter (R : Rng) (G : Globals) (fuel : Nat) (letters : List Str) (s : R.State) :
    Except Fault (Str × R.State) :=
  match G.letterGen.Next R s with
  | .error e => .error e
  | .ok (l, s2) => redraw R G (CountLetters letters) fuel l s2

/-- The loop of `Draw`, run `n` times: draw a letter and append it. -/
def drawN (R : Rng) (G : Globals) (fuel : Nat) :
    Nat → List Str → R.State → Except Fault (List Str × R.State)
  | 0, letters, s => .ok (letters, s)
  | n + 1, letters, s =>
    match RandLetter R G fuel letters s with
    | .error e => .error e
    | .ok (l, s2) => drawN R G fuel n (letters ++ [l]) s2

/-- The method `Draw`: the loop runs while `len(g.Letters) < kSize`, and every
round appends one letter, so it runs `kSize - len(g.Letters)` times. -/
def Draw (R : Rng) (G : Globals) (fuel : Nat) (letters : List Str) (s : R.State) :
    Except Fault (List Str × R.State) :=
  drawN R G fuel (kSize - letters.length) letters s

/-- The last loop of `DoMove`. `done` holds the slots already visited and the
list argument the slots still to visit, so the board is `done ++ l :: rest`
when slot `l` is visited. -/
def replaceTiles (R : Rng) (G : Globals) (fuel : Nat) :
    List Str → List Str → countMap → R.State → Except Fault (List Str × R.State)
  | done, [], _, s => .ok (done, s)
  | done, l :: rest, cm, s =>
    if countMap.get cm l > 0 then
      match RandLetter R G fuel (done ++ l :: rest) s with
      | .error e => .error e
      | .ok (l2, s2) =>
        replaceTiles R G fuel (done ++ [l2]) rest (countMap.set cm l (countMap.get cm l - 1)) s2
    else replaceTiles R G fuel (done ++ [l]) rest cm s

/-- The part of `DoMove` after validation: record the move, set `Over`, and
replace the tiles that the move used. -/
def commitMove (R : Rng) (G : Globals) (fuel : Nat) (g : Game R) (norm : Str) (cm : countMap) :
    Except Fault (Option MoveError × Game R) :=
  let moves := g.Moves ++ [norm]
  let over := if (moves.length : Int) ≥ G.kGameLen then true else g.Over
  match replaceTiles R G fuel [] g.Letters cm g.rng with
  | .error e => .error e
  | .ok (letters, s) =>
    .ok (none, { g with Moves := moves, Over := over, Letters := letters, rng := s })

/-- The method `DoMove`: the returned error (`none` is `nil`) and the game as
the call leaves it. -/
def DoMove (U : CaseMap) (R : Rng) (G : Globals) (fuel : Nat) (g : Game R) (move : Str) :
    Except Fault (Option MoveError × Game R) :=
  let norm := Normalize U move
  let cm := Count U norm
  if move = [] then
    match Draw R G fuel [] g.rng with
    | .error e => .error e
    | .ok (letters, s) => commitMove R G fuel { g with Letters := letters, rng := s } norm cm
  else if !(CountLetters g.Letters).Contains cm then
    .ok (some (.cantSpell norm (CountLetters g.Letters)), g)
  else if !dictHas G.dict norm then
    .ok (some (.unknownWord norm), g)
  else commitMove R G fuel g norm cm

/-- The loop of `Unwind` from step `i` on. -/
def unwindFrom (U : CaseMap) (R : Rng) (G : Globals) (fuel : Nat) :
    Nat → Game R → List Str → Except Fault (Option ReplayError × Game R)
  | _, g, [] => .ok (none, g)
  | i, g, move :: rest =>
    match DoMove U R G fuel g move with
    | .error e => .error e
    | .ok (some err, g2) => .ok (some ⟨i, err⟩, g2)
    | .ok (none, g2) => unwindFrom U R G fuel (i + 1) g2 rest

/-- The method `Unwind`. -/
def Unwind (U : CaseMap) (R : Rng) (G : Globals) (fuel : Nat) (g : Game R) (moves : List Str) :
    Except Fault (Option ReplayError × Game R) :=
  let s := R.newSource (Int.xor g.Seed g.Started)
  match Draw R G fuel g.Letters s with
  | .error e => .error e
  | .ok (letters, s2) => unwindFrom U R G fuel 0 { g with Letters := letters, rng := s2 } moves

/-- The function `ScoreWord`, in `int64` arithmetic. -/
def ScoreWord (U : CaseMap) (pointVals : List (Str × Int)) (word : Str) : Int :=
  if word = [] then 0
  else
    let score := (Split (Normalize U word)).foldl
      (fun score l => wrap64 (score + countMap.get pointVals l)) 1
    wrap64 (score * score)

/-- The method `Game.Score`. -/
def Score (U : CaseMap) (pointVals : List (Str × Int)) (moves : List Str) : Int :=
  moves.foldl (fun score move => wrap64 (score + ScoreWord U pointVals move)) 0

/-- A game value before `Unwind`: the zero value with `Seed` and `Started` set. -/
def freshGame (R : Rng) (seed started : Int) : Game R :=
  { Started := started, Seed := seed, Moves := [], Letters := [], Over := false,
    rng := R.newSource 0 }

/-- The oracle whose every draw is 0. -/
def zeroRng : Rng := ⟨Unit, fun _ => (), fun s _ => (0, s)⟩

/-- The oracle that reads its draws off a list, reduced modulo the bound, and
draws 0 once the list is used up. -/
def scriptRng (script : List Int) : Rng :=
  ⟨List Int, fun _ => script, fun s n => match s with
    | [] => (0, [])
    | x :: rest => (x % n, rest)⟩

/-- The point value of a letter as the scoring rule states it: 3 for J, K, Q,
X, Z, 2 for L, C, F, H, M, P, V, W, Y, 1 for the other letters A to Z, and 0
for any other symbol. -/
def letterValue (c : Char) : Int :=
  if c ∈ ['J', 'K', 'Q', 'X', 'Z'] then 3
  else if c ∈ ['L', 'C', 'F', 'H', 'M', 'P', 'V', 'W', 'Y'] then 2
  else if 65 ≤ c.toNat ∧ c.toNat ≤ 90 then 1
  else 0

/-- The rejection loop of `RandLetter` ends for every board and every state of
the random source: some amount of fuel lets `RandLetter` return a letter. -/
def SamplerHalts (R : Rng) (G : Globals) : Prop :=
  ∀ (letters : List Str) (s : R.State), ∃ fuel l s2, RandLetter R G fuel letters s = .ok (l, s2)

/-- The condition under which `DoMove` accepts a move: it is empty, or the
tiles cover `Count(norm)` and `norm` is a key of the dictionary. -/
def Legal (U : CaseMap) (G : Globals) (letters : List Str) (m : Str) : Prop :=
  m = [] ∨ ((CountLetters letters).Contains (Count U (Normalize U m)) = true ∧
    dictHas G.dict (Normalize U m) = true)

/-- A small word file, for concrete instances. -/
def sampleWords : List Str := ["quux".toList, "moon".toList, "Bar".toList]

/-- The package variables of the production server on `sampleWords`. -/
def sampleGlobals : Globals := (init asciiCase false sampleWords).get (by decide)

/-- A game with the given tiles, one letter per code point of `board`, and no
move made. -/
def sampleGame (R : Rng) (s : R.State) (board : String) : Game R :=
  { Started := 0, Seed := 0, Moves := [], Letters := Split board.toList, Over := false, rng := s }

/-- A tile: a single letter `A` to `Z`. -/
def isTile (l : Str) : Bool :=
  match l with
  | [c] => decide (65 ≤ c.toNat) && decide (c.toNat ≤ 90)
  | _ => false

/-- The grid-size invariant: `Letters` has `kSize` elements, each a tile. -/
def GridOK {R : Rng} (g : Game R) : Prop :=
  g.Letters.length = kSize ∧ ∀ l ∈ g.Letters, isTile l = true

/-- Draws that make `Draw` fill the grid with Q, U, X and thirteen A. -/
def quxScript : List Int := [11700, 0, 15000, 0, 17000, 0]

/-- Draws that make `Draw` fill the grid with M, O, O, N and twelve A. -/
def moonScript : List Int := [8700, 0, 10200, 0, 10200, 0, 9200, 0]

/-- Two values of the package variables that the game cannot tell apart: the
same game length, dictionaries with the same keys, point values that read the
same, and samplers with the same table and total. -/
def SameGlobals (G G2 : Globals) : Prop :=
  G.kGameLen = G2.kGameLen ∧
  (∀ norm, dictHas G.dict norm = dictHas G2.dict norm) ∧
  (∀ l, countMap.get G.pointVals l = countMap.get G2.pointVals l) ∧
  G.letterGen.cdf = G2.letterGen.cdf ∧
  G.letterGen.total = G2.letterGen.total

end lex

namespace words

theorem ToUpper_ascii (U : CaseMap) (s : Str) (h : ∀ c ∈ s, c.toNat < 128) :
    ToUpper U s = ToUpper asciiCase s := by
  unfold ToUpper
  apply List.map_congr_left
  intro c hc
  exact U.ascii c (h c hc)

theorem Normalize_ascii (U : CaseMap) (s : Str) (h : ∀ c ∈ s, c.toNat < 128) :
    Normalize U s = Normalize asciiCase s := by
  unfold Normalize
  rw [ToUpper_ascii U s h]

theorem get_set (cm : countMap) (l k : Str) (c : Int) :
    (cm.set l c).get k = if l = k then c else cm.get k := by
  induction cm with
  | nil => simp [countMap.set, countMap.get]
  | cons p rest ih =>
    obtain ⟨a, b⟩ := p
    by_cases h : a = l
    · subst h
      by_cases hk : a = k <;> simp [countMap.set, countMap.get, hk]
    · by_cases hk : a = k
      · subst hk
        simp [countMap.set, countMap.get, h, Ne.symm h]
      · simp [countMap.set, countMap.get, h, hk, ih]

theorem keys_set (cm : countMap) (l : Str) (c : Int) :
    (cm.set l c).map Prod.fst = if l ∈ cm.map Prod.fst then cm.map Prod.fst
      else cm.map Prod.fst ++ [l] := by
  induction cm with
  | nil => simp [countMap.set]
  | cons p rest ih =>
    obtain ⟨a, b⟩ := p
    by_cases h : a = l
    · subst h
      simp [countMap.set]
    · have h2 : ¬ l = a := fun e => h e.symm
      by_cases hm : l ∈ rest.map Prod.fst
      · simp only [countMap.set, h, if_false, List.map_cons, ih, hm, if_true, List.mem_cons,
          or_true]
      · simp only [countMap.set, h, if_false, List.map_cons, ih, hm, List.mem_cons, h2,
          or_self, List.cons_append]

theorem nodup_keys_set (cm : countMap) (l : Str) (c : Int) (h : (cm.map Prod.fst).Nodup) :
    ((cm.set l c).map Prod.fst).Nodup := by
  rw [keys_set]
  split
  · exact h
  · rename_i hm
    exact List.Nodup.append h (List.nodup_singleton l) (by simpa using hm)

theorem get_of_mem (cm : countMap) (h : (cm.map Prod.fst).Nodup) (k : Str) (v : Int)
    (hm : (k, v) ∈ cm) : cm.get k = v := by
  induction cm with
  | nil => cases hm
  | cons p rest ih =>
    obtain ⟨a, b⟩ := p
    simp only [List.map_cons, List.nodup_cons] at h
    rcases List.mem_cons.1 hm with e | hm2
    · cases e
      simp [countMap.get]
    · have hne : a ≠ k := by
        intro e
        subst e
        exact h.1 (List.mem_map.2 ⟨(a, v), hm2, rfl⟩)
      simp [countMap.get, hne, ih h.2 hm2]

theorem mem_of_key (cm : countMap) (k : Str) (hk : k ∈ cm.map Prod.fst) :
    (k, cm.get k) ∈ cm := by
  induction cm with
  | nil => cases hk
  | cons p rest ih =>
    obtain ⟨a, b⟩ := p
    by_cases h : a = k
    · subst h
      simp [countMap.get]
    · have hk2 : k ∈ rest.map Prod.fst := by
        simpa [Ne.symm h] using hk
      simp only [countMap.get, h, if_false]
      exact List.mem_cons_of_mem _ (ih hk2)

theorem get_of_not_key (cm : countMap) (k : Str) (hk : k ∉ cm.map Prod.fst) :
    cm.get k = 0 := by
  induction cm with
  | nil => rfl
  | cons p rest ih =>
    obtain ⟨a, b⟩ := p
    simp only [List.map_cons, List.mem_cons, not_or] at hk
    simp [countMap.get, Ne.symm hk.1, ih hk.2]

/-- The tally loop, started from any map. -/
theorem tally_spec (ls : List Str) (acc : countMap) :
    (∀ l, (ls.foldl (fun c l => c.set l (c.get l + 1)) acc).get l = acc.get l + ls.count l) ∧
    ((acc.map Prod.fst).Nodup →
      ((ls.foldl (fun c l => c.set l (c.get l + 1)) acc).map Prod.fst).Nodup) ∧
    (∀ l, l ∈ (ls.foldl (fun c l => c.set l (c.get l + 1)) acc).map Prod.fst ↔
      l ∈ acc.map Prod.fst ∨ l ∈ ls) := by
  induction ls generalizing acc with
  | nil => simp
  | cons a rest ih =>
    obtain ⟨h1, h2, h3⟩ := ih (acc.set a (acc.get a + 1))
    refine ⟨?_, ?_, ?_⟩
    · intro l
      rw [List.foldl_cons, h1, get_set, List.count_cons]
      by_cases e : a = l
      · subst e
        simp
        ring
      · simp [e]
    · intro hn
      exact h2 (nodup_keys_set _ _ _ hn)
    · intro l
      rw [List.foldl_cons, h3, keys_set]
      by_cases hm : a ∈ acc.map Prod.fst
      · simp only [hm, if_true, List.mem_cons]
        constructor
        · rintro (h | h)
          · exact Or.inl h
          · exact Or.inr (Or.inr h)
        · rintro (h | h | h)
          · exact Or.inl h
          · subst h
            exact Or.inl hm
          · exact Or.inr h
      · simp only [hm, if_false, List.mem_append, List.mem_singleton, List.mem_cons]
        tauto

theorem get_CountLetters (ls : List Str) (l : Str) :
    (CountLetters ls).get l = ls.count l := by
  have := (tally_spec ls []).1 l
  simpa [CountLetters, countMap.get] using this

theorem nodup_CountLetters (ls : List Str) : ((CountLetters ls).map Prod.fst).Nodup :=
  (tally_spec ls []).2.1 List.nodup_nil

theorem key_CountLetters (ls : List Str) (l : Str) :
    l ∈ (CountLetters ls).map Prod.fst ↔ l ∈ ls := by
  have := (tally_spec ls []).2.2 l
  simpa [CountLetters] using this

/-- The containment test, entry by entry and then letter by letter. -/
theorem Contains_CountLetters (tiles ws : List Str) :
    (CountLetters tiles).Contains (CountLetters ws) = true ↔
      ∀ l : Str, ws.count l ≤ tiles.count l := by
  unfold countMap.Contains
  rw [List.all_eq_true]
  constructor
  · intro h l
    by_cases hl : l ∈ ws
    · have hk := (key_CountLetters ws l).2 hl
      have hm := mem_of_key _ l hk
      have := h _ hm
      simp only [Bool.not_eq_true', decide_eq_false_iff_not, not_lt] at this
      rw [get_CountLetters, get_CountLetters] at this
      exact_mod_cast this
    · rw [List.count_eq_zero_of_not_mem hl]
      exact Nat.zero_le _
  · rintro h ⟨k, v⟩ hm
    have hv := get_of_mem _ (nodup_CountLetters ws) k v hm
    rw [get_CountLetters] at hv
    simp only [Bool.not_eq_true', decide_eq_false_iff_not, not_lt]
    rw [get_CountLetters, ← hv]
    exact_mod_cast h k

theorem qFixer_QU (rest : Str) : qFixer ('Q' :: 'U' :: rest) = 'Q' :: qFixer rest := by
  rw [qFixer.eq_def]
  simp

theorem qFixer_Q_other (d : Char) (rest : Str) (h : d ≠ 'U') :
    qFixer ('Q' :: d :: rest) = 'Q' :: qFixer (d :: rest) := by
  rw [qFixer.eq_def]
  simp [h]

theorem qFixer_other (c : Char) (rest : Str) (h : c ≠ 'Q') :
    qFixer (c :: rest) = c :: qFixer rest := by
  rw [qFixer.eq_def]
  simp [h]

theorem length_qFixer_le (s : Str) : (qFixer s).length ≤ s.length := by
  induction s using qFixer.induct with
  | case1 => simp [qFixer]
  | case2 => simp [qFixer]
  | case3 rest2 ih => rw [qFixer_QU]; simp only [List.length_cons]; omega
  | case4 d rest2 hd ih =>
    rw [qFixer_Q_other d rest2 hd]
    simp only [List.length_cons] at ih ⊢
    omega
  | case5 c rest hc ih =>
    rw [qFixer_other c rest hc]
    simp only [List.length_cons]
    omega

theorem length_Normalize_le (U : CaseMap) (s : Str) : (Normalize U s).length ≤ s.length := by
  unfold Normalize
  have := length_qFixer_le (ToUpper U s)
  simpa [ToUpper] using this

end words

namespace lex

open words

theorem initFreqs_ascii (U : CaseMap) : initFreqs U = initFreqs asciiCase := by
  unfold initFreqs
  have h1 : ∀ (pv : countMap), ∀ c ∈ lowerLetters,
      countMap.set pv (ToUpper U [c]) 1 = countMap.set pv (ToUpper asciiCase [c]) 1 := by
    intro pv c hc
    have hlt : ∀ d ∈ lowerLetters, d.toNat < 128 := by decide
    rw [ToUpper_ascii U [c] (by intro d hd; rw [List.mem_singleton.1 hd]; exact hlt c hc)]
  have h2 : ∀ (pv : countMap), ∀ e ∈ base,
      (Split (ToUpper U e.2)).foldl (fun pv l => countMap.set pv l e.1) pv =
      (Split (ToUpper asciiCase e.2)).foldl (fun pv l => countMap.set pv l e.1) pv := by
    intro pv e he
    have hlt : ∀ e ∈ base, ∀ d ∈ e.2, d.toNat < 128 := by decide
    rw [ToUpper_ascii U e.2 (hlt e he)]
  simp only []
  rw [List.foldl_ext _ _ _ h1, List.foldl_ext _ _ _ h2]

theorem initFreqs_table : initFreqs asciiCase =
    [(['A'], 1), (['B'], 1), (['C'], 2), (['D'], 1), (['E'], 1), (['F'], 2), (['G'], 1),
     (['H'], 2), (['I'], 1), (['J'], 3), (['K'], 3), (['L'], 2), (['M'], 2), (['N'], 1),
     (['O'], 1), (['P'], 2), (['Q'], 3), (['R'], 1), (['S'], 1), (['T'], 1), (['U'], 1),
     (['V'], 2), (['W'], 2), (['X'], 3), (['Y'], 2), (['Z'], 3)] := by
  decide

theorem char_of_range (c : Char) (h1 : 65 ≤ c.toNat) (h2 : c.toNat ≤ 90) :
    c ∈ "ABCDEFGHIJKLMNOPQRSTUVWXYZ".toList := by
  have hc : c = Char.ofNat c.toNat := (Char.ofNat_toNat c).symm
  generalize c.toNat = n at hc h1 h2
  subst hc
  interval_cases n <;> decide

theorem pointVals_single (U : CaseMap) (c : Char) :
    countMap.get (initFreqs U) [c] = letterValue c := by
  rw [initFreqs_ascii, initFreqs_table]
  by_cases h : 65 ≤ c.toNat ∧ c.toNat ≤ 90
  · have := char_of_range c h.1 h.2
    simp only [String.toList, List.mem_cons, List.mem_nil_iff, or_false] at this
    rcases this with h | h | h | h | h | h | h | h | h | h | h | h | h | h | h | h | h | h | h
      | h | h | h | h | h | h | h <;> subst h <;> decide
  · have hkeys : ∀ k ∈ (initFreqs asciiCase).map Prod.fst,
        ∃ d : Char, k = [d] ∧ 65 ≤ d.toNat ∧ d.toNat ≤ 90 := by
      have ha : ∀ d ∈ "ABCDEFGHIJKLMNOPQRSTUVWXYZ".toList, 65 ≤ d.toNat ∧ d.toNat ≤ 90 := by
        decide
      have hk : (initFreqs asciiCase).map Prod.fst =
          "ABCDEFGHIJKLMNOPQRSTUVWXYZ".toList.map fun d => [d] := by decide
      intro k hm
      rw [hk] at hm
      obtain ⟨d, hd, e⟩ := List.mem_map.1 hm
      exact ⟨d, e.symm, ha d hd⟩
    rw [← initFreqs_table, get_of_not_key]
    · have h3 : ∀ d ∈ ['J', 'K', 'Q', 'X', 'Z'], 65 ≤ d.toNat ∧ d.toNat ≤ 90 := by decide
      have h2 : ∀ d ∈ ['L', 'C', 'F', 'H', 'M', 'P', 'V', 'W', 'Y'],
          65 ≤ d.toNat ∧ d.toNat ≤ 90 := by decide
      unfold letterValue
      rw [if_neg (fun hm => h (h3 c hm)), if_neg (fun hm => h (h2 c hm)), if_neg h]
    · intro hk
      obtain ⟨d, hd, hr⟩ := hkeys _ hk
      cases hd
      exact h hr

theorem wrap64_of_range (x : Int) (h1 : -2 ^ 63 ≤ x) (h2 : x < 2 ^ 63) : wrap64 x = x := by
  unfold wrap64
  rw [Int.emod_eq_of_lt (by omega) (by omega)]
  omega

theorem letterValue_range (c : Char) : 0 ≤ letterValue c ∧ letterValue c ≤ 3 := by
  unfold letterValue
  split
  · omega
  · split
    · omega
    · split <;> omega

/-- The scoring loop adds the letter values exactly as long as the running
score stays below `2^63`. -/
theorem score_loop (U : CaseMap) (s : Str) (init : Int) (h0 : 0 ≤ init)
    (h1 : init + 3 * s.length < 2 ^ 63) :
    (Split s).foldl (fun score l => wrap64 (score + countMap.get (initFreqs U) l)) init =
      init + (s.map letterValue).sum := by
  induction s generalizing init with
  | nil => simp [Split]
  | cons c rest ih =>
    have hr := letterValue_range c
    simp only [List.length_cons, Nat.cast_add, Nat.cast_one] at h1
    have hw : wrap64 (init + letterValue c) = init + letterValue c :=
      wrap64_of_range _ (by omega) (by omega)
    simp only [Split, List.map_cons, List.foldl_cons, List.sum_cons, pointVals_single, hw]
    have := ih (init + letterValue c) (by omega) (by omega)
    simp only [Split] at this
    rw [this]
    ring

theorem sum_letterValue_range (s : Str) :
    0 ≤ (s.map letterValue).sum ∧ (s.map letterValue).sum ≤ 3 * s.length := by
  induction s with
  | nil => simp
  | cons c rest ih =>
    have hr := letterValue_range c
    simp only [List.map_cons, List.sum_cons, List.length_cons, Nat.cast_add, Nat.cast_one]
    omega

/-- C5: `ScoreWord("")` is 0, and the score of a non-empty word is the square of one plus
the point values of the letters of its normal form, the point value being 3 for J, K, Q, X, Z,
2 for L, C, F, H, M, P, V, W, Y, 1 for the other letters A to Z and 0 for any other symbol.
The word is shorter than `10^9` code points, which keeps the `int64` arithmetic exact. -/
theorem C5_ScoreWord_formula (U : CaseMap) (word : Str) (hne : word ≠ [])
    (hlen : word.length < 1000000000) :
    ScoreWord U (initFreqs U) [] = 0 ∧
    ScoreWord U (initFreqs U) word = (1 + ((Normalize U word).map letterValue).sum) ^ 2 := by
  refine ⟨by simp [ScoreWord], ?_⟩
  have hl := length_Normalize_le U word
  have hs := sum_letterValue_range (Normalize U word)
  have hloop := score_loop U (Normalize U word) 1 (by omega) (by omega)
  simp only [ScoreWord, hne, if_false, hloop]
  rw [wrap64_of_range]
  · ring
  · nlinarith
  · nlinarith

/-- C5 at a concrete input: "quiz" has the normal form QIZ and scores (1 + 3 + 1 + 3)^2. -/
theorem C5_ScoreWord_witness :
    "quiz".toList ≠ [] ∧ "quiz".toList.length < 1000000000 ∧
    ScoreWord asciiCase (initFreqs asciiCase) "quiz".toList = 64 :=
  ⟨by decide, by decide,
    ((C5_ScoreWord_formula asciiCase "quiz".toList (by decide) (by decide)).2).trans
      (by decide)⟩

end lex

namespace words

theorem count_Split (s : Str) (c : Char) : (Split s).count [c] = s.count c := by
  induction s with
  | nil => rfl
  | cons d rest ih =>
    simp only [Split, List.map_cons, List.count_cons] at ih ⊢
    rw [ih]
    by_cases h : d = c <;> simp [h]

theorem mem_Split (s : Str) (l : Str) : l ∈ Split s ↔ ∃ c ∈ s, l = [c] := by
  simp [Split, eq_comm]

/-- C4: the tiles contain the tally of a word exactly when every letter of the word's
normal form (upper-cased, each "QU" compressed to "Q") occurs among the tiles at least as
often as in the normal form; the tiles of ASTRONOMER contain "moon" and "starer" and do not
contain "noodle". -/
theorem C4_Contains_iff_letter_counts (U : CaseMap) (tiles : List Str) (word : Str) :
    ((CountLetters tiles).Contains (Count U word) = true ↔
      ∀ c : Char, (Normalize U word).count c ≤ tiles.count [c]) ∧
    (CountLetters (Split "ASTRONOMER".toList)).Contains (Count U "moon".toList) = true ∧
    (CountLetters (Split "ASTRONOMER".toList)).Contains (Count U "starer".toList) = true ∧
    (CountLetters (Split "ASTRONOMER".toList)).Contains (Count U "noodle".toList) = false := by
  refine ⟨?_, ?_, ?_, ?_⟩
  · unfold Count
    rw [Contains_CountLetters]
    constructor
    · intro h c
      rw [← count_Split]
      exact h [c]
    · intro h l
      by_cases hl : l ∈ Split (Normalize U word)
      · obtain ⟨c, _, e⟩ := (mem_Split _ _).1 hl
        subst e
        rw [count_Split]
        exact h c
      · rw [List.count_eq_zero_of_not_mem hl]
        exact Nat.zero_le _
  · unfold Count
    rw [Normalize_ascii U _ (by decide)]
    decide
  · unfold Count
    rw [Normalize_ascii U _ (by decide)]
    decide
  · unfold Count
    rw [Normalize_ascii U _ (by decide)]
    decide

/-- C7, at the input "quu": `Normalize` gives "QU", and `Normalize` of that is "Q", so a
second application changes the result. -/
theorem C7_Normalize_twice_quu (U : CaseMap) :
    Normalize U "quu".toList = "QU".toList ∧
    Normalize U (Normalize U "quu".toList) = "Q".toList ∧
    Normalize U (Normalize U "quu".toList) ≠ Normalize U "quu".toList := by
  have h1 : Normalize U "quu".toList = "QU".toList := by
    rw [Normalize_ascii U _ (by decide)]
    decide
  have h2 : Normalize U "QU".toList = "Q".toList := by
    rw [Normalize_ascii U _ (by decide)]
    decide
  refine ⟨h1, ?_, ?_⟩
  · rw [h1, h2]
  · rw [h1, h2]
    decide

/-- The replacer `qUnfixer` puts "Qu" for every `Q` and keeps every other code point. -/
theorem qUnfixer_eq_flatMap (s : Str) :
    qUnfixer s = s.flatMap fun c => if c = 'Q' then ['Q', 'u'] else [c] := by
  induction s with
  | nil => rfl
  | cons c rest ih =>
    by_cases h : c = 'Q' <;> simp [qUnfixer, h, ih]

/-- C8, as stated, fails: under no case map is `Denormalize("QARTER")` the string
"QUARTER". -/
theorem C8_Denormalize_QARTER_not_QUARTER :
    ¬ ∃ U : CaseMap, Denormalize U "QARTER".toList = "QUARTER".toList := by
  rintro ⟨U, h⟩
  unfold Denormalize at h
  rw [Normalize_ascii U _ (by decide)] at h
  revert h
  decide

/-- C8, amended: `Denormalize(w)` is `Normalize(w)` with "Qu" (capital Q, small u) put for
every `Q` and every other code point kept; `Normalize("quarter")` is "QARTER" and
`Denormalize("QARTER")` is "QuARTER". -/
theorem C8_Denormalize_restores_Qu (U : CaseMap) (w : Str) :
    Denormalize U w = (Normalize U w).flatMap (fun c => if c = 'Q' then ['Q', 'u'] else [c]) ∧
    Normalize U "quarter".toList = "QARTER".toList ∧
    Denormalize U "QARTER".toList = "QuARTER".toList := by
  refine ⟨qUnfixer_eq_flatMap _, ?_, ?_⟩
  · rw [Normalize_ascii U _ (by decide)]
    decide
  · unfold Denormalize
    rw [Normalize_ascii U _ (by decide)]
    decide

end words

namespace lex

open words

theorem redraw_mono (R : Rng) (G : Globals) (cm : countMap) (fuel : Nat) :
    ∀ (l : Str) (s : R.State) (v : Str × R.State), redraw R G cm fuel l s = .ok v →
      ∀ k, redraw R G cm (fuel + k) l s = .ok v := by
  induction fuel with
  | zero => intro l s v h; simp [redraw] at h
  | succ n ih =>
    intro l s v h k
    rw [show n + 1 + k = (n + k) + 1 by omega]
    unfold redraw at h ⊢
    cases hx : R.Int63n s (1 + countMap.get G.pointVals l * countMap.get cm l) with
    | error e => simp [hx] at h
    | ok p =>
      obtain ⟨x, s2⟩ := p
      simp only [hx] at h ⊢
      by_cases hpos : x > 0
      · simp only [hpos, if_true] at h ⊢
        cases hn : G.letterGen.Next R s2 with
        | error e => simp [hn] at h
        | ok q =>
          obtain ⟨l2, s3⟩ := q
          simp only [hn] at h ⊢
          exact ih l2 s3 v h k
      · simp only [hpos, if_false] at h ⊢
        exact h

theorem RandLetter_mono (R : Rng) (G : Globals) (fuel : Nat) (letters : List Str)
    (s : R.State) (v : Str × R.State) (h : RandLetter R G fuel letters s = .ok v) (k : Nat) :
    RandLetter R G (fuel + k) letters s = .ok v := by
  unfold RandLetter at h ⊢
  cases hn : G.letterGen.Next R s with
  | error e => simp [hn] at h
  | ok q =>
    obtain ⟨l, s2⟩ := q
    simp only [hn] at h ⊢
    exact redraw_mono R G _ fuel l s2 v h k

theorem drawN_mono (R : Rng) (G : Globals) (fuel : Nat) (n : Nat) :
    ∀ (letters : List Str) (s : R.State) (v : List Str × R.State),
      drawN R G fuel n letters s = .ok v → ∀ k, drawN R G (fuel + k) n letters s = .ok v := by
  induction n with
  | zero => intro letters s v h k; simpa [drawN] using h
  | succ n ih =>
    intro letters s v h k
    unfold drawN at h ⊢
    cases hr : RandLetter R G fuel letters s with
    | error e => simp [hr] at h
    | ok q =>
      obtain ⟨l, s2⟩ := q
      simp only [hr] at h
      simp only [RandLetter_mono R G fuel letters s _ hr k]
      exact ih _ _ v h k

theorem replaceTiles_mono (R : Rng) (G : Globals) (fuel : Nat) (rest : List Str) :
    ∀ (done : List Str) (cm : countMap) (s : R.State) (v : List Str × R.State),
      replaceTiles R G fuel done rest cm s = .ok v →
      ∀ k, replaceTiles R G (fuel + k) done rest cm s = .ok v := by
  induction rest with
  | nil => intro done cm s v h k; simpa [replaceTiles] using h
  | cons l rest ih =>
    intro done cm s v h k
    unfold replaceTiles at h ⊢
    by_cases hc : countMap.get cm l > 0
    · simp only [hc, if_true] at h ⊢
      cases hr : RandLetter R G fuel (done ++ l :: rest) s with
      | error e => simp [hr] at h
      | ok q =>
        obtain ⟨l2, s2⟩ := q
        simp only [hr] at h
        simp only [RandLetter_mono R G fuel _ s _ hr k]
        exact ih _ _ _ v h k
    · simp only [hc, if_false] at h ⊢
      exact ih _ _ _ v h k

theorem drawN_terminates (R : Rng) (G : Globals) (hH : SamplerHalts R G) (n : Nat) :
    ∀ (letters : List Str) (s : R.State), ∃ fuel v, drawN R G fuel n letters s = .ok v := by
  induction n with
  | zero => intro letters s; exact ⟨0, _, rfl⟩
  | succ n ih =>
    intro letters s
    obtain ⟨f1, l, s2, h1⟩ := hH letters s
    obtain ⟨f2, v, h2⟩ := ih (letters ++ [l]) s2
    refine ⟨f1 + f2, v, ?_⟩
    unfold drawN
    simp only [RandLetter_mono R G f1 letters s _ h1 f2]
    rw [Nat.add_comm]
    exact drawN_mono R G f2 n _ _ v h2 f1

theorem replaceTiles_terminates (R : Rng) (G : Globals) (hH : SamplerHalts R G)
    (rest : List Str) :
    ∀ (done : List Str) (cm : countMap) (s : R.State),
      ∃ fuel v, replaceTiles R G fuel done rest cm s = .ok v := by
  induction rest with
  | nil => intro done cm s; exact ⟨0, _, rfl⟩
  | cons l rest ih =>
    intro done cm s
    by_cases hc : countMap.get cm l > 0
    · obtain ⟨f1, l2, s2, h1⟩ := hH (done ++ l :: rest) s
      obtain ⟨f2, v, h2⟩ := ih (done ++ [l2]) (countMap.set cm l (countMap.get cm l - 1)) s2
      refine ⟨f1 + f2, v, ?_⟩
      unfold replaceTiles
      simp only [hc, if_true, RandLetter_mono R G f1 _ s _ h1 f2]
      rw [Nat.add_comm]
      exact replaceTiles_mono R G f2 rest _ _ _ v h2 f1
    · obtain ⟨f2, v, h2⟩ := ih (done ++ [l]) cm s
      refine ⟨f2, v, ?_⟩
      unfold replaceTiles
      simp only [hc, if_false]
      exact h2

theorem commitMove_ok (R : Rng) (G : Globals) (fuel : Nat) (g : Game R) (norm : Str)
    (cm : countMap) (r : Option MoveError) (g2 : Game R)
    (h : commitMove R G fuel g norm cm = .ok (r, g2)) :
    r = none ∧ g2.Moves = g.Moves ++ [norm] ∧
    g2.Over = (if ((g.Moves ++ [norm]).length : Int) ≥ G.kGameLen then true else g.Over) ∧
    replaceTiles R G fuel [] g.Letters cm g.rng = .ok (g2.Letters, g2.rng) ∧
    g2.Seed = g.Seed ∧ g2.Started = g.Started := by
  unfold commitMove at h
  cases ht : replaceTiles R G fuel [] g.Letters cm g.rng with
  | error e => simp [ht] at h
  | ok q =>
    obtain ⟨letters, s⟩ := q
    simp only [ht, Except.ok.injEq, Prod.mk.injEq] at h
    obtain ⟨h1, h2⟩ := h
    subst h2
    exact ⟨h1.symm, rfl, rfl, rfl, rfl, rfl⟩

theorem commitMove_mono (R : Rng) (G : Globals) (fuel : Nat) (g : Game R) (norm : Str)
    (cm : countMap) (v : Option MoveError × Game R)
    (h : commitMove R G fuel g norm cm = .ok v) (k : Nat) :
    commitMove R G (fuel + k) g norm cm = .ok v := by
  unfold commitMove at h ⊢
  cases ht : replaceTiles R G fuel [] g.Letters cm g.rng with
  | error e => simp [ht] at h
  | ok q =>
    simp only [ht] at h
    simp only [replaceTiles_mono R G fuel _ _ _ _ _ ht k]
    exact h

theorem commitMove_terminates (R : Rng) (G : Globals) (hH : SamplerHalts R G) (g : Game R)
    (norm : Str) (cm : countMap) :
    ∃ fuel g2, commitMove R G fuel g norm cm = .ok (none, g2) := by
  obtain ⟨f, ⟨letters, s⟩, h⟩ := replaceTiles_terminates R G hH g.Letters [] cm g.rng
  refine ⟨f, { g with
    Moves := g.Moves ++ [norm]
    Over := if ((g.Moves ++ [norm]).length : Int) ≥ G.kGameLen then true else g.Over
    Letters := letters
    rng := s }, ?_⟩
  unfold commitMove
  simp only [h]

theorem DoMove_pass (U : CaseMap) (R : Rng) (G : Globals) (fuel : Nat) (g : Game R) :
    DoMove U R G fuel g [] =
      match Draw R G fuel [] g.rng with
      | .error e => .error e
      | .ok (letters, s) =>
        commitMove R G fuel { g with Letters := letters, rng := s } (Normalize U [])
          (Count U (Normalize U [])) := by
  simp [DoMove]

theorem DoMove_cantSpell (U : CaseMap) (R : Rng) (G : Globals) (fuel : Nat) (g : Game R)
    (m : Str) (hm : m ≠ [])
    (hc : (CountLetters g.Letters).Contains (Count U (Normalize U m)) = false) :
    DoMove U R G fuel g m =
      .ok (some (.cantSpell (Normalize U m) (CountLetters g.Letters)), g) := by
  simp [DoMove, hm, hc]

theorem DoMove_unknownWord (U : CaseMap) (R : Rng) (G : Globals) (fuel : Nat) (g : Game R)
    (m : Str) (hm : m ≠ [])
    (hc : (CountLetters g.Letters).Contains (Count U (Normalize U m)) = true)
    (hd : dictHas G.dict (Normalize U m) = false) :
    DoMove U R G fuel g m = .ok (some (.unknownWord (Normalize U m)), g) := by
  simp [DoMove, hm, hc, hd]

theorem DoMove_legal (U : CaseMap) (R : Rng) (G : Globals) (fuel : Nat) (g : Game R)
    (m : Str) (hm : m ≠ [])
    (hc : (CountLetters g.Letters).Contains (Count U (Normalize U m)) = true)
    (hd : dictHas G.dict (Normalize U m) = true) :
    DoMove U R G fuel g m =
      commitMove R G fuel g (Normalize U m) (Count U (Normalize U m)) := by
  simp [DoMove, hm, hc, hd]

theorem DoMove_error_iff (U : CaseMap) (R : Rng) (G : Globals) (fuel : Nat) (g : Game R)
    (m : Str) (e : MoveError) (g2 : Game R) :
    DoMove U R G fuel g m = .ok (some e, g2) ↔
      m ≠ [] ∧ g2 = g ∧
      (((CountLetters g.Letters).Contains (Count U (Normalize U m)) = false ∧
          e = .cantSpell (Normalize U m) (CountLetters g.Letters)) ∨
       ((CountLetters g.Letters).Contains (Count U (Normalize U m)) = true ∧
          dictHas G.dict (Normalize U m) = false ∧ e = .unknownWord (Normalize U m))) := by
  by_cases hm : m = []
  · subst hm
    rw [DoMove_pass]
    constructor
    · intro h
      exfalso
      cases hd : Draw R G fuel [] g.rng with
      | error e => simp [hd] at h
      | ok q =>
        obtain ⟨letters, s⟩ := q
        simp only [hd] at h
        have := (commitMove_ok R G fuel _ _ _ _ _ h).1
        cases this
    · rintro ⟨h, _⟩
      exact absurd rfl h
  · cases hc : (CountLetters g.Letters).Contains (Count U (Normalize U m))
    · rw [DoMove_cantSpell U R G fuel g m hm hc]
      simp only [Except.ok.injEq, Prod.mk.injEq, Option.some.injEq, ne_eq, hm, not_false_eq_true,
        true_and, false_and, or_false, Bool.false_eq_true]
      constructor
      · rintro ⟨h1, h2⟩
        exact ⟨h2.symm, h1.symm⟩
      · rintro ⟨h1, h2⟩
        exact ⟨h2.symm, h1.symm⟩
    · cases hd : dictHas G.dict (Normalize U m)
      · rw [DoMove_unknownWord U R G fuel g m hm hc hd]
        simp only [Except.ok.injEq, Prod.mk.injEq, Option.some.injEq, ne_eq, hm,
          not_false_eq_true, true_and, false_and, false_or, Bool.true_eq_false]
        constructor
        · rintro ⟨h1, h2⟩
          exact ⟨h2.symm, h1.symm⟩
        · rintro ⟨h1, h2⟩
          exact ⟨h2.symm, h1.symm⟩
      · rw [DoMove_legal U R G fuel g m hm hc hd]
        constructor
        · intro h
          have := (commitMove_ok R G fuel _ _ _ _ _ h).1
          cases this
        · rintro ⟨_, _, h | h⟩
          · exact absurd h.1 (by simp)
          · exact absurd h.2.1 (by simp)

theorem Draw_mono (R : Rng) (G : Globals) (fuel : Nat) (letters : List Str) (s : R.State)
    (v : List Str × R.State) (h : Draw R G fuel letters s = .ok v) (k : Nat) :
    Draw R G (fuel + k) letters s = .ok v :=
  drawN_mono R G fuel _ letters s v h k

theorem Draw_terminates (R : Rng) (G : Globals) (hH : SamplerHalts R G) (letters : List Str)
    (s : R.State) : ∃ fuel v, Draw R G fuel letters s = .ok v :=
  drawN_terminates R G hH _ letters s

theorem DoMove_mono (U : CaseMap) (R : Rng) (G : Globals) (fuel : Nat) (g : Game R) (m : Str)
    (v : Option MoveError × Game R) (h : DoMove U R G fuel g m = .ok v) (k : Nat) :
    DoMove U R G (fuel + k) g m = .ok v := by
  by_cases hm : m = []
  · subst hm
    rw [DoMove_pass] at h ⊢
    cases hd : Draw R G fuel [] g.rng with
    | error e => simp [hd] at h
    | ok q =>
      obtain ⟨letters, s⟩ := q
      simp only [hd] at h
      simp only [Draw_mono R G fuel [] g.rng _ hd k]
      exact commitMove_mono R G fuel _ _ _ v h k
  · cases hc : (CountLetters g.Letters).Contains (Count U (Normalize U m))
    · rw [DoMove_cantSpell U R G _ g m hm hc] at h ⊢
      exact h
    · cases hd : dictHas G.dict (Normalize U m)
      · rw [DoMove_unknownWord U R G _ g m hm hc hd] at h ⊢
        exact h
      · rw [DoMove_legal U R G _ g m hm hc hd] at h ⊢
        exact commitMove_mono R G fuel _ _ _ v h k

/-- An accepted move returns once the sampler has fuel enough. -/
theorem DoMove_legal_terminates (U : CaseMap) (R : Rng) (G : Globals) (hH : SamplerHalts R G)
    (g : Game R) (m : Str) (hl : Legal U G g.Letters m) :
    ∃ fuel g2, DoMove U R G fuel g m = .ok (none, g2) := by
  by_cases hm : m = []
  · subst hm
    obtain ⟨f1, ⟨letters, s⟩, h1⟩ := Draw_terminates R G hH [] g.rng
    obtain ⟨f2, g2, h2⟩ := commitMove_terminates R G hH { g with Letters := letters, rng := s }
      (Normalize U []) (Count U (Normalize U []))
    refine ⟨f1 + f2, g2, ?_⟩
    rw [DoMove_pass]
    simp only [Draw_mono R G f1 [] g.rng _ h1 f2]
    rw [Nat.add_comm]
    exact commitMove_mono R G f2 _ _ _ _ h2 f1
  · rcases hl with hl | ⟨hc, hd⟩
    · exact absurd hl hm
    · obtain ⟨f, g2, h⟩ := commitMove_terminates R G hH g (Normalize U m)
        (Count U (Normalize U m))
      exact ⟨f, g2, by rw [DoMove_legal U R G f g m hm hc hd]; exact h⟩

/-- Every call of `DoMove` returns once the sampler has fuel enough. -/
theorem DoMove_terminates (U : CaseMap) (R : Rng) (G : Globals) (hH : SamplerHalts R G)
    (g : Game R) (m : Str) : ∃ fuel v, DoMove U R G fuel g m = .ok v := by
  by_cases hl : Legal U G g.Letters m
  · obtain ⟨f, g2, h⟩ := DoMove_legal_terminates U R G hH g m hl
    exact ⟨f, _, h⟩
  · unfold Legal at hl
    push_neg at hl
    obtain ⟨hm, hl⟩ := hl
    cases hc : (CountLetters g.Letters).Contains (Count U (Normalize U m))
    · exact ⟨0, _, DoMove_cantSpell U R G 0 g m hm hc⟩
    · have hd : dictHas G.dict (Normalize U m) = false := by
        cases hd : dictHas G.dict (Normalize U m)
        · rfl
        · exact absurd hd (hl hc)
      exact ⟨0, _, DoMove_unknownWord U R G 0 g m hm hc hd⟩

/-- C1: when `DoMove` rejects a move, the move is non-empty, `Letters`, `Moves` and `Over`
are what they were before the call and the random source is in the state it was in (no draw
was made); and the rejection has one of the two causes, tiles that do not cover the move or
a word that the dictionary lacks. -/
theorem C1_rejected_move_changes_nothing (U : CaseMap) (R : Rng) (G : Globals) (fuel : Nat)
    (g : Game R) (m : Str) (e : MoveError) (g2 : Game R)
    (h : DoMove U R G fuel g m = .ok (some e, g2)) :
    m ≠ [] ∧
    g2.Letters = g.Letters ∧ g2.Moves = g.Moves ∧ g2.Over = g.Over ∧ g2.rng = g.rng ∧
    ((CountLetters g.Letters).Contains (Count U (Normalize U m)) = false ∨
      dictHas G.dict (Normalize U m) = false) := by
  obtain ⟨hm, hg, hcase⟩ := (DoMove_error_iff U R G fuel g m e g2).1 h
  subst hg
  refine ⟨hm, rfl, rfl, rfl, rfl, ?_⟩
  rcases hcase with h1 | h2
  · exact Or.inl h1.1
  · exact Or.inr h2.2.1

/-- C1 at a concrete input: the word "noodle" on the board ASTRONOMERASTRON is rejected and
the board stays. -/
theorem C1_rejected_move_witness :
    DoMove asciiCase zeroRng sampleGlobals 0 (sampleGame zeroRng () "ASTRONOMERASTRON")
        "noodle".toList =
      .ok (some (.cantSpell "NOODLE".toList (CountLetters (Split "ASTRONOMERASTRON".toList))),
        sampleGame zeroRng () "ASTRONOMERASTRON") ∧
    (sampleGame zeroRng () "ASTRONOMERASTRON").Letters = Split "ASTRONOMERASTRON".toList ∧
    (sampleGame zeroRng () "ASTRONOMERASTRON").Moves = [] ∧
    (sampleGame zeroRng () "ASTRONOMERASTRON").Over = false :=
  have h : DoMove asciiCase zeroRng sampleGlobals 0 (sampleGame zeroRng () "ASTRONOMERASTRON")
        "noodle".toList =
      .ok (some (.cantSpell "NOODLE".toList (CountLetters (Split "ASTRONOMERASTRON".toList))),
        sampleGame zeroRng () "ASTRONOMERASTRON") := by rfl
  have h2 := C1_rejected_move_changes_nothing asciiCase zeroRng sampleGlobals 0
    (sampleGame zeroRng () "ASTRONOMERASTRON") "noodle".toList _ _ h
  ⟨h, h2.2.1, h2.2.2.1, h2.2.2.2.1⟩

theorem Next_zeroRng (s : Unit) :
    sampleGlobals.letterGen.Next zeroRng s = .ok (['A'], ()) := by
  cases s
  rfl

theorem get_CountLetters_nonneg (ls : List Str) (l : Str) : 0 ≤ (CountLetters ls).get l := by
  rw [get_CountLetters]
  exact Int.natCast_nonneg _

/-- With the oracle that always draws 0, `RandLetter` returns "A" at once. -/
theorem zeroRng_halts : SamplerHalts zeroRng sampleGlobals := by
  intro letters s
  refine ⟨1, ['A'], (), ?_⟩
  unfold RandLetter
  rw [Next_zeroRng]
  have hpv : countMap.get sampleGlobals.pointVals ['A'] = 1 := by decide
  have hc := get_CountLetters_nonneg letters ['A']
  have hx : zeroRng.Int63n ()
      (1 + countMap.get sampleGlobals.pointVals ['A'] * countMap.get (CountLetters letters) ['A'])
      = .ok (0, ()) := by
    unfold Rng.Int63n
    rw [hpv, if_neg (by omega)]
    rfl
  unfold redraw
  rw [hx]
  rfl

/-- What a call of `DoMove` that returns `nil` does to `Moves`, `Over`, `Seed` and
`Started`. -/
theorem DoMove_ok_none (U : CaseMap) (R : Rng) (G : Globals) (fuel : Nat) (g : Game R)
    (m : Str) (g2 : Game R) (h : DoMove U R G fuel g m = .ok (none, g2)) :
    g2.Moves = g.Moves ++ [Normalize U m] ∧
    g2.Over = (if ((g.Moves ++ [Normalize U m]).length : Int) ≥ G.kGameLen then true
      else g.Over) ∧
    g2.Seed = g.Seed ∧ g2.Started = g.Started := by
  by_cases hm : m = []
  · subst hm
    rw [DoMove_pass] at h
    cases hd : Draw R G fuel [] g.rng with
    | error e => simp [hd] at h
    | ok q =>
      obtain ⟨letters, s⟩ := q
      simp only [hd] at h
      obtain ⟨_, h2, h3, _, h5, h6⟩ := commitMove_ok R G fuel _ _ _ _ _ h
      exact ⟨h2, h3, h5, h6⟩
  · cases hc : (CountLetters g.Letters).Contains (Count U (Normalize U m))
    · rw [DoMove_cantSpell U R G fuel g m hm hc] at h
      cases h
    · cases hd : dictHas G.dict (Normalize U m)
      · rw [DoMove_unknownWord U R G fuel g m hm hc hd] at h
        cases h
      · rw [DoMove_legal U R G fuel g m hm hc hd] at h
        obtain ⟨_, h2, h3, _, h5, h6⟩ := commitMove_ok R G fuel _ _ _ _ _ h
        exact ⟨h2, h3, h5, h6⟩

/-- One accepted move keeps `Over` in step with the number of moves. -/
theorem Over_step (U : CaseMap) (R : Rng) (G : Globals) (fuel : Nat) (g : Game R)
    (m : Str) (g2 : Game R) (hi : g.Over = true ↔ G.kGameLen ≤ (g.Moves.length : Int))
    (h : DoMove U R G fuel g m = .ok (none, g2)) :
    g2.Over = true ↔ G.kGameLen ≤ (g2.Moves.length : Int) := by
  obtain ⟨h1, h2, _, _⟩ := DoMove_ok_none U R G fuel g m g2 h
  rw [h2, h1]
  simp only [List.length_append, List.length_singleton, Nat.cast_add, Nat.cast_one] at *
  by_cases hk : G.kGameLen ≤ (g.Moves.length : Int) + 1
  · simp [hk]
  · simp only [ge_iff_le, hk, if_false, iff_false]
    intro ho
    have := hi.1 ho
    omega

theorem unwindFrom_ok_none (U : CaseMap) (R : Rng) (G : Globals) (fuel : Nat)
    (moves : List Str) :
    ∀ (i : Nat) (g g2 : Game R), unwindFrom U R G fuel i g moves = .ok (none, g2) →
      g2.Moves = g.Moves ++ moves.map (Normalize U) ∧
      ((g.Over = true ↔ G.kGameLen ≤ (g.Moves.length : Int)) →
        (g2.Over = true ↔ G.kGameLen ≤ (g2.Moves.length : Int))) := by
  induction moves with
  | nil =>
    intro i g g2 h
    simp only [unwindFrom, Except.ok.injEq, Prod.mk.injEq, true_and] at h
    subst h
    simp
  | cons m rest ih =>
    intro i g g2 h
    unfold unwindFrom at h
    cases hd : DoMove U R G fuel g m with
    | error e => simp [hd] at h
    | ok q =>
      obtain ⟨r, g1⟩ := q
      cases r with
      | some err => simp [hd] at h
      | none =>
        simp only [hd] at h
        obtain ⟨h1, h2⟩ := ih (i + 1) g1 g2 h
        obtain ⟨hm, _⟩ := DoMove_ok_none U R G fuel g m g1 hd
        refine ⟨?_, ?_⟩
        · rw [h1, hm]
          simp
        · intro hi
          exact h2 (Over_step U R G fuel g m g1 hi hd)

theorem unwindFrom_mono (U : CaseMap) (R : Rng) (G : Globals) (fuel : Nat)
    (moves : List Str) :
    ∀ (i : Nat) (g : Game R) (v : Option ReplayError × Game R),
      unwindFrom U R G fuel i g moves = .ok v →
      ∀ k, unwindFrom U R G (fuel + k) i g moves = .ok v := by
  induction moves with
  | nil => intro i g v h k; simpa [unwindFrom] using h
  | cons m rest ih =>
    intro i g v h k
    unfold unwindFrom at h ⊢
    cases hd : DoMove U R G fuel g m with
    | error e => simp [hd] at h
    | ok q =>
      obtain ⟨r, g1⟩ := q
      rw [DoMove_mono U R G fuel g m _ hd k]
      cases r with
      | some err => simpa [hd] using h
      | none =>
        simp only [hd] at h
        exact ih _ _ v h k

theorem unwindFrom_terminates (U : CaseMap) (R : Rng) (G : Globals) (hH : SamplerHalts R G)
    (moves : List Str) :
    ∀ (i : Nat) (g : Game R), ∃ fuel v, unwindFrom U R G fuel i g moves = .ok v := by
  induction moves with
  | nil => intro i g; exact ⟨0, _, rfl⟩
  | cons m rest ih =>
    intro i g
    obtain ⟨f1, ⟨r, g1⟩, h1⟩ := DoMove_terminates U R G hH g m
    cases r with
    | some err =>
      refine ⟨f1, (some ⟨i, err⟩, g1), ?_⟩
      unfold unwindFrom
      rw [h1]
    | none =>
      obtain ⟨f2, v, h2⟩ := ih (i + 1) g1
      refine ⟨f1 + f2, v, ?_⟩
      unfold unwindFrom
      rw [DoMove_mono U R G f1 g m _ h1 f2]
      simp only []
      rw [Nat.add_comm]
      exact unwindFrom_mono U R G f2 rest _ _ v h2 f1

/-- Every call of `Unwind` returns once the sampler has fuel enough. -/
theorem Unwind_terminates (U : CaseMap) (R : Rng) (G : Globals) (hH : SamplerHalts R G)
    (g : Game R) (moves : List Str) : ∃ fuel v, Unwind U R G fuel g moves = .ok v := by
  obtain ⟨f1, ⟨letters, s⟩, h1⟩ :=
    Draw_terminates R G hH g.Letters (R.newSource (Int.xor g.Seed g.Started))
  obtain ⟨f2, v, h2⟩ := unwindFrom_terminates U R G hH moves 0
    { g with Letters := letters, rng := s }
  refine ⟨f1 + f2, v, ?_⟩
  unfold Unwind
  simp only [Draw_mono R G f1 _ _ _ h1 f2]
  rw [Nat.add_comm]
  exact unwindFrom_mono U R G f2 moves _ _ v h2 f1

theorem Unwind_ok_none (U : CaseMap) (R : Rng) (G : Globals) (fuel : Nat) (g g2 : Game R)
    (moves : List Str) (h : Unwind U R G fuel g moves = .ok (none, g2)) :
    g2.Moves = g.Moves ++ moves.map (Normalize U) ∧
    ((g.Over = true ↔ G.kGameLen ≤ (g.Moves.length : Int)) →
      (g2.Over = true ↔ G.kGameLen ≤ (g2.Moves.length : Int))) := by
  unfold Unwind at h
  cases hd : Draw R G fuel g.Letters (R.newSource (Int.xor g.Seed g.Started)) with
  | error e => simp [hd] at h
  | ok q =>
    obtain ⟨letters, s⟩ := q
    simp only [hd] at h
    exact unwindFrom_ok_none U R G fuel moves 0
      { g with Letters := letters, rng := s } g2 h

/-- C9: with a positive game length (10 on the production server), a game that `Unwind`
rebuilds from a fresh `Game` over accepted moves holds the normal forms of these moves, and
`Over` is true exactly when the number of moves has reached `kGameLen`; every further
accepted `DoMove` adds one move and keeps that equivalence, so `Over` is false below
`kGameLen` moves, true from the `kGameLen`-th on. `Unwind` and `DoMove` do return when the
sampler halts. -/
theorem C9_Over_iff_game_length (U : CaseMap) (R : Rng) (G : Globals)
    (hk : 0 < G.kGameLen) :
    (∀ fuel seed started moves g2,
      Unwind U R G fuel (freshGame R seed started) moves = .ok (none, g2) →
        g2.Moves = moves.map (Normalize U) ∧
        (g2.Over = true ↔ G.kGameLen ≤ (g2.Moves.length : Int))) ∧
    (∀ fuel (g : Game R) m g2, (g.Over = true ↔ G.kGameLen ≤ (g.Moves.length : Int)) →
      DoMove U R G fuel g m = .ok (none, g2) →
        g2.Moves = g.Moves ++ [Normalize U m] ∧
        (g2.Over = true ↔ G.kGameLen ≤ (g2.Moves.length : Int))) ∧
    (SamplerHalts R G →
      (∀ seed started moves, ∃ fuel v,
        Unwind U R G fuel (freshGame R seed started) moves = .ok v) ∧
      (∀ (g : Game R) m, ∃ fuel v, DoMove U R G fuel g m = .ok v)) := by
  refine ⟨?_, ?_, ?_⟩
  · intro fuel seed started moves g2 h
    obtain ⟨h1, h2⟩ := Unwind_ok_none U R G fuel _ g2 moves h
    refine ⟨by simpa [freshGame] using h1, h2 ?_⟩
    simp only [freshGame, List.length_nil, Nat.cast_zero]
    constructor
    · intro hf
      cases hf
    · intro hle
      omega
  · intro fuel g m g2 hi h
    exact ⟨(DoMove_ok_none U R G fuel g m g2 h).1, Over_step U R G fuel g m g2 hi h⟩
  · intro hH
    exact ⟨fun _ _ moves => Unwind_terminates U R G hH _ moves,
      fun g m => DoMove_terminates U R G hH g m⟩

theorem scanCdf_mem (x : Int) (cdf : List cdfPoint) (l : Str) (h : scanCdf x cdf = some l) :
    l ∈ cdf.map cdfPoint.letter := by
  induction cdf with
  | nil => simp [scanCdf] at h
  | cons c rest ih =>
    unfold scanCdf at h
    by_cases hx : x < c.mass
    · simp only [hx, if_true, Option.some.injEq] at h
      simp [h]
    · simp only [hx, if_false] at h
      exact List.mem_cons_of_mem _ (ih h)

theorem Next_mem (lg : LetterGen) (R : Rng) (s s2 : R.State) (l : Str)
    (h : lg.Next R s = .ok (l, s2)) : l ∈ lg.cdf.map cdfPoint.letter := by
  unfold LetterGen.Next at h
  cases hx : R.Int63n s lg.total with
  | error e => simp [hx] at h
  | ok q =>
    obtain ⟨x, s3⟩ := q
    simp only [hx] at h
    cases hs : scanCdf x lg.cdf with
    | none => simp [hs] at h
    | some l2 =>
      simp only [hs, Except.ok.injEq, Prod.mk.injEq] at h
      rw [← h.1]
      exact scanCdf_mem x _ _ hs

theorem redraw_mem (R : Rng) (G : Globals) (cm : countMap) (fuel : Nat) :
    ∀ (l : Str) (s : R.State) (l2 : Str) (s2 : R.State),
      redraw R G cm fuel l s = .ok (l2, s2) →
      l2 = l ∨ l2 ∈ G.letterGen.cdf.map cdfPoint.letter := by
  induction fuel with
  | zero => intro l s l2 s2 h; simp [redraw] at h
  | succ n ih =>
    intro l s l2 s2 h
    unfold redraw at h
    cases hx : R.Int63n s (1 + countMap.get G.pointVals l * countMap.get cm l) with
    | error e => simp [hx] at h
    | ok p =>
      obtain ⟨x, s3⟩ := p
      simp only [hx] at h
      by_cases hpos : x > 0
      · simp only [hpos, if_true] at h
        cases hn : G.letterGen.Next R s3 with
        | error e => simp [hn] at h
        | ok q =>
          obtain ⟨l3, s4⟩ := q
          simp only [hn] at h
          rcases ih l3 s4 l2 s2 h with e | hm
          · right
            rw [e]
            exact Next_mem _ R s3 s4 l3 hn
          · exact Or.inr hm
      · simp only [hpos, if_false, Except.ok.injEq, Prod.mk.injEq] at h
        exact Or.inl h.1.symm

/-- A letter that `RandLetter` returns is a letter of the sampler's table. -/
theorem RandLetter_mem (R : Rng) (G : Globals) (fuel : Nat) (letters : List Str)
    (s s2 : R.State) (l : Str) (h : RandLetter R G fuel letters s = .ok (l, s2)) :
    l ∈ G.letterGen.cdf.map cdfPoint.letter := by
  unfold RandLetter at h
  cases hn : G.letterGen.Next R s with
  | error e => simp [hn] at h
  | ok q =>
    obtain ⟨l1, s1⟩ := q
    simp only [hn] at h
    rcases redraw_mem R G _ fuel l1 s1 l s2 h with e | hm
    · rw [e]
      exact Next_mem _ R s s1 l1 hn
    · exact hm

theorem drawN_spec (R : Rng) (G : Globals) (fuel : Nat) (n : Nat) :
    ∀ (letters : List Str) (s : R.State) (out : List Str) (s2 : R.State),
      drawN R G fuel n letters s = .ok (out, s2) →
      out.length = letters.length + n ∧
      ∀ l ∈ out, l ∈ letters ∨ l ∈ G.letterGen.cdf.map cdfPoint.letter := by
  induction n with
  | zero =>
    intro letters s out s2 h
    simp only [drawN, Except.ok.injEq, Prod.mk.injEq] at h
    rw [← h.1]
    exact ⟨rfl, fun l hl => Or.inl hl⟩
  | succ n ih =>
    intro letters s out s2 h
    unfold drawN at h
    cases hr : RandLetter R G fuel letters s with
    | error e => simp [hr] at h
    | ok q =>
      obtain ⟨l1, s1⟩ := q
      simp only [hr] at h
      obtain ⟨h1, h2⟩ := ih _ _ _ _ h
      refine ⟨by rw [h1]; simp; omega, ?_⟩
      intro l hl
      rcases h2 l hl with hm | hm
      · rcases List.mem_append.1 hm with hm | hm
        · exact Or.inl hm
        · rw [List.mem_singleton.1 hm]
          exact Or.inr (RandLetter_mem R G fuel letters s s1 l1 hr)
      · exact Or.inr hm

theorem replaceTiles_spec (R : Rng) (G : Globals) (fuel : Nat) (rest : List Str) :
    ∀ (done : List Str) (cm : countMap) (s : R.State) (out : List Str) (s2 : R.State),
      replaceTiles R G fuel done rest cm s = .ok (out, s2) →
      out.length = done.length + rest.length ∧
      ∀ l ∈ out, l ∈ done ∨ l ∈ rest ∨ l ∈ G.letterGen.cdf.map cdfPoint.letter := by
  induction rest with
  | nil =>
    intro done cm s out s2 h
    simp only [replaceTiles, Except.ok.injEq, Prod.mk.injEq] at h
    rw [← h.1]
    exact ⟨rfl, fun l hl => Or.inl hl⟩
  | cons l0 rest ih =>
    intro done cm s out s2 h
    unfold replaceTiles at h
    by_cases hc : countMap.get cm l0 > 0
    · simp only [hc, if_true] at h
      cases hr : RandLetter R G fuel (done ++ l0 :: rest) s with
      | error e => simp [hr] at h
      | ok q =>
        obtain ⟨l1, s1⟩ := q
        simp only [hr] at h
        obtain ⟨h1, h2⟩ := ih _ _ _ _ _ h
        refine ⟨by rw [h1]; simp; omega, ?_⟩
        intro l hl
        rcases h2 l hl with hm | hm | hm
        · rcases List.mem_append.1 hm with hm | hm
          · exact Or.inl hm
          · rw [List.mem_singleton.1 hm]
            exact Or.inr (Or.inr (RandLetter_mem R G fuel _ s s1 l1 hr))
        · exact Or.inr (Or.inl (List.mem_cons_of_mem _ hm))
        · exact Or.inr (Or.inr hm)
    · simp only [hc, if_false] at h
      obtain ⟨h1, h2⟩ := ih _ _ _ _ _ h
      refine ⟨by rw [h1]; simp; omega, ?_⟩
      intro l hl
      rcases h2 l hl with hm | hm | hm
      · rcases List.mem_append.1 hm with hm | hm
        · exact Or.inl hm
        · rw [List.mem_singleton.1 hm]
          exact Or.inr (Or.inl (List.mem_cons_self _ _))
      · exact Or.inr (Or.inl (List.mem_cons_of_mem _ hm))
      · exact Or.inr (Or.inr hm)

/-- The table of the production sampler lists the letters A to Z. -/
theorem init_table (U : CaseMap) (dev : Bool) (lines : List Str) (G : Globals)
    (hG : init U dev lines = some G) :
    G.letterGen.cdf.map cdfPoint.letter =
      "ABCDEFGHIJKLMNOPQRSTUVWXYZ".toList.map fun c => [c] := by
  have h : (invertPoints (initFreqs asciiCase)).map
      (fun f => (NewLetterGenFreqs f).cdf.map cdfPoint.letter) =
      some ("ABCDEFGHIJKLMNOPQRSTUVWXYZ".toList.map fun c => [c]) := by decide
  unfold init at hG
  rw [initFreqs_ascii] at hG
  cases hi : invertPoints (initFreqs asciiCase) with
  | none => simp [hi] at hG
  | some f =>
    simp only [hi, Option.map_some', Option.some.injEq] at hG h
    rw [← hG]
    exact h

theorem init_tiles (U : CaseMap) (dev : Bool) (lines : List Str) (G : Globals)
    (hG : init U dev lines = some G) :
    ∀ l ∈ G.letterGen.cdf.map cdfPoint.letter, isTile l = true := by
  rw [init_table U dev lines G hG]
  decide

/-- The function `init` does not panic. -/
theorem init_isSome (U : CaseMap) (dev : Bool) (lines : List Str) :
    ∃ G, init U dev lines = some G := by
  have h : (invertPoints (initFreqs asciiCase)).isSome = true := by decide
  unfold init
  rw [initFreqs_ascii]
  cases hi : invertPoints (initFreqs asciiCase) with
  | none => simp [hi] at h
  | some f => exact ⟨_, rfl⟩

theorem commitMove_grid (R : Rng) (G : Globals) (fuel : Nat) (g : Game R) (norm : Str)
    (cm : countMap) (r : Option MoveError) (g2 : Game R)
    (hT : ∀ l ∈ G.letterGen.cdf.map cdfPoint.letter, isTile l = true) (hg : GridOK g)
    (h : commitMove R G fuel g norm cm = .ok (r, g2)) : GridOK g2 := by
  obtain ⟨_, _, _, ht, _, _⟩ := commitMove_ok R G fuel g norm cm r g2 h
  obtain ⟨h1, h2⟩ := replaceTiles_spec R G fuel g.Letters [] cm g.rng _ _ ht
  refine ⟨by rw [h1]; simpa using hg.1, ?_⟩
  intro l hl
  rcases h2 l hl with hm | hm | hm
  · cases hm
  · exact hg.2 l hm
  · exact hT l hm

theorem Draw_grid (R : Rng) (G : Globals) (fuel : Nat) (s s2 : R.State) (out : List Str)
    (hT : ∀ l ∈ G.letterGen.cdf.map cdfPoint.letter, isTile l = true)
    (h : Draw R G fuel [] s = .ok (out, s2)) :
    out.length = kSize ∧ ∀ l ∈ out, isTile l = true := by
  obtain ⟨h1, h2⟩ := drawN_spec R G fuel _ [] s out s2 h
  refine ⟨by simpa using h1, ?_⟩
  intro l hl
  rcases h2 l hl with hm | hm
  · cases hm
  · exact hT l hm

/-- Every return of `DoMove`, with or without an error, keeps the grid invariant. -/
theorem DoMove_grid (U : CaseMap) (R : Rng) (G : Globals) (fuel : Nat) (g : Game R) (m : Str)
    (r : Option MoveError) (g2 : Game R)
    (hT : ∀ l ∈ G.letterGen.cdf.map cdfPoint.letter, isTile l = true) (hg : GridOK g)
    (h : DoMove U R G fuel g m = .ok (r, g2)) : GridOK g2 := by
  by_cases hm : m = []
  · subst hm
    rw [DoMove_pass] at h
    cases hd : Draw R G fuel [] g.rng with
    | error e => simp [hd] at h
    | ok q =>
      obtain ⟨letters, s⟩ := q
      simp only [hd] at h
      exact commitMove_grid R G fuel _ _ _ r g2 hT (Draw_grid R G fuel _ _ _ hT hd) h
  · cases hc : (CountLetters g.Letters).Contains (Count U (Normalize U m))
    · rw [DoMove_cantSpell U R G fuel g m hm hc] at h
      simp only [Except.ok.injEq, Prod.mk.injEq] at h
      rw [← h.2]
      exact hg
    · cases hd : dictHas G.dict (Normalize U m)
      · rw [DoMove_unknownWord U R G fuel g m hm hc hd] at h
        simp only [Except.ok.injEq, Prod.mk.injEq] at h
        rw [← h.2]
        exact hg
      · rw [DoMove_legal U R G fuel g m hm hc hd] at h
        exact commitMove_grid R G fuel _ _ _ r g2 hT hg h

theorem unwindFrom_grid (U : CaseMap) (R : Rng) (G : Globals) (fuel : Nat)
    (hT : ∀ l ∈ G.letterGen.cdf.map cdfPoint.letter, isTile l = true) (moves : List Str) :
    ∀ (i : Nat) (g : Game R) (r : Option ReplayError) (g2 : Game R), GridOK g →
      unwindFrom U R G fuel i g moves = .ok (r, g2) → GridOK g2 := by
  induction moves with
  | nil =>
    intro i g r g2 hg h
    simp only [unwindFrom, Except.ok.injEq, Prod.mk.injEq] at h
    rw [← h.2]
    exact hg
  | cons m rest ih =>
    intro i g r g2 hg h
    unfold unwindFrom at h
    cases hd : DoMove U R G fuel g m with
    | error e => simp [hd] at h
    | ok q =>
      obtain ⟨r1, g1⟩ := q
      have hg1 := DoMove_grid U R G fuel g m r1 g1 hT hg hd
      cases r1 with
      | some err =>
        simp only [hd, Except.ok.injEq, Prod.mk.injEq] at h
        rw [← h.2]
        exact hg1
      | none =>
        simp only [hd] at h
        exact ih _ g1 r g2 hg1 h

/-- Every return of `Unwind` on a game without tiles leaves a full grid of tiles. -/
theorem Unwind_grid (U : CaseMap) (R : Rng) (G : Globals) (fuel : Nat) (g : Game R)
    (moves : List Str) (r : Option ReplayError) (g2 : Game R)
    (hT : ∀ l ∈ G.letterGen.cdf.map cdfPoint.letter, isTile l = true) (hl : g.Letters = [])
    (h : Unwind U R G fuel g moves = .ok (r, g2)) : GridOK g2 := by
  unfold Unwind at h
  rw [hl] at h
  cases hd : Draw R G fuel [] (R.newSource (Int.xor g.Seed g.Started)) with
  | error e => simp [hd] at h
  | ok q =>
    obtain ⟨letters, s⟩ := q
    simp only [hd] at h
    exact unwindFrom_grid U R G fuel hT moves 0 { g with Letters := letters, rng := s } r g2
      (Draw_grid R G fuel _ _ _ hT hd) h

/-- C10: with the package variables that `init` sets up, every return of `Unwind` on a fresh
`Game`, and every return of `DoMove` after it (a pass, an accepted word or a rejected move),
leaves `Letters` with exactly 16 elements, each a single letter A to Z, which are the letters of
the sampler's table. `Unwind` and `DoMove` do return when the sampler halts. -/
theorem C10_grid_invariant (U : CaseMap) (R : Rng) (dev : Bool) (lines : List Str)
    (G : Globals) (hG : init U dev lines = some G) :
    G.letterGen.cdf.map cdfPoint.letter = "ABCDEFGHIJKLMNOPQRSTUVWXYZ".toList.map (fun c => [c]) ∧
    (∀ fuel seed started moves r g2,
      Unwind U R G fuel (freshGame R seed started) moves = .ok (r, g2) →
        g2.Letters.length = 16 ∧ ∀ l ∈ g2.Letters, isTile l = true) ∧
    (∀ fuel (g : Game R) m r g2,
      (g.Letters.length = 16 ∧ ∀ l ∈ g.Letters, isTile l = true) →
      DoMove U R G fuel g m = .ok (r, g2) →
        g2.Letters.length = 16 ∧ ∀ l ∈ g2.Letters, isTile l = true) ∧
    (SamplerHalts R G →
      (∀ seed started moves, ∃ fuel v,
        Unwind U R G fuel (freshGame R seed started) moves = .ok v) ∧
      (∀ (g : Game R) m, ∃ fuel v, DoMove U R G fuel g m = .ok v)) := by
  have hT := init_tiles U dev lines G hG
  refine ⟨init_table U dev lines G hG, ?_, ?_, ?_⟩
  · intro fuel seed started moves r g2 h
    exact Unwind_grid U R G fuel _ moves r g2 hT rfl h
  · intro fuel g m r g2 hg h
    exact DoMove_grid U R G fuel g m r g2 hT hg h
  · intro hH
    exact ⟨fun _ _ moves => Unwind_terminates U R G hH _ moves,
      fun g m => DoMove_terminates U R G hH g m⟩

/-- C9 at a concrete input: after ten passes replayed on the production server the game is
over, and ten is the game length. -/
theorem C9_Over_witness :
    0 < sampleGlobals.kGameLen ∧
    Unwind asciiCase zeroRng sampleGlobals 1 (freshGame zeroRng 3 4) (List.replicate 10 []) =
      .ok (none, { Started := 4, Seed := 3, Moves := List.replicate 10 [],
                   Letters := List.replicate 16 ['A'], Over := true, rng := () }) ∧
    ((true = true) ↔ sampleGlobals.kGameLen ≤ ((List.replicate 10 ([] : Str)).length : Int)) :=
  have h : Unwind asciiCase zeroRng sampleGlobals 1 (freshGame zeroRng 3 4)
      (List.replicate 10 []) =
      .ok (none, { Started := 4, Seed := 3, Moves := List.replicate 10 [],
                   Letters := List.replicate 16 ['A'], Over := true, rng := () }) := by rfl
  ⟨by decide, h,
    ((C9_Over_iff_game_length asciiCase zeroRng sampleGlobals (by decide)).1 1 3 4 _ _ h).2⟩

/-- C10 at a concrete input: the replay of "moon" on a grid that starts M, O, O, N ends with
sixteen tiles. -/
theorem C10_grid_witness :
    init asciiCase false sampleWords = some sampleGlobals ∧
    Unwind asciiCase (scriptRng moonScript) sampleGlobals 1
        (freshGame (scriptRng moonScript) 0 0) ["moon".toList] =
      .ok (none, { sampleGame (scriptRng moonScript) [] "AAAAAAAAAAAAAAAA" with
                   Moves := ["MOON".toList] }) ∧
    (Split "AAAAAAAAAAAAAAAA".toList).length = 16 ∧
    ∀ l ∈ Split "AAAAAAAAAAAAAAAA".toList, isTile l = true :=
  have hG : init asciiCase false sampleWords = some sampleGlobals :=
    (Option.some_get _).symm
  have h : Unwind asciiCase (scriptRng moonScript) sampleGlobals 1
        (freshGame (scriptRng moonScript) 0 0) ["moon".toList] =
      .ok (none, { sampleGame (scriptRng moonScript) [] "AAAAAAAAAAAAAAAA" with
                   Moves := ["MOON".toList] }) := by rfl
  have hc := (C10_grid_invariant asciiCase (scriptRng moonScript) false sampleWords
    sampleGlobals hG).2.1 1 0 0 _ _ _ h
  ⟨hG, h, hc.1, hc.2⟩

/-- C3, at a failing input: the word file holds "quux", so the dictionary holds the key QUX.
On the grid Q, U, X, A, ... the move "quux" is accepted and recorded as QUX. The replay of the
recorded move from the same seed is rejected as the unknown word QX, at step 0 of `Unwind` and
by `DoMove` on the very game that accepted "quux". -/
theorem C3_replay_rejects_recorded_move :
    sampleGlobals.dict = mustLoadDict asciiCase sampleWords ∧
    dictHas sampleGlobals.dict "QUX".toList = true ∧
    Unwind asciiCase (scriptRng quxScript) sampleGlobals 1
        (freshGame (scriptRng quxScript) 0 0) [] =
      .ok (none, sampleGame (scriptRng quxScript) [] "QUXAAAAAAAAAAAAA") ∧
    DoMove asciiCase (scriptRng quxScript) sampleGlobals 1
        (sampleGame (scriptRng quxScript) [] "QUXAAAAAAAAAAAAA") "quux".toList =
      .ok (none, { sampleGame (scriptRng quxScript) [] "AUAAAAAAAAAAAAAA" with
                   Moves := ["QUX".toList] }) ∧
    DoMove asciiCase (scriptRng quxScript) sampleGlobals 1
        (sampleGame (scriptRng quxScript) [] "QUXAAAAAAAAAAAAA") "QUX".toList =
      .ok (some (.unknownWord "QX".toList),
        sampleGame (scriptRng quxScript) [] "QUXAAAAAAAAAAAAA") ∧
    Unwind asciiCase (scriptRng quxScript) sampleGlobals 1
        (freshGame (scriptRng quxScript) 0 0) ["QUX".toList] =
      .ok (some ⟨0, .unknownWord "QX".toList⟩,
        sampleGame (scriptRng quxScript) [] "QUXAAAAAAAAAAAAA") := by
  refine ⟨by decide, by decide, by rfl, by rfl, by rfl, by rfl⟩

/-- C6, at a failing input: the accepted move "quux" has the normal form QUX, of three letters
with one U, and on the grid Q, U, X, B, ... `DoMove` redraws slots 0 and 2 only: the slot of U
keeps its letter, and of eight draws left in the random source four are used, two for each of
two calls of `RandLetter`. -/
theorem C6_quux_redraws_two_slots :
    Normalize asciiCase "quux".toList = "QUX".toList ∧
    (Normalize asciiCase "quux".toList).count 'U' = 1 ∧
    DoMove asciiCase (scriptRng []) sampleGlobals 1
        (sampleGame (scriptRng []) [0, 0, 0, 0, 0, 0, 0, 0] "QUXBBBBBBBBBBBBB")
        "quux".toList =
      .ok (none, { sampleGame (scriptRng []) [0, 0, 0, 0] "AUABBBBBBBBBBBBB" with
                   Moves := ["QUX".toList] }) := by
  refine ⟨by decide, by decide, by rfl⟩

end lex

namespace words

theorem mem_qFixer (s : Str) (c : Char) (h : c ∈ qFixer s) : c ∈ s := by
  induction s using qFixer.induct with
  | case1 => simp [qFixer] at h
  | case2 => simpa [qFixer] using h
  | case3 rest2 ih =>
    rw [qFixer_QU] at h
    rcases List.mem_cons.1 h with e | hm
    · rw [e]; exact List.mem_cons_self _ _
    · exact List.mem_cons_of_mem _ (List.mem_cons_of_mem _ (ih hm))
  | case4 d rest2 hd ih =>
    rw [qFixer_Q_other d rest2 hd] at h
    rcases List.mem_cons.1 h with e | hm
    · rw [e]; exact List.mem_cons_self _ _
    · exact List.mem_cons_of_mem _ (ih hm)
  | case5 d rest hd ih =>
    rw [qFixer_other d rest hd] at h
    rcases List.mem_cons.1 h with e | hm
    · rw [e]; exact List.mem_cons_self _ _
    · exact List.mem_cons_of_mem _ (ih hm)

/-- The replacer `qFixer` leaves a text without "QU" as it is. -/
theorem qFixer_of_no_QU (s : Str) (h : ¬ ['Q', 'U'] <:+: s) : qFixer s = s := by
  induction s using qFixer.induct with
  | case1 => rfl
  | case2 => rfl
  | case3 rest2 ih =>
    exact absurd ⟨[], rest2, rfl⟩ h
  | case4 d rest2 hd ih =>
    rw [qFixer_Q_other d rest2 hd, ih]
    rintro ⟨pre, post, e⟩
    exact h ⟨'Q' :: pre, post, by simp [← e]⟩
  | case5 d rest hd ih =>
    rw [qFixer_other d rest hd, ih]
    rintro ⟨pre, post, e⟩
    exact h ⟨d :: pre, post, by simp [← e]⟩

/-- Where upper-casing twice is upper-casing once, `Normalize` fixes every normal form that
holds no "QU": a second application changes the result only for a text with "QUU". -/
theorem Normalize_idem_of_no_QU (U : CaseMap) (w : Str)
    (hU : ∀ c ∈ w, U.toUpper (U.toUpper c) = U.toUpper c)
    (h : ¬ ['Q', 'U'] <:+: Normalize U w) :
    Normalize U (Normalize U w) = Normalize U w := by
  have hup : ToUpper U (Normalize U w) = Normalize U w := by
    unfold ToUpper
    conv_rhs => rw [← List.map_id (Normalize U w)]
    apply List.map_congr_left
    intro c hc
    have hc2 := mem_qFixer _ c hc
    obtain ⟨d, hd, e⟩ := List.mem_map.1 hc2
    rw [← e]
    exact hU d hd
  show qFixer (ToUpper U (Normalize U w)) = Normalize U w
  rw [hup]
  exact qFixer_of_no_QU _ h

theorem toNat_inj (a b : Char) (h : a.toNat = b.toNat) : a = b := by
  have : Char.ofNat a.toNat = Char.ofNat b.toNat := by rw [h]
  simpa [Char.ofNat_toNat] using this

theorem strLess_cons (a b : Char) (as bs : Str) :
    strLess (a :: as) (b :: bs) =
      if a.toNat < b.toNat then true else if b.toNat < a.toNat then false else strLess as bs := by
  rw [strLess]

theorem strLess_irrefl (a : Str) : strLess a a = false := by
  induction a with
  | nil => rfl
  | cons c rest ih => rw [strLess_cons]; simp [ih]

theorem strLess_asymm (a : Str) : ∀ b : Str, strLess a b = true → strLess b a = false := by
  induction a with
  | nil =>
    intro b _
    cases b <;> rfl
  | cons c rest ih =>
    intro b h
    cases b with
    | nil => simp [strLess] at h
    | cons d rest2 =>
      rw [strLess_cons] at h ⊢
      by_cases h1 : c.toNat < d.toNat
      · have h2 : ¬ d.toNat < c.toNat := by omega
        simp [h1, h2]
      · by_cases h2 : d.toNat < c.toNat
        · simp [h1, h2] at h
        · simp only [h1, h2, if_false] at h ⊢
          exact ih rest2 h

theorem strLess_total (a : Str) :
    ∀ b : Str, strLess a b = false → strLess b a = false → a = b := by
  induction a with
  | nil =>
    intro b h1 _
    cases b with
    | nil => rfl
    | cons d rest2 => simp [strLess] at h1
  | cons c rest ih =>
    intro b h1 h2
    cases b with
    | nil => simp [strLess] at h2
    | cons d rest2 =>
      rw [strLess_cons] at h1 h2
      by_cases hcd : c.toNat < d.toNat
      · simp [hcd] at h1
      · by_cases hdc : d.toNat < c.toNat
        · simp [hdc] at h2
        · simp only [hcd, hdc, if_false] at h1 h2
          have e : c = d := toNat_inj c d (by omega)
          rw [e, ih rest2 h1 h2]

theorem strLess_trans (a : Str) :
    ∀ b c : Str, strLess a b = true → strLess b c = true → strLess a c = true := by
  induction a with
  | nil =>
    intro b c h1 h2
    cases c with
    | nil => cases b <;> simp [strLess] at h2
    | cons e rest3 => rfl
  | cons x rest ih =>
    intro b c h1 h2
    cases b with
    | nil => simp [strLess] at h1
    | cons y rest2 =>
      cases c with
      | nil => simp [strLess] at h2
      | cons z rest3 =>
        rw [strLess_cons] at h1 h2 ⊢
        by_cases hxy : x.toNat < y.toNat
        · by_cases hyz : y.toNat < z.toNat
          · simp [show x.toNat < z.toNat by omega]
          · by_cases hzy : z.toNat < y.toNat
            · simp [hyz, hzy] at h2
            · simp [show x.toNat < z.toNat by omega]
        · by_cases hyx : y.toNat < x.toNat
          · simp [hxy, hyx] at h1
          · simp only [hxy, hyx, if_false] at h1
            by_cases hyz : y.toNat < z.toNat
            · simp [show x.toNat < z.toNat by omega]
            · by_cases hzy : z.toNat < y.toNat
              · simp [hyz, hzy] at h2
              · simp only [hyz, hzy, if_false] at h2
                simp only [show ¬ x.toNat < z.toNat by omega,
                  show ¬ z.toNat < x.toNat by omega, if_false]
                exact ih rest2 rest3 h1 h2

/-- The order "not greater" of Go strings is transitive. -/
theorem strLE_trans (a b c : Str) (h1 : strLess b a = false) (h2 : strLess c b = false) :
    strLess c a = false := by
  cases hca : strLess c a with
  | false => rfl
  | true =>
    cases hab : strLess a b with
    | true =>
      have := strLess_trans c a b hca hab
      rw [this] at h2
      cases h2
    | false =>
      have e := strLess_total a b hab h1
      subst e
      rw [hca] at h2
      cases h2

theorem perm_insertSorted (s : Str) (l : List Str) : (insertSorted s l).Perm (s :: l) := by
  induction l with
  | nil => exact List.Perm.refl _
  | cons t rest ih =>
    unfold insertSorted
    by_cases h : strLess t s = true
    · simp only [h, if_true]
      exact (List.Perm.cons t ih).trans (List.Perm.swap s t rest)
    · simp only [h]
      exact List.Perm.refl _

/-- The sort keeps the strings and their multiplicities. -/
theorem perm_sortStrings (l : List Str) : (sortStrings l).Perm l := by
  induction l with
  | nil => exact List.Perm.refl _
  | cons s rest ih =>
    show (insertSorted s (sortStrings rest)).Perm (s :: rest)
    exact (perm_insertSorted s _).trans (List.Perm.cons s ih)

theorem sorted_insertSorted (s : Str) (l : List Str)
    (h : l.Pairwise fun a b => strLess b a = false) :
    (insertSorted s l).Pairwise fun a b => strLess b a = false := by
  induction l with
  | nil => simp [insertSorted]
  | cons t rest ih =>
    rw [List.pairwise_cons] at h
    unfold insertSorted
    by_cases hts : strLess t s = true
    · simp only [hts, if_true, List.pairwise_cons]
      refine ⟨?_, ih h.2⟩
      intro b hb
      rcases List.mem_cons.1 ((perm_insertSorted s rest).subset hb) with e | hm
      · rw [e]
        exact strLess_asymm t s hts
      · exact h.1 b hm
    · have hts2 : strLess t s = false := by
        cases hx : strLess t s
        · rfl
        · exact absurd hx hts
      simp only [hts2, Bool.false_eq_true, if_false, List.pairwise_cons]
      refine ⟨?_, h.1, h.2⟩
      intro b hb
      rcases List.mem_cons.1 hb with e | hm
      · rw [e]
        exact hts2
      · exact strLE_trans s t b hts2 (h.1 b hm)

/-- The sort puts the strings in ascending order. -/
theorem sorted_sortStrings (l : List Str) :
    (sortStrings l).Pairwise fun a b => strLess b a = false := by
  induction l with
  | nil => exact List.Pairwise.nil
  | cons s rest ih => exact sorted_insertSorted s _ ih

/-- Two ascending lists with the same strings are the same list. -/
theorem eq_of_perm_of_sorted (l1 l2 : List Str) (hp : l1.Perm l2)
    (h1 : l1.Pairwise fun a b => strLess b a = false)
    (h2 : l2.Pairwise fun a b => strLess b a = false) : l1 = l2 := by
  haveI : IsAntisymm Str (fun a b => strLess b a = false) :=
    ⟨fun a b hab hba => strLess_total a b hba hab⟩
  exact List.eq_of_perm_of_sorted hp h1 h2

/-- The result of the sort does not depend on the order of its input. -/
theorem sortStrings_perm (l1 l2 : List Str) (hp : l1.Perm l2) :
    sortStrings l1 = sortStrings l2 :=
  eq_of_perm_of_sorted _ _
    (((perm_sortStrings l1).trans hp).trans (perm_sortStrings l2).symm)
    (sorted_sortStrings l1) (sorted_sortStrings l2)

/-- Without repeated strings the sorted list is strictly ascending. -/
theorem strict_sortStrings (l : List Str) (hn : l.Nodup) :
    (sortStrings l).Pairwise fun a b => strLess a b = true := by
  have hs := sorted_sortStrings l
  have hn2 : (sortStrings l).Nodup := (perm_sortStrings l).nodup_iff.2 hn
  have := List.Pairwise.and hs hn2
  refine this.imp ?_
  rintro a b ⟨hle, hne⟩
  cases hab : strLess a b with
  | true => rfl
  | false => exact absurd (strLess_total a b hab hle) hne

/-- C12, at a failing input: the line "Bar" starts with an upper-case letter, the pattern
`rejectRE` matches it, and yet `LoadValid` emits it and `mustLoadDict` makes the dictionary
entry BAR from it. -/
theorem C12_capitalised_line_is_loaded (U : CaseMap) :
    rejectRE "Bar".toList = true ∧
    LoadValid U ["Bar".toList] lex.kSize = ["Bar".toList] ∧
    lex.mustLoadDict U ["Bar".toList] = [("BAR".toList, "Bar".toList)] := by
  have hl : LoadValid U ["Bar".toList] lex.kSize = ["Bar".toList] := by
    unfold LoadValid
    have hs : scanLines ["Bar".toList] = ["Bar".toList] := by decide
    rw [hs]
    simp only [List.filter, Normalize_ascii U "Bar".toList (by decide)]
    decide
  refine ⟨by decide, hl, ?_⟩
  unfold lex.mustLoadDict
  rw [hl]
  simp only [List.foldl, Normalize_ascii U "Bar".toList (by decide)]
  decide

/-- The replacer `qFixer` undoes the expansion of every `Q` into "QU". -/
theorem qFixer_expand (n : Str) :
    qFixer (n.flatMap fun c => if c = 'Q' then ['Q', 'U'] else [c]) = n := by
  induction n with
  | nil => rfl
  | cons c rest ih =>
    by_cases h : c = 'Q'
    · subst h
      simp only [List.flatMap_cons, if_true, List.cons_append, List.nil_append]
      rw [qFixer_QU, ih]
    · simp only [List.flatMap_cons, h, if_false, List.cons_append, List.nil_append]
      rw [qFixer_other c _ h, ih]

/-- Upper-casing the output of `qUnfixer` on an upper-cased text. -/
theorem ToUpper_qUnfixer (U : CaseMap) (n : Str) (hn : ∀ c ∈ n, U.toUpper c = c) :
    ToUpper U (qUnfixer n) = n.flatMap fun c => if c = 'Q' then ['Q', 'U'] else [c] := by
  induction n with
  | nil => rfl
  | cons c rest ih =>
    have ih2 := ih (fun d hd => hn d (List.mem_cons_of_mem _ hd))
    have hc := hn c (List.mem_cons_self _ _)
    have hQ : U.toUpper 'Q' = 'Q' := by rw [U.ascii 'Q' (by decide)]; rfl
    have hu : U.toUpper 'u' = 'U' := by rw [U.ascii 'u' (by decide)]; rfl
    unfold ToUpper at ih2 ⊢
    by_cases h : c = 'Q'
    · subst h
      simp only [qUnfixer, if_true, List.map_cons, hQ, hu, ih2, List.flatMap_cons,
        List.cons_append, List.nil_append]
    · simp only [qUnfixer, h, if_false, List.map_cons, hc, ih2, List.flatMap_cons,
        List.cons_append, List.nil_append]

/-- C20: `Normalize(Denormalize(w))` is `Normalize(w)`, also when the normal form still holds
"QU". The upper-casing of the library is taken to leave an upper-cased code point as it is,
on the code points of `w`. -/
theorem C20_Normalize_Denormalize (U : CaseMap) (w : Str)
    (hU : ∀ c ∈ w, U.toUpper (U.toUpper c) = U.toUpper c) :
    Normalize U (Denormalize U w) = Normalize U w := by
  have hn : ∀ c ∈ Normalize U w, U.toUpper c = c := by
    intro c hc
    obtain ⟨d, hd, e⟩ := List.mem_map.1 (mem_qFixer _ c hc)
    rw [← e]
    exact hU d hd
  show qFixer (ToUpper U (qUnfixer (Normalize U w))) = Normalize U w
  rw [ToUpper_qUnfixer U _ hn, qFixer_expand]

/-- C20 at a concrete input: "quux" has the normal form QUX, its display form is QuUX, and
the normal form of that is QUX again. -/
theorem C20_Normalize_Denormalize_witness :
    (∀ c ∈ "quux".toList, asciiCase.toUpper (asciiCase.toUpper c) = asciiCase.toUpper c) ∧
    Denormalize asciiCase "quux".toList = "QuUX".toList ∧
    Normalize asciiCase (Denormalize asciiCase "quux".toList) = "QUX".toList :=
  ⟨by decide, by decide,
    (C20_Normalize_Denormalize asciiCase "quux".toList (by decide)).trans (by decide)⟩

/-- One round of the inner loop of `Max`, seen through `res[l]`. -/
theorem get_maxStep (res : countMap) (p : Str × Int) (l : Str) :
    (if countMap.get res p.1 > p.2 then res else countMap.set res p.1 p.2).get l =
      if p.1 = l then max (res.get l) p.2 else res.get l := by
  by_cases hgt : countMap.get res p.1 > p.2
  · simp only [hgt, if_true]
    by_cases e : p.1 = l
    · subst e
      simp only [if_true]
      omega
    · simp [e]
  · simp only [hgt, if_false, get_set]
    by_cases e : p.1 = l
    · subst e
      simp only [if_true]
      omega
    · simp [e]

/-- The inner loop of `Max` over one map without repeated keys. -/
theorem get_maxInner (cm : countMap) (hn : (cm.map Prod.fst).Nodup) (res : countMap)
    (l : Str) (h0 : 0 ≤ res.get l) :
    (cm.foldl (fun res p => if countMap.get res p.1 > p.2 then res
      else countMap.set res p.1 p.2) res).get l = max (res.get l) (cm.get l) := by
  induction cm generalizing res with
  | nil => simp [countMap.get, h0]
  | cons p rest ih =>
    obtain ⟨k, v⟩ := p
    simp only [List.map_cons, List.nodup_cons] at hn
    rw [List.foldl_cons, ih hn.2, get_maxStep]
    · by_cases e : k = l
      · subst e
        have hr : countMap.get rest k = 0 := get_of_not_key rest k hn.1
        simp only [if_true, countMap.get, hr]
        omega
      · simp [e, countMap.get]
    · rw [get_maxStep]
      by_cases e : k = l
      · simp only [e, if_true]
        omega
      · simp only [e, if_false]
        exact h0

theorem get_maxOuter (cs : List countMap) (hn : ∀ c ∈ cs, (c.map Prod.fst).Nodup)
    (res : countMap) (l : Str) (h0 : 0 ≤ res.get l) :
    (cs.foldl (fun res cm => cm.foldl (fun res p => if countMap.get res p.1 > p.2 then res
      else countMap.set res p.1 p.2) res) res).get l =
      max (res.get l) ((cs.map fun c => c.get l).foldr max 0) := by
  induction cs generalizing res with
  | nil => simp [h0]
  | cons c rest ih =>
    have hc := hn c (List.mem_cons_self _ _)
    have hr : ∀ d ∈ rest, (d.map Prod.fst).Nodup := fun d hd => hn d (List.mem_cons_of_mem _ hd)
    rw [List.foldl_cons, ih hr, get_maxInner c hc res l h0]
    · simp only [List.map_cons, List.foldr_cons]
      omega
    · rw [get_maxInner c hc res l h0]
      omega

theorem foldr_max_ge (xs : List Int) (x : Int) (hx : x ∈ xs) : x ≤ xs.foldr max 0 := by
  induction xs with
  | nil => cases hx
  | cons y rest ih =>
    simp only [List.foldr_cons]
    rcases List.mem_cons.1 hx with e | hm
    · subst e
      omega
    · have := ih hm
      omega

/-- C13: for maps without repeated keys, `Max(c1..cn)` holds for every letter the greatest of
the letter's counts in the inputs, and 0 when no input counts it; so `Max(c1..cn)` contains
every input. -/
theorem C13_Max_is_letterwise_maximum (cs : List countMap)
    (hn : ∀ c ∈ cs, (c.map Prod.fst).Nodup) :
    (∀ l : Str, (Max cs).get l = (cs.map fun c => c.get l).foldr max 0) ∧
    (∀ l : Str, (∀ c ∈ cs, c.get l = 0) → (Max cs).get l = 0) ∧
    (∀ c ∈ cs, (Max cs).Contains c = true) := by
  have hget : ∀ l : Str, (Max cs).get l = (cs.map fun c => c.get l).foldr max 0 := by
    intro l
    unfold Max
    rw [get_maxOuter cs hn [] l (by simp [countMap.get])]
    have h0 : (0 : Int) ≤ (cs.map fun c => c.get l).foldr max 0 := by
      cases cs with
      | nil => simp
      | cons c rest =>
        simp only [List.map_cons, List.foldr_cons]
        have : ∀ (xs : List Int), 0 ≤ xs.foldr max 0 := by
          intro xs
          induction xs with
          | nil => simp
          | cons y r ih => simp only [List.foldr_cons]; omega
        have := this (rest.map fun c => c.get l)
        omega
    simp only [countMap.get]
    omega
  refine ⟨hget, ?_, ?_⟩
  · intro l hz
    rw [hget]
    have : ∀ (ds : List countMap), (∀ c ∈ ds, c.get l = 0) →
        (ds.map fun c => c.get l).foldr max 0 = 0 := by
      intro ds
      induction ds with
      | nil => intro _; rfl
      | cons d r ih =>
        intro h
        simp only [List.map_cons, List.foldr_cons, h d (List.mem_cons_self _ _),
          ih (fun c hc => h c (List.mem_cons_of_mem _ hc))]
        rfl
    exact this cs hz
  · intro c hc
    unfold countMap.Contains
    rw [List.all_eq_true]
    rintro ⟨k, v⟩ hm
    have hv := get_of_mem c (hn c hc) k v hm
    have hge : c.get k ≤ (cs.map fun c => c.get k).foldr max 0 :=
      foldr_max_ge _ _ (List.mem_map.2 ⟨c, hc, rfl⟩)
    simp only [Bool.not_eq_true', decide_eq_false_iff_not, not_lt, hget k]
    omega

/-- C13 at a concrete input: the cover of "astronomer" and "noodle" contains both words and
counts one D, which only "noodle" has. -/
theorem C13_Max_witness :
    (∀ c ∈ [Count asciiCase "astronomer".toList, Count asciiCase "noodle".toList],
      (c.map Prod.fst).Nodup) ∧
    (Max [Count asciiCase "astronomer".toList, Count asciiCase "noodle".toList]).Contains
      (Count asciiCase "noodle".toList) = true ∧
    (Max [Count asciiCase "astronomer".toList, Count asciiCase "noodle".toList]).get ['D'] = 1 :=
  have hn : ∀ c ∈ [Count asciiCase "astronomer".toList, Count asciiCase "noodle".toList],
      (c.map Prod.fst).Nodup := by decide
  have h := C13_Max_is_letterwise_maximum
    [Count asciiCase "astronomer".toList, Count asciiCase "noodle".toList] hn
  ⟨hn, h.2.2 _ (by simp), (h.1 ['D']).trans (by decide)⟩

theorem count_expand (cm : countMap) (hn : (cm.map Prod.fst).Nodup) (x : Str) :
    (cm.flatMap fun p => List.replicate p.2.toNat p.1).count x = (cm.get x).toNat := by
  induction cm with
  | nil => simp [countMap.get]
  | cons p rest ih =>
    obtain ⟨k, v⟩ := p
    simp only [List.map_cons, List.nodup_cons] at hn
    simp only [List.flatMap_cons, List.count_append, ih hn.2, List.count_replicate,
      countMap.get]
    by_cases e : k = x
    · subst e
      simp [get_of_not_key rest k hn.1]
    · have e2 : ¬ (k == x) = true := by simpa using e
      simp [e, e2]

theorem flatten_Split (s : Str) : (Split s).flatten = s := by
  induction s with
  | nil => rfl
  | cons c rest ih =>
    simp only [Split, List.map_cons, List.flatten_cons, List.singleton_append] at ih ⊢
    rw [ih]

theorem sorted_flatten (l : List Str) (hs : ∀ s ∈ l, ∃ c : Char, s = [c])
    (h : l.Pairwise fun a b => strLess b a = false) :
    l.flatten.Pairwise fun a b : Char => a.toNat ≤ b.toNat := by
  induction l with
  | nil => exact List.Pairwise.nil
  | cons s rest ih =>
    rw [List.pairwise_cons] at h
    obtain ⟨c, hc⟩ := hs s (List.mem_cons_self _ _)
    subst hc
    have hr : ∀ s ∈ rest, ∃ c : Char, s = [c] := fun s hm => hs s (List.mem_cons_of_mem _ hm)
    simp only [List.flatten_cons, List.singleton_append, List.pairwise_cons]
    refine ⟨?_, ih hr h.2⟩
    intro d hd
    obtain ⟨t, ht, hdt⟩ := List.mem_flatten.1 hd
    obtain ⟨e, he⟩ := hr t ht
    subst he
    have hde : d = e := by simpa using hdt
    subst hde
    have := h.1 [d] ht
    rw [strLess_cons] at this
    by_contra hlt
    simp [show d.toNat < c.toNat by omega] at this

/-- C14: `Count(w).String()` holds the letters of `Normalize(w)`, each as often as the normal
form has it, in ascending order; "moon" gives MNOO and "astronomer" gives AEMNOORRST. -/
theorem C14_Count_String_sorted_perm (U : CaseMap) (w : Str) :
    ((Count U w).String).Pairwise (fun a b : Char => a.toNat ≤ b.toNat) ∧
    ((Count U w).String).Perm (Normalize U w) ∧
    (Count U "moon".toList).String = "MNOO".toList ∧
    (Count U "astronomer".toList).String = "AEMNOORRST".toList := by
  have hexp : ((Count U w).flatMap fun p => List.replicate p.2.toNat p.1).Perm
      (Split (Normalize U w)) := by
    rw [List.perm_iff_count]
    intro x
    have h1 := count_expand (CountLetters (Split (Normalize U w))) (nodup_CountLetters _) x
    rw [get_CountLetters, Int.toNat_ofNat] at h1
    unfold Count
    convert h1
  have hsort := (perm_sortStrings _).trans hexp
  refine ⟨?_, ?_, ?_, ?_⟩
  · unfold countMap.String
    apply sorted_flatten _ _ (sorted_sortStrings _)
    intro s hs
    obtain ⟨c, _, e⟩ := (mem_Split _ _).1 (hsort.subset hs)
    exact ⟨c, e⟩
  · unfold countMap.String
    have := List.Perm.flatten hsort
    rwa [flatten_Split] at this
  · unfold Count
    rw [Normalize_ascii U _ (by decide)]
    decide
  · unfold Count
    rw [Normalize_ascii U _ (by decide)]
    decide

end words

namespace lex
open words
theorem Legal_of_DoMove_none (U : CaseMap) (R : Rng) (G : Globals) (fuel : Nat) (g g2 : Game R)
    (m : Str) (h : DoMove U R G fuel g m = .ok (none, g2)) : Legal U G g.Letters m := by
  by_contra hl
  unfold Legal at hl
  push_neg at hl
  obtain ⟨hm, hl⟩ := hl
  cases hc : (CountLetters g.Letters).Contains (Count U (Normalize U m))
  · rw [DoMove_cantSpell U R G fuel g m hm hc] at h
    cases h
  · have hd : dictHas G.dict (Normalize U m) = false := by
      cases hd : dictHas G.dict (Normalize U m)
      · rfl
      · exact absurd hd (hl hc)
    rw [DoMove_unknownWord U R G fuel g m hm hc hd] at h
    cases h

theorem not_Legal_of_DoMove_error (U : CaseMap) (R : Rng) (G : Globals) (fuel : Nat)
    (g g2 : Game R) (m : Str) (e : MoveError) (h : DoMove U R G fuel g m = .ok (some e, g2)) :
    ¬ Legal U G g.Letters m ∧ g2 = g := by
  obtain ⟨hm, hg, hcase⟩ := (DoMove_error_iff U R G fuel g m e g2).1 h
  refine ⟨?_, hg⟩
  rintro (hl | ⟨hc, hd⟩)
  · exact hm hl
  · rcases hcase with h1 | h2
    · rw [hc] at h1
      cases h1.1
    · rw [hd] at h2
      cases h2.2.1

/-- A failing `Unwind` loop stopped at the first rejected move: the moves before it were
accepted one after the other and the game is as they left it. -/
theorem unwindFrom_error (U : CaseMap) (R : Rng) (G : Globals) (fuel : Nat) (moves : List Str) :
    ∀ (i : Nat) (g g2 : Game R) (k : Nat) (e : MoveError),
      unwindFrom U R G fuel i g moves = .ok (some ⟨k, e⟩, g2) →
      ∃ j m, k = i + j ∧ moves[j]? = some m ∧
        unwindFrom U R G fuel i g (moves.take j) = .ok (none, g2) ∧
        DoMove U R G fuel g2 m = .ok (some e, g2) := by
  induction moves with
  | nil => intro i g g2 k e h; simp [unwindFrom] at h
  | cons m rest ih =>
    intro i g g2 k e h
    unfold unwindFrom at h
    cases hd : DoMove U R G fuel g m with
    | error f => simp [hd] at h
    | ok q =>
      obtain ⟨r1, g1⟩ := q
      cases r1 with
      | some err =>
        simp only [hd, Except.ok.injEq, Prod.mk.injEq, Option.some.injEq,
          ReplayError.mk.injEq] at h
        obtain ⟨⟨hk, he⟩, hg⟩ := h
        subst hg
        subst he
        obtain ⟨_, hgg⟩ := not_Legal_of_DoMove_error U R G fuel g g1 m err hd
        subst hgg
        exact ⟨0, m, by omega, by simp, by simp [unwindFrom], hd⟩
      | none =>
        simp only [hd] at h
        obtain ⟨j, m2, hk, hm2, hp, hdm⟩ := ih (i + 1) g1 g2 k e h
        refine ⟨j + 1, m2, by omega, by simpa using hm2, ?_, hdm⟩
        simp only [List.take_succ_cons, unwindFrom, hd]
        exact hp

/-- A successful `Unwind` loop accepted every move, each on the game that the moves before it
left. -/
theorem unwindFrom_prefix (U : CaseMap) (R : Rng) (G : Globals) (fuel : Nat)
    (moves : List Str) :
    ∀ (i : Nat) (g g2 : Game R), unwindFrom U R G fuel i g moves = .ok (none, g2) →
      ∀ j m, moves[j]? = some m →
        ∃ gj g3, unwindFrom U R G fuel i g (moves.take j) = .ok (none, gj) ∧
          DoMove U R G fuel gj m = .ok (none, g3) := by
  induction moves with
  | nil => intro i g g2 _ j m hm; simp at hm
  | cons m0 rest ih =>
    intro i g g2 h j m hm
    unfold unwindFrom at h
    cases hd : DoMove U R G fuel g m0 with
    | error f => simp [hd] at h
    | ok q =>
      obtain ⟨r1, g1⟩ := q
      cases r1 with
      | some err => simp [hd] at h
      | none =>
        simp only [hd] at h
        cases j with
        | zero =>
          simp only [List.getElem?_cons_zero, Option.some.injEq] at hm
          subst hm
          exact ⟨g, g1, by simp [unwindFrom], hd⟩
        | succ j =>
          simp only [List.getElem?_cons_succ] at hm
          obtain ⟨gj, g3, hp, hdm⟩ := ih (i + 1) g1 g2 h j m hm
          refine ⟨gj, g3, ?_, hdm⟩
          simp only [List.take_succ_cons, unwindFrom, hd]
          exact hp

theorem Unwind_eq_unwindFrom (U : CaseMap) (R : Rng) (G : Globals) (fuel : Nat) (g : Game R)
    (moves : List Str) (letters : List Str) (s : R.State)
    (hd : Draw R G fuel g.Letters (R.newSource (Int.xor g.Seed g.Started)) = .ok (letters, s)) :
    Unwind U R G fuel g moves =
      unwindFrom U R G fuel 0 { g with Letters := letters, rng := s } moves := by
  unfold Unwind
  simp only [hd]

/-- C18: when `Unwind` returns on a fresh game, it returns `nil` exactly if every move is legal
on the game that the replay of the moves before it leaves, and then `Moves` holds the normal
forms of all moves. Otherwise its error names an index `i` and holds the error that `DoMove`
gives for move `i`; the moves before `i` were accepted and are the ones in `Moves`, move `i`
is not legal, and the game is as the moves before `i` left it, so no later move is applied.
`Unwind` does return when the sampler halts. -/
theorem C18_Unwind_reports_first_illegal_move (U : CaseMap) (R : Rng) (G : Globals)
    (fuel : Nat) (seed started : Int) (moves : List Str) (r : Option ReplayError)
    (g2 : Game R)
    (h : Unwind U R G fuel (freshGame R seed started) moves = .ok (r, g2)) :
    (r = none ↔ ∀ j m gj, moves[j]? = some m →
      Unwind U R G fuel (freshGame R seed started) (moves.take j) = .ok (none, gj) →
      Legal U G gj.Letters m) ∧
    (r = none → g2.Moves = moves.map (Normalize U)) ∧
    (∀ i e, r = some ⟨i, e⟩ →
      ∃ m, moves[i]? = some m ∧
        Unwind U R G fuel (freshGame R seed started) (moves.take i) = .ok (none, g2) ∧
        DoMove U R G fuel g2 m = .ok (some e, g2) ∧
        ¬ Legal U G g2.Letters m ∧
        g2.Moves = (moves.take i).map (Normalize U) ∧
        ∀ j mj, j < i → moves[j]? = some mj →
          ∃ gj, Unwind U R G fuel (freshGame R seed started) (moves.take j) = .ok (none, gj) ∧
            Legal U G gj.Letters mj) ∧
    (SamplerHalts R G → ∀ ms, ∃ fuel2 v,
      Unwind U R G fuel2 (freshGame R seed started) ms = .ok v) := by
  cases hd : Draw R G fuel (freshGame R seed started).Letters
      (R.newSource (Int.xor (freshGame R seed started).Seed (freshGame R seed started).Started))
    with
  | error f =>
    unfold Unwind at h
    simp [hd] at h
  | ok q =>
    obtain ⟨letters, s⟩ := q
    have hU := fun ms => Unwind_eq_unwindFrom U R G fuel (freshGame R seed started) ms letters s hd
    have herr : ∀ i e, r = some ⟨i, e⟩ →
        ∃ m, moves[i]? = some m ∧
          Unwind U R G fuel (freshGame R seed started) (moves.take i) = .ok (none, g2) ∧
          DoMove U R G fuel g2 m = .ok (some e, g2) ∧
          ¬ Legal U G g2.Letters m ∧
          g2.Moves = (moves.take i).map (Normalize U) ∧
          ∀ j mj, j < i → moves[j]? = some mj →
            ∃ gj, Unwind U R G fuel (freshGame R seed started) (moves.take j) = .ok (none, gj) ∧
              Legal U G gj.Letters mj := by
      intro i e hr
      subst hr
      rw [hU] at h
      obtain ⟨j, m, hk, hm, hp, hdm⟩ := unwindFrom_error U R G fuel moves 0 _ g2 i e h
      have hij : i = j := by omega
      subst hij
      have hpre : Unwind U R G fuel (freshGame R seed started) (moves.take i) = .ok (none, g2) := by
        rw [hU]; exact hp
      refine ⟨m, hm, hpre, hdm, (not_Legal_of_DoMove_error U R G fuel g2 g2 m e hdm).1, ?_, ?_⟩
      · have := (Unwind_ok_none U R G fuel _ g2 _ hpre).1
        simpa [freshGame] using this
      · intro j mj hj hmj
        have hmj2 : (moves.take i)[j]? = some mj := by
          rw [List.getElem?_take_of_lt hj]; exact hmj
        obtain ⟨gj, g3, hpj, hdj⟩ := unwindFrom_prefix U R G fuel (moves.take i) 0 _ g2 hp j mj hmj2
        have htt : (moves.take i).take j = moves.take j := by
          rw [List.take_take]
          congr 1
          omega
        rw [htt] at hpj
        exact ⟨gj, by rw [hU]; exact hpj, Legal_of_DoMove_none U R G fuel gj g3 mj hdj⟩
    refine ⟨⟨?_, ?_⟩, ?_, herr, ?_⟩
    · intro hr j m gj hm hpj
      subst hr
      rw [hU] at h hpj
      obtain ⟨gj2, g3, hp2, hdj⟩ := unwindFrom_prefix U R G fuel moves 0 _ g2 h j m hm
      rw [hp2] at hpj
      simp only [Except.ok.injEq, Prod.mk.injEq, true_and] at hpj
      subst hpj
      exact Legal_of_DoMove_none U R G fuel gj2 g3 m hdj
    · intro hall
      cases r with
      | none => rfl
      | some re =>
        obtain ⟨i, e⟩ := re
        obtain ⟨m, hm, hpre, _, hnl, _, _⟩ := herr i e rfl
        exact absurd (hall i m g2 hm hpre) hnl
    · intro hr
      subst hr
      have := (Unwind_ok_none U R G fuel _ g2 _ h).1
      simpa [freshGame] using this
    · intro hH ms
      exact Unwind_terminates U R G hH _ ms

/-- C18 at a concrete input: on the grid M, O, O, N, A, ... the replay of "moon", "noodle",
"moon" stops at index 1 with the error of "noodle", and `Moves` holds MOON only. -/
theorem C18_Unwind_witness :
    Unwind asciiCase (scriptRng moonScript) sampleGlobals 1
        (freshGame (scriptRng moonScript) 0 0)
        ["moon".toList, "noodle".toList, "moon".toList] =
      .ok (some ⟨1, .cantSpell "NOODLE".toList (CountLetters (Split "AAAAAAAAAAAAAAAA".toList))⟩,
        { sampleGame (scriptRng moonScript) [] "AAAAAAAAAAAAAAAA" with
          Moves := ["MOON".toList] }) ∧
    Unwind asciiCase (scriptRng moonScript) sampleGlobals 1
        (freshGame (scriptRng moonScript) 0 0)
        (["moon".toList, "noodle".toList, "moon".toList].take 1) =
      .ok (none, { sampleGame (scriptRng moonScript) [] "AAAAAAAAAAAAAAAA" with
          Moves := ["MOON".toList] }) :=
  have h : Unwind asciiCase (scriptRng moonScript) sampleGlobals 1
        (freshGame (scriptRng moonScript) 0 0)
        ["moon".toList, "noodle".toList, "moon".toList] =
      .ok (some ⟨1, .cantSpell "NOODLE".toList (CountLetters (Split "AAAAAAAAAAAAAAAA".toList))⟩,
        { sampleGame (scriptRng moonScript) [] "AAAAAAAAAAAAAAAA" with
          Moves := ["MOON".toList] }) := by rfl
  ⟨h, match (C18_Unwind_reports_first_illegal_move asciiCase (scriptRng moonScript)
      sampleGlobals 1 0 0 _ _ _ h).2.2.1 1 _ rfl with
    | ⟨_, _, hp, _⟩ => hp⟩

end lex

namespace words
theorem wrap64_add_wrap64 (a b : Int) : wrap64 (wrap64 a + b) = wrap64 (a + b) := by
  unfold wrap64
  omega

theorem wrap64_wrap64 (a : Int) : wrap64 (wrap64 a) = wrap64 a := by
  unfold wrap64
  omega

/-- The running `int64` sum of a loop is the wrapped exact sum. -/
theorem foldl_wrap64 (xs : List Int) (t : Int) (ht : wrap64 t = t) :
    xs.foldl (fun t v => wrap64 (t + v)) t = wrap64 (t + xs.sum) := by
  induction xs generalizing t with
  | nil => simp [ht]
  | cons v rest ih =>
    rw [List.foldl_cons, ih _ (wrap64_wrap64 _), wrap64_add_wrap64, List.sum_cons, add_assoc]

theorem total_eq (freqs : List (Str × Int)) :
    (NewLetterGenFreqs freqs).total = wrap64 ((freqs.map Prod.snd).sum) := by
  have h := foldl_wrap64 (freqs.map Prod.snd) 0 (by decide)
  rw [List.foldl_map] at h
  simpa [NewLetterGenFreqs] using h

/-- Reading a map is the same in every order of enumeration. -/
theorem get_perm (f1 f2 : List (Str × Int)) (hp : f1.Perm f2) (hn : (f1.map Prod.fst).Nodup)
    (l : Str) : countMap.get f1 l = countMap.get f2 l := by
  have hn2 : (f2.map Prod.fst).Nodup := (hp.map Prod.fst).nodup_iff.1 hn
  by_cases hk : l ∈ f1.map Prod.fst
  · have hm := mem_of_key f1 l hk
    exact (get_of_mem f2 hn2 l _ (hp.subset hm)).symm
  · have hk2 : l ∉ f2.map Prod.fst := fun h => hk ((hp.map Prod.fst).symm.subset h)
    rw [get_of_not_key f1 l hk, get_of_not_key f2 l hk2]

theorem map_get_keys (freqs : List (Str × Int)) (hn : (freqs.map Prod.fst).Nodup) :
    (freqs.map Prod.fst).map (countMap.get freqs) = freqs.map Prod.snd := by
  rw [List.map_map]
  apply List.map_congr_left
  rintro ⟨k, v⟩ hm
  exact get_of_mem freqs hn k v hm

theorem buildCdf_congr (f1 f2 : List (Str × Int))
    (h : ∀ l, countMap.get f1 l = countMap.get f2 l) (ls : List Str) :
    ∀ m : Int, buildCdf f1 m ls = buildCdf f2 m ls := by
  induction ls with
  | nil => intro m; rfl
  | cons l rest ih =>
    intro m
    simp only [buildCdf, h l, ih]

theorem buildCdf_letters (freqs : List (Str × Int)) (ls : List Str) :
    ∀ m : Int, (buildCdf freqs m ls).map cdfPoint.letter = ls := by
  induction ls with
  | nil => intro m; rfl
  | cons l rest ih =>
    intro m
    simp only [buildCdf, List.map_cons, ih]

/-- The last entry of the table holds the wrapped sum of all weights added. -/
theorem buildCdf_last (freqs : List (Str × Int)) (ls : List Str) :
    ∀ (m : Int) (c : cdfPoint), wrap64 m = m → (buildCdf freqs m ls).getLast? = some c →
      c.mass = wrap64 (m + (ls.map (countMap.get freqs)).sum) := by
  induction ls with
  | nil => intro m c _ h; simp [buildCdf] at h
  | cons l rest ih =>
    intro m c hm h
    cases rest with
    | nil =>
      simp only [buildCdf, List.getLast?_singleton, Option.some.injEq] at h
      rw [← h]
      simp
    | cons l2 rest2 =>
      have hb : buildCdf freqs m (l :: l2 :: rest2) =
          ⟨l, wrap64 (m + countMap.get freqs l)⟩ ::
            buildCdf freqs (wrap64 (m + countMap.get freqs l)) (l2 :: rest2) := by
        rw [buildCdf]
      rw [hb] at h
      have hlast : ∀ (a : cdfPoint) (t : List cdfPoint), t ≠ [] →
          (a :: t).getLast? = t.getLast? := by
        intro a t ht
        cases t with
        | nil => exact absurd rfl ht
        | cons b t2 => exact List.getLast?_cons_cons
      have hne : buildCdf freqs (wrap64 (m + countMap.get freqs l)) (l2 :: rest2) ≠ [] := by
        rw [buildCdf]
        exact List.cons_ne_nil _ _
      rw [hlast _ _ hne] at h
      rw [ih _ c (wrap64_wrap64 _) h, wrap64_add_wrap64]
      simp only [List.map_cons, List.sum_cons, add_assoc]

/-- The last entry of the table of `NewLetterGenFreqs` holds the total. -/
theorem cdf_last_total (freqs : List (Str × Int)) (hn : (freqs.map Prod.fst).Nodup)
    (c : cdfPoint) (h : (NewLetterGenFreqs freqs).cdf.getLast? = some c) :
    c.mass = (NewLetterGenFreqs freqs).total := by
  rw [total_eq]
  have h1 := buildCdf_last freqs _ 0 c (by decide) h
  rw [h1, zero_add]
  congr 1
  rw [← map_get_keys freqs hn]
  exact ((perm_sortStrings (freqs.map Prod.fst)).map (countMap.get freqs)).sum_eq

theorem scanCdf_of_mem (x : Int) (cdf : List cdfPoint) (c : cdfPoint) (hc : c ∈ cdf)
    (hx : x < c.mass) : ∃ l, scanCdf x cdf = some l := by
  induction cdf with
  | nil => cases hc
  | cons d rest ih =>
    unfold scanCdf
    by_cases hd : x < d.mass
    · exact ⟨d.letter, by simp [hd]⟩
    · simp only [hd, if_false]
      rcases List.mem_cons.1 hc with e | hm
      · rw [e] at hx
        exact absurd hx hd
      · exact ih hm

/-- The scan finds an entry for every draw from 0 up to the total. -/
theorem scanCdf_total (freqs : List (Str × Int)) (hn : (freqs.map Prod.fst).Nodup) (x : Int)
    (h0 : 0 ≤ x) (h1 : x < (NewLetterGenFreqs freqs).total) :
    ∃ l, scanCdf x (NewLetterGenFreqs freqs).cdf = some l ∧ l ∈ freqs.map Prod.fst := by
  cases hl : (NewLetterGenFreqs freqs).cdf.getLast? with
  | none =>
    exfalso
    rw [List.getLast?_eq_none_iff] at hl
    have hk : sortStrings (freqs.map Prod.fst) = [] := by
      have := buildCdf_letters freqs (sortStrings (freqs.map Prod.fst)) 0
      rw [show buildCdf freqs 0 (sortStrings (freqs.map Prod.fst)) = [] from hl] at this
      exact this.symm
    have hf : freqs = [] := by
      have hp := perm_sortStrings (freqs.map Prod.fst)
      rw [hk] at hp
      have := hp.symm.eq_nil
      simpa using this
    subst hf
    simp [NewLetterGenFreqs] at h1
    omega
  | some c =>
    have hm := cdf_last_total freqs hn c hl
    obtain ⟨l, hs⟩ := scanCdf_of_mem x _ c (List.mem_of_getLast?_eq_some hl) (by omega)
    refine ⟨l, hs, ?_⟩
    have := lex.scanCdf_mem x _ l hs
    rw [show (NewLetterGenFreqs freqs).cdf = buildCdf freqs 0 (sortStrings (freqs.map Prod.fst))
      from rfl, buildCdf_letters] at this
    exact (perm_sortStrings _).subset this

/-- The sampler of the game is built by `NewLetterGenFreqs` from a mapping that is not empty,
has no repeated key and has positive weights only. -/
theorem init_letterGen (U : CaseMap) (dev : Bool) (lines : List Str) (G : lex.Globals)
    (hG : lex.init U dev lines = some G) :
    ∃ f : List (Str × Int), G.letterGen = NewLetterGenFreqs f ∧ f ≠ [] ∧
      (f.map Prod.fst).Nodup ∧ ∀ p ∈ f, 0 < p.2 := by
  have h : ∃ f, lex.invertPoints (lex.initFreqs asciiCase) = some f ∧ f ≠ [] ∧
      (f.map Prod.fst).Nodup ∧ ∀ p ∈ f, 0 < p.2 := by
    cases hi : lex.invertPoints (lex.initFreqs asciiCase) with
    | none =>
      have : (lex.invertPoints (lex.initFreqs asciiCase)).isSome = true := by decide
      simp [hi] at this
    | some f =>
      have hd : (lex.invertPoints (lex.initFreqs asciiCase)).all
          (fun f => decide (f ≠ []) && decide ((f.map Prod.fst).Nodup) &&
            f.all (fun p => decide (0 < p.2))) = true := by decide
      rw [hi] at hd
      simp only [Option.all_some, Bool.and_eq_true, decide_eq_true_eq, List.all_eq_true] at hd
      exact ⟨f, rfl, hd.1.1, hd.1.2, hd.2⟩
  obtain ⟨f, hf, h1, h2, h3⟩ := h
  unfold lex.init at hG
  rw [lex.initFreqs_ascii, hf] at hG
  simp only [Option.map_some', Option.some.injEq] at hG
  exact ⟨f, by rw [← hG], h1, h2, h3⟩

/-- C16: in a sampler that `NewLetterGenFreqs` builds from a mapping without repeated keys,
the scan of `Next` finds an entry for every draw `x` with `0 <= x < total` and `Next` returns
its letter, a letter of the mapping; so `panic("impossible")` is not reached. The sampler of
the game is such a sampler, built from a non-empty mapping with positive weights. -/
theorem C16_Next_never_panics (freqs : List (Str × Int)) (hn : (freqs.map Prod.fst).Nodup)
    (R : Rng) (s : R.State)
    (h0 : 0 ≤ (R.int63n s (NewLetterGenFreqs freqs).total).1)
    (h1 : (R.int63n s (NewLetterGenFreqs freqs).total).1 < (NewLetterGenFreqs freqs).total) :
    (∃ l, scanCdf (R.int63n s (NewLetterGenFreqs freqs).total).1 (NewLetterGenFreqs freqs).cdf
        = some l ∧
      (NewLetterGenFreqs freqs).Next R s =
        .ok (l, (R.int63n s (NewLetterGenFreqs freqs).total).2) ∧
      l ∈ freqs.map Prod.fst) ∧
    (∀ (U : CaseMap) (dev : Bool) (lines : List Str) (G : lex.Globals),
      lex.init U dev lines = some G →
      ∃ f : List (Str × Int), G.letterGen = NewLetterGenFreqs f ∧ f ≠ [] ∧
        (f.map Prod.fst).Nodup ∧ ∀ p ∈ f, 0 < p.2) := by
  refine ⟨?_, init_letterGen⟩
  obtain ⟨l, hs, hm⟩ := scanCdf_total freqs hn _ h0 h1
  refine ⟨l, hs, ?_, hm⟩
  unfold LetterGen.Next Rng.Int63n
  rw [if_neg (by omega)]
  simp only [hs]

/-- C16 at a concrete input: the sampler of the game, on the draw 12000, returns R. -/
theorem C16_Next_witness :
    ((lex.invertPoints (lex.initFreqs asciiCase)).get (by decide)).map Prod.fst =
      "ABCDEFGHIJKLMNOPQRSTUVWXYZ".toList.map (fun c => [c]) ∧
    (NewLetterGenFreqs ((lex.invertPoints (lex.initFreqs asciiCase)).get (by decide))).total
      = 18165 ∧
    ∃ l, scanCdf ((lex.scriptRng []).int63n [12000]
          (NewLetterGenFreqs ((lex.invertPoints (lex.initFreqs asciiCase)).get
            (by decide))).total).1
        (NewLetterGenFreqs ((lex.invertPoints (lex.initFreqs asciiCase)).get (by decide))).cdf
        = some l ∧ l = ['R'] :=
  ⟨by decide, by decide,
    match (C16_Next_never_panics ((lex.invertPoints (lex.initFreqs asciiCase)).get (by decide))
      (by decide) (lex.scriptRng []) [12000] (by decide) (by decide)).1 with
    | ⟨l, hs, _, _⟩ => ⟨l, hs, Option.some.inj (hs.symm.trans (by decide))⟩⟩

theorem buildCdf_cons_exact (freqs : List (Str × Int)) (m : Int) (l : Str) (rest : List Str)
    (h0 : 0 ≤ m) (hw : 0 ≤ countMap.get freqs l)
    (hs : m + countMap.get freqs l < 2 ^ 63) :
    buildCdf freqs m (l :: rest) =
      ⟨l, m + countMap.get freqs l⟩ :: buildCdf freqs (m + countMap.get freqs l) rest := by
  rw [buildCdf]
  simp only [lex.wrap64_of_range (m + countMap.get freqs l) (by omega) hs]

theorem sum_nonneg_of (freqs : List (Str × Int)) (ls : List Str)
    (hw : ∀ k ∈ ls, 0 ≤ countMap.get freqs k) : 0 ≤ (ls.map (countMap.get freqs)).sum := by
  induction ls with
  | nil => simp
  | cons l rest ih =>
    have h1 := hw l (List.mem_cons_self _ _)
    have h2 := ih (fun k hk => hw k (List.mem_cons_of_mem _ hk))
    simp only [List.map_cons, List.sum_cons]
    omega

/-- The masses of the table while the running sum stays below `2^63`: every entry adds the
weight of its letter to the mass before it. -/
theorem buildCdf_masses (freqs : List (Str × Int)) (ls : List Str) :
    ∀ m : Int, (∀ k ∈ ls, 0 ≤ countMap.get freqs k) → 0 ≤ m →
      m + (ls.map (countMap.get freqs)).sum < 2 ^ 63 →
      (∀ c ∈ buildCdf freqs m ls, m ≤ c.mass) ∧
      ((∀ k ∈ ls, 0 < countMap.get freqs k) → ∀ c ∈ buildCdf freqs m ls, m < c.mass) ∧
      (buildCdf freqs m ls).Pairwise (fun a b => a.mass ≤ b.mass) ∧
      ((∀ k ∈ ls, 0 < countMap.get freqs k) →
        (buildCdf freqs m ls).Pairwise (fun a b => a.mass < b.mass)) ∧
      (buildCdf freqs m ls).Chain' (fun a b => b.mass = a.mass + countMap.get freqs b.letter) ∧
      (∀ c, (buildCdf freqs m ls).head? = some c → c.mass = m + countMap.get freqs c.letter) := by
  induction ls with
  | nil =>
    intro m _ _ _
    simp [buildCdf]
  | cons l rest ih =>
    intro m hw h0 hs
    have hwl := hw l (List.mem_cons_self _ _)
    have hwr : ∀ k ∈ rest, 0 ≤ countMap.get freqs k :=
      fun k hk => hw k (List.mem_cons_of_mem _ hk)
    have hsr := sum_nonneg_of freqs rest hwr
    simp only [List.map_cons, List.sum_cons] at hs
    rw [buildCdf_cons_exact freqs m l rest h0 hwl (by omega)]
    obtain ⟨i1, i2, i3, i4, i5, i6⟩ := ih (m + countMap.get freqs l) hwr (by omega) (by omega)
    refine ⟨?_, ?_, ?_, ?_, ?_, ?_⟩
    · intro c hc
      rcases List.mem_cons.1 hc with e | hm
      · rw [e]; simp only; omega
      · have := i1 c hm
        omega
    · intro hp c hc
      have hpl := hp l (List.mem_cons_self _ _)
      rcases List.mem_cons.1 hc with e | hm
      · rw [e]; simp only; omega
      · have := i1 c hm
        omega
    · rw [List.pairwise_cons]
      exact ⟨fun c hc => i1 c hc, i3⟩
    · intro hp
      rw [List.pairwise_cons]
      exact ⟨fun c hc => i2 (fun k hk => hp k (List.mem_cons_of_mem _ hk)) c hc,
        i4 (fun k hk => hp k (List.mem_cons_of_mem _ hk))⟩
    · rw [List.chain'_cons']
      refine ⟨?_, i5⟩
      intro c hc
      exact i6 c hc
    · intro c hc
      simp only [List.head?_cons, Option.some.injEq] at hc
      rw [← hc]

theorem sum_keys_eq (freqs : List (Str × Int)) (hn : (freqs.map Prod.fst).Nodup) :
    ((sortStrings (freqs.map Prod.fst)).map (countMap.get freqs)).sum =
      (freqs.map Prod.snd).sum := by
  rw [← map_get_keys freqs hn]
  exact ((perm_sortStrings (freqs.map Prod.fst)).map (countMap.get freqs)).sum_eq

theorem get_nonneg_of (freqs : List (Str × Int)) (hw : ∀ p ∈ freqs, 0 ≤ p.2) (l : Str) :
    0 ≤ countMap.get freqs l := by
  induction freqs with
  | nil => simp [countMap.get]
  | cons p rest ih =>
    obtain ⟨k, v⟩ := p
    unfold countMap.get
    by_cases e : k = l
    · simp only [e, if_true]
      exact hw (k, v) (List.mem_cons_self _ _)
    · simp only [e, if_false]
      exact ih (fun q hq => hw q (List.mem_cons_of_mem _ hq))

theorem get_pos_of_key (freqs : List (Str × Int))
    (hw : ∀ p ∈ freqs, 0 < p.2) (l : Str) (hl : l ∈ freqs.map Prod.fst) :
    0 < countMap.get freqs l :=
  hw _ (mem_of_key freqs l hl)

/-- C19, as stated, fails: with the weights A 1, B 0, none negative, the table holds the mass
1 twice; and with the weights A 2^63 - 1, B 1 the second mass wraps round to -2^63. -/
theorem C19_mass_not_strictly_increasing :
    (∀ p ∈ [((['A'] : Str), (1 : Int)), (['B'], 0)], 0 ≤ p.2) ∧
    (NewLetterGenFreqs [(['A'], 1), (['B'], 0)]).cdf = [⟨['A'], 1⟩, ⟨['B'], 1⟩] ∧
    ¬ (NewLetterGenFreqs [(['A'], 1), (['B'], 0)]).cdf.Pairwise (fun a b => a.mass < b.mass) ∧
    (∀ p ∈ [((['A'] : Str), (9223372036854775807 : Int)), (['B'], 1)], 0 ≤ p.2) ∧
    (NewLetterGenFreqs [(['A'], 9223372036854775807), (['B'], 1)]).cdf =
      [⟨['A'], 9223372036854775807⟩, ⟨['B'], -9223372036854775808⟩] := by
  refine ⟨by decide, by decide, by decide, by decide, by decide⟩

/-- C19, amended: for every mapping without repeated keys, whatever its weights, the table
lists the letters of the mapping in strictly ascending order and the last mass is the total.
When the weights are not negative and sum to less than `2^63`, the first mass is the weight
of the first letter and every further mass is the mass before it plus the weight of its own
letter, so the mass never decreases, and it increases strictly when every weight is
positive. -/
theorem C19_cumulative_table (freqs : List (Str × Int)) (hn : (freqs.map Prod.fst).Nodup) :
    ((NewLetterGenFreqs freqs).cdf.map cdfPoint.letter).Perm (freqs.map Prod.fst) ∧
    ((NewLetterGenFreqs freqs).cdf.map cdfPoint.letter).Pairwise
      (fun a b => strLess a b = true) ∧
    (∀ c, (NewLetterGenFreqs freqs).cdf.getLast? = some c →
      c.mass = (NewLetterGenFreqs freqs).total) ∧
    ((∀ p ∈ freqs, 0 ≤ p.2) → (freqs.map Prod.snd).sum < 2 ^ 63 →
      (∀ c, (NewLetterGenFreqs freqs).cdf.head? = some c →
        c.mass = countMap.get freqs c.letter) ∧
      (NewLetterGenFreqs freqs).cdf.Chain'
        (fun a b => b.mass = a.mass + countMap.get freqs b.letter) ∧
      (NewLetterGenFreqs freqs).cdf.Pairwise (fun a b => a.mass ≤ b.mass) ∧
      ((∀ p ∈ freqs, 0 < p.2) →
        (NewLetterGenFreqs freqs).cdf.Pairwise (fun a b => a.mass < b.mass))) := by
  have hcdf : (NewLetterGenFreqs freqs).cdf =
      buildCdf freqs 0 (sortStrings (freqs.map Prod.fst)) := rfl
  have hlet := buildCdf_letters freqs (sortStrings (freqs.map Prod.fst)) 0
  refine ⟨?_, ?_, ?_, ?_⟩
  · rw [hcdf, hlet]
    exact perm_sortStrings _
  · rw [hcdf, hlet]
    exact strict_sortStrings _ hn
  · intro c hc
    exact cdf_last_total freqs hn c hc
  · intro hw hs
    obtain ⟨_, _, m3, m4, m5, m6⟩ := buildCdf_masses freqs (sortStrings (freqs.map Prod.fst)) 0
      (fun k _ => get_nonneg_of freqs hw k) (le_refl 0)
      (by rw [sum_keys_eq freqs hn]; omega)
    refine ⟨?_, ?_, ?_, ?_⟩
    · intro c hc
      rw [hcdf] at hc
      have := m6 c hc
      omega
    · rw [hcdf]
      exact m5
    · rw [hcdf]
      exact m3
    · intro hp
      rw [hcdf]
      apply m4
      intro k hk
      exact get_pos_of_key freqs hp k ((perm_sortStrings _).subset hk)

/-- C19 at concrete inputs: the weights A 2, B 0, C 5 give the masses 2, 2, 7, which do not
decrease; and with the weights A 2^63 - 1, B 1, whose sum is 2^63, the letters are still in
ascending order and the last mass, -2^63, is still the total. -/
theorem C19_cumulative_table_witness :
    ([((['A'] : Str), (2 : Int)), (['C'], 5), (['B'], 0)].map Prod.fst).Nodup ∧
    (NewLetterGenFreqs [(['A'], 2), (['C'], 5), (['B'], 0)]).cdf =
      [⟨['A'], 2⟩, ⟨['B'], 2⟩, ⟨['C'], 7⟩] ∧
    (NewLetterGenFreqs [(['A'], 2), (['C'], 5), (['B'], 0)]).cdf.Pairwise
      (fun a b => a.mass ≤ b.mass) ∧
    ((NewLetterGenFreqs [(['B'], 1), (['A'], 9223372036854775807)]).cdf.map
      cdfPoint.letter).Pairwise (fun a b => strLess a b = true) ∧
    (∀ c, (NewLetterGenFreqs [(['B'], 1), (['A'], 9223372036854775807)]).cdf.getLast? = some c →
      c.mass = (NewLetterGenFreqs [(['B'], 1), (['A'], 9223372036854775807)]).total) ∧
    (NewLetterGenFreqs [(['B'], 1), (['A'], 9223372036854775807)]).total
      = -9223372036854775808 :=
  ⟨by decide, by decide,
    ((C19_cumulative_table [(['A'], 2), (['C'], 5), (['B'], 0)] (by decide)).2.2.2
      (by decide) (by decide)).2.2.1,
    (C19_cumulative_table [(['B'], 1), (['A'], 9223372036854775807)] (by decide)).2.1,
    (C19_cumulative_table [(['B'], 1), (['A'], 9223372036854775807)] (by decide)).2.2.1,
    by decide⟩

theorem weightBefore_nonneg (freqs : List (Str × Int)) (ls : List Str) (l : Str)
    (hw : ∀ k ∈ ls, 0 ≤ countMap.get freqs k) : 0 ≤ weightBefore freqs ls l := by
  induction ls with
  | nil => simp [weightBefore]
  | cons k rest ih =>
    have h1 := hw k (List.mem_cons_self _ _)
    have h2 := ih (fun j hj => hw j (List.mem_cons_of_mem _ hj))
    unfold weightBefore
    split
    · omega
    · omega

/-- The draws for which the scan of a table without wrap-around returns a given letter: from
the weights before the letter up to, and not including, these plus its own weight. -/
theorem scanCdf_interval (freqs : List (Str × Int)) (ls : List Str) :
    ∀ (m x : Int) (l : Str), ls.Nodup → (∀ k ∈ ls, 0 ≤ countMap.get freqs k) → 0 ≤ m →
      m + (ls.map (countMap.get freqs)).sum < 2 ^ 63 → m ≤ x →
      (scanCdf x (buildCdf freqs m ls) = some l ↔
        l ∈ ls ∧ m + weightBefore freqs ls l ≤ x ∧
        x < m + weightBefore freqs ls l + countMap.get freqs l) := by
  induction ls with
  | nil =>
    intro m x l _ _ _ _ _
    simp [buildCdf, scanCdf]
  | cons k rest ih =>
    intro m x l hnd hw h0 hs hx
    have hwk := hw k (List.mem_cons_self _ _)
    have hwr : ∀ j ∈ rest, 0 ≤ countMap.get freqs j :=
      fun j hj => hw j (List.mem_cons_of_mem _ hj)
    have hsr := sum_nonneg_of freqs rest hwr
    have hb := weightBefore_nonneg freqs rest l hwr
    rw [List.nodup_cons] at hnd
    simp only [List.map_cons, List.sum_cons] at hs
    rw [buildCdf_cons_exact freqs m k rest h0 hwk (by omega), scanCdf]
    simp only []
    by_cases hlt : x < m + countMap.get freqs k
    · simp only [hlt, if_true, Option.some.injEq]
      by_cases e : k = l
      · subst e
        simp [weightBefore, hx, hlt]
      · simp only [e, false_iff, weightBefore, if_false, not_and, not_lt]
        intro _ hle
        omega
    · simp only [hlt, if_false]
      rw [ih (m + countMap.get freqs k) x l hnd.2 hwr (by omega) (by omega) (by omega)]
      by_cases e : k = l
      · subst e
        simp only [List.mem_cons, true_or, weightBefore, if_true, add_zero, true_and]
        constructor
        · rintro ⟨hm, _⟩
          exact absurd hm hnd.1
        · rintro ⟨_, h2⟩
          exact absurd h2 hlt
      · have e2 : ¬ l = k := fun h => e h.symm
        simp only [List.mem_cons, e2, false_or, weightBefore, e, if_false, add_assoc]

/-- In a strictly ascending list the weights of the strings not greater than a member are the
weights before the member, and its own. -/
theorem sum_filter_le_sorted (freqs : List (Str × Int)) (ls : List Str) (l : Str)
    (hs : ls.Pairwise fun a b => strLess a b = true) (hl : l ∈ ls) :
    ((ls.filter fun k => !strLess l k).map (countMap.get freqs)).sum =
      weightBefore freqs ls l + countMap.get freqs l := by
  induction ls with
  | nil => cases hl
  | cons k rest ih =>
    rw [List.pairwise_cons] at hs
    by_cases e : k = l
    · subst e
      have hr : rest.filter (fun j => !strLess k j) = [] := by
        rw [List.filter_eq_nil_iff]
        intro j hj
        simp [hs.1 j hj]
      simp [List.filter, strLess_irrefl, hr, weightBefore]
    · have hlr : l ∈ rest := by
        rcases List.mem_cons.1 hl with h | h
        · exact absurd h.symm e
        · exact h
      have hkl : strLess l k = false := strLess_asymm k l (hs.1 l hlr)
      simp only [List.filter, hkl, Bool.not_false, List.map_cons, List.sum_cons, ih hs.2 hlr,
        weightBefore, e, if_false]
      omega

theorem sum_filter_keys (freqs : List (Str × Int)) (hn : (freqs.map Prod.fst).Nodup)
    (P : Str → Bool) :
    ((freqs.filter fun p => P p.1).map Prod.snd).sum =
      (((freqs.map Prod.fst).filter P).map (countMap.get freqs)).sum := by
  have h1 : (freqs.map Prod.fst).filter P = (freqs.filter (P ∘ Prod.fst)).map Prod.fst :=
    List.filter_map _ _
  rw [h1, List.map_map]
  congr 1
  apply List.map_congr_left
  rintro ⟨k, v⟩ hm
  exact (get_of_mem freqs hn k v (List.mem_of_mem_filter hm)).symm

/-- The cumulative weight of a letter of the mapping, read off the sorted letters. -/
theorem cumWeight_eq (freqs : List (Str × Int)) (hn : (freqs.map Prod.fst).Nodup) (l : Str)
    (hl : l ∈ freqs.map Prod.fst) :
    cumWeight freqs l =
      weightBefore freqs (sortStrings (freqs.map Prod.fst)) l + countMap.get freqs l := by
  unfold cumWeight
  rw [sum_filter_keys freqs hn (fun k => !strLess l k)]
  have hp : ((freqs.map Prod.fst).filter fun k => !strLess l k).Perm
      ((sortStrings (freqs.map Prod.fst)).filter fun k => !strLess l k) :=
    ((perm_sortStrings _).filter _).symm
  rw [(hp.map (countMap.get freqs)).sum_eq,
    sum_filter_le_sorted freqs _ l (strict_sortStrings _ hn)
      ((perm_sortStrings _).symm.subset hl)]

theorem prefix_le_sum (freqs : List (Str × Int)) (ls : List Str) (l : Str)
    (hw : ∀ k ∈ ls, 0 ≤ countMap.get freqs k) (hl : l ∈ ls) :
    weightBefore freqs ls l + countMap.get freqs l ≤ (ls.map (countMap.get freqs)).sum := by
  induction ls with
  | nil => cases hl
  | cons k rest ih =>
    have hwr : ∀ j ∈ rest, 0 ≤ countMap.get freqs j :=
      fun j hj => hw j (List.mem_cons_of_mem _ hj)
    have hsr := sum_nonneg_of freqs rest hwr
    by_cases e : k = l
    · subst e
      simp only [weightBefore, if_true, zero_add, List.map_cons, List.sum_cons]
      omega
    · have hlr : l ∈ rest := by
        rcases List.mem_cons.1 hl with h | h
        · exact absurd h.symm e
        · exact h
      have := ih hwr hlr
      simp only [weightBefore, e, if_false, List.map_cons, List.sum_cons]
      omega

theorem prefix_mono (freqs : List (Str × Int)) (ls : List Str) (k l : Str)
    (hw : ∀ j ∈ ls, 0 ≤ countMap.get freqs j)
    (hs : ls.Pairwise fun a b => strLess a b = true) (hk : k ∈ ls) (hl : l ∈ ls)
    (hkl : strLess k l = true) :
    weightBefore freqs ls k + countMap.get freqs k ≤ weightBefore freqs ls l := by
  induction ls with
  | nil => cases hl
  | cons h rest ih =>
    rw [List.pairwise_cons] at hs
    have hwr : ∀ j ∈ rest, 0 ≤ countMap.get freqs j :=
      fun j hj => hw j (List.mem_cons_of_mem _ hj)
    have hne : k ≠ l := by
      intro e
      subst e
      rw [strLess_irrefl] at hkl
      cases hkl
    by_cases e1 : h = k
    · subst e1
      have e2 : ¬ h = l := hne
      have hb := weightBefore_nonneg freqs rest l hwr
      simp only [weightBefore, if_true, zero_add, e2, if_false]
      omega
    · have hkr : k ∈ rest := by
        rcases List.mem_cons.1 hk with h1 | h1
        · exact absurd h1.symm e1
        · exact h1
      by_cases e2 : h = l
      · subst e2
        have := strLess_asymm h k (hs.1 k hkr)
        rw [hkl] at this
        cases this
      · have hlr : l ∈ rest := by
          rcases List.mem_cons.1 hl with h1 | h1
          · exact absurd h1.symm e2
          · exact h1
        have := ih hwr hs.2 hkr hlr
        simp only [weightBefore, e1, e2, if_false]
        omega

/-- The scan of the table of `NewLetterGenFreqs`, for weights that are not negative and sum
to less than `2^63`: the draws that give a letter are the ones from its cumulative weight
less its own weight up to, and not including, its cumulative weight. -/
theorem scanCdf_iff_cumWeight (freqs : List (Str × Int)) (hn : (freqs.map Prod.fst).Nodup)
    (hw : ∀ p ∈ freqs, 0 ≤ p.2) (hs : (freqs.map Prod.snd).sum < 2 ^ 63) (x : Int)
    (hx : 0 ≤ x) (l : Str) :
    scanCdf x (NewLetterGenFreqs freqs).cdf = some l ↔
      l ∈ freqs.map Prod.fst ∧ cumWeight freqs l - countMap.get freqs l ≤ x ∧
        x < cumWeight freqs l := by
  have hcdf : (NewLetterGenFreqs freqs).cdf =
      buildCdf freqs 0 (sortStrings (freqs.map Prod.fst)) := rfl
  rw [hcdf, scanCdf_interval freqs _ 0 x l ((perm_sortStrings _).nodup_iff.2 hn)
    (fun k _ => get_nonneg_of freqs hw k) (le_refl 0)
    (by rw [sum_keys_eq freqs hn]; omega) hx]
  constructor
  · rintro ⟨hm, h1, h2⟩
    have hk := (perm_sortStrings _).subset hm
    rw [cumWeight_eq freqs hn l hk]
    exact ⟨hk, by omega, by omega⟩
  · rintro ⟨hk, h1, h2⟩
    rw [cumWeight_eq freqs hn l hk] at h1 h2
    exact ⟨(perm_sortStrings _).symm.subset hk, by omega, by omega⟩

/-- C15, as stated, fails: the weights A 2^63 - 1, B 2^63 - 1, C 3 are not negative and their
`int64` total is 1, which is positive; the only draw, 0, gives A, so the number of draws that give C is 0,
and the weight of C is 3. -/
theorem C15_overflow_breaks_proportion :
    (∀ p ∈ [((['A'] : Str), (9223372036854775807 : Int)), (['B'], 9223372036854775807),
      (['C'], 3)], 0 ≤ p.2) ∧
    (NewLetterGenFreqs [(['A'], 9223372036854775807), (['B'], 9223372036854775807),
      (['C'], 3)]).total = 1 ∧
    scanCdf 0 (NewLetterGenFreqs [(['A'], 9223372036854775807), (['B'], 9223372036854775807),
      (['C'], 3)]).cdf = some ['A'] ∧
    countMap.get [(['A'], 9223372036854775807), (['B'], 9223372036854775807), (['C'], 3)]
      ['C'] = 3 ∧
    ((Finset.Ico 0 (NewLetterGenFreqs [(['A'], 9223372036854775807),
        (['B'], 9223372036854775807), (['C'], 3)]).total).filter
      (fun x => scanCdf x (NewLetterGenFreqs [(['A'], 9223372036854775807),
        (['B'], 9223372036854775807), (['C'], 3)]).cdf = some ['C'])).card = 0 := by
  have ht : (NewLetterGenFreqs [(['A'], 9223372036854775807), (['B'], 9223372036854775807),
      (['C'], 3)]).total = 1 := by decide
  refine ⟨by decide, ht, by decide, by decide, ?_⟩
  rw [ht, Finset.card_eq_zero, Finset.filter_eq_empty_iff]
  intro x hx
  have hx0 : x = 0 := by
    simp only [Finset.mem_Ico] at hx
    omega
  subst hx0
  decide

/-- C15, amended: for a mapping without repeated keys whose weights are not negative and sum
to less than `2^63`, the total is the sum of the weights; for a draw `x` in `[0, total)`,
`Next` returns the lexicographically first letter of the mapping whose cumulative weight
exceeds `x`; and the number of draws in `[0, total)` that give a letter `l` of the mapping is
`freqs[l]`. -/
theorem C15_Next_draws_by_weight (freqs : List (Str × Int))
    (hn : (freqs.map Prod.fst).Nodup) (hw : ∀ p ∈ freqs, 0 ≤ p.2)
    (hs : (freqs.map Prod.snd).sum < 2 ^ 63) :
    (NewLetterGenFreqs freqs).total = (freqs.map Prod.snd).sum ∧
    (∀ x : Int, 0 ≤ x → x < (NewLetterGenFreqs freqs).total →
      ∃ l, l ∈ freqs.map Prod.fst ∧ x < cumWeight freqs l ∧
        (∀ k ∈ freqs.map Prod.fst, strLess k l = true → cumWeight freqs k ≤ x) ∧
        scanCdf x (NewLetterGenFreqs freqs).cdf = some l ∧
        ∀ (R : Rng) (s : R.State), (R.int63n s (NewLetterGenFreqs freqs).total).1 = x →
          (NewLetterGenFreqs freqs).Next R s =
            .ok (l, (R.int63n s (NewLetterGenFreqs freqs).total).2)) ∧
    (∀ l ∈ freqs.map Prod.fst,
      ((Finset.Ico 0 (NewLetterGenFreqs freqs).total).filter
        (fun x => scanCdf x (NewLetterGenFreqs freqs).cdf = some l)).card =
        (countMap.get freqs l).toNat) := by
  have hsum0 : 0 ≤ (freqs.map Prod.snd).sum := by
    rw [← sum_keys_eq freqs hn]
    exact sum_nonneg_of freqs _ (fun k _ => get_nonneg_of freqs hw k)
  have htot : (NewLetterGenFreqs freqs).total = (freqs.map Prod.snd).sum := by
    rw [total_eq, lex.wrap64_of_range _ (by omega) hs]
  have hsorted := strict_sortStrings _ hn
  have hwk : ∀ k ∈ sortStrings (freqs.map Prod.fst), 0 ≤ countMap.get freqs k :=
    fun k _ => get_nonneg_of freqs hw k
  refine ⟨htot, ?_, ?_⟩
  · intro x h0 h1
    obtain ⟨l, hsc, hl⟩ := scanCdf_total freqs hn x h0 h1
    have hi := (scanCdf_iff_cumWeight freqs hn hw hs x h0 l).1 hsc
    refine ⟨l, hl, hi.2.2, ?_, hsc, ?_⟩
    · intro k hk hkl
      rw [cumWeight_eq freqs hn k hk]
      have h2 := hi.2.1
      rw [cumWeight_eq freqs hn l hl] at h2
      have := prefix_mono freqs _ k l hwk hsorted ((perm_sortStrings _).symm.subset hk)
        ((perm_sortStrings _).symm.subset hl) hkl
      omega
    · intro R s hx
      unfold LetterGen.Next Rng.Int63n
      rw [if_neg (by omega)]
      simp only [hx, hsc]
  · intro l hl
    have hwl := get_nonneg_of freqs hw l
    have hb := weightBefore_nonneg freqs (sortStrings (freqs.map Prod.fst)) l hwk
    have hle := prefix_le_sum freqs _ l hwk ((perm_sortStrings _).symm.subset hl)
    rw [sum_keys_eq freqs hn] at hle
    have hcw := cumWeight_eq freqs hn l hl
    have hset : (Finset.Ico 0 (NewLetterGenFreqs freqs).total).filter
        (fun x => scanCdf x (NewLetterGenFreqs freqs).cdf = some l) =
        Finset.Ico (cumWeight freqs l - countMap.get freqs l) (cumWeight freqs l) := by
      ext x
      simp only [Finset.mem_filter, Finset.mem_Ico]
      constructor
      · rintro ⟨⟨h0, _⟩, hsc⟩
        have := (scanCdf_iff_cumWeight freqs hn hw hs x h0 l).1 hsc
        exact ⟨this.2.1, this.2.2⟩
      · rintro ⟨h1, h2⟩
        have h0 : 0 ≤ x := by omega
        exact ⟨⟨h0, by omega⟩, (scanCdf_iff_cumWeight freqs hn hw hs x h0 l).2 ⟨hl, h1, h2⟩⟩
    rw [hset, Int.card_Ico]
    congr 1
    omega

/-- C15 at a concrete input: with the weights A 2, B 0, C 5 the total is 7 and the draw 2
gives C, whose cumulative weight is the first to exceed 2. -/
theorem C15_Next_witness :
    ([((['A'] : Str), (2 : Int)), (['C'], 5), (['B'], 0)].map Prod.fst).Nodup ∧
    (NewLetterGenFreqs [(['A'], 2), (['C'], 5), (['B'], 0)]).total = 7 ∧
    scanCdf 2 (NewLetterGenFreqs [(['A'], 2), (['C'], 5), (['B'], 0)]).cdf = some ['C'] ∧
    ((Finset.Ico 0 (NewLetterGenFreqs [(['A'], 2), (['C'], 5), (['B'], 0)]).total).filter
      (fun x => scanCdf x (NewLetterGenFreqs [(['A'], 2), (['C'], 5), (['B'], 0)]).cdf
        = some ['C'])).card = 5 :=
  ⟨by decide, by decide, by decide,
    ((C15_Next_draws_by_weight [(['A'], 2), (['C'], 5), (['B'], 0)] (by decide) (by decide)
      (by decide)).2.2 ['C'] (by decide)).trans (by decide)⟩

end words

namespace lex
open words
/-- The table and the total of `NewLetterGenFreqs` do not depend on the order in which the
mapping is enumerated. -/
theorem NewLetterGenFreqs_perm (f1 f2 : List (Str × Int)) (hp : f1.Perm f2)
    (hn : (f1.map Prod.fst).Nodup) :
    (NewLetterGenFreqs f1).cdf = (NewLetterGenFreqs f2).cdf ∧
    (NewLetterGenFreqs f1).total = (NewLetterGenFreqs f2).total := by
  constructor
  · show buildCdf f1 0 (sortStrings (f1.map Prod.fst)) =
      buildCdf f2 0 (sortStrings (f2.map Prod.fst))
    rw [sortStrings_perm _ _ (hp.map Prod.fst)]
    exact buildCdf_congr f1 f2 (get_perm f1 f2 hp hn) _ 0
  · rw [total_eq, total_eq, (hp.map Prod.snd).sum_eq]

theorem dictHas_iff (d : List (Str × Str)) (norm : Str) :
    dictHas d norm = true ↔ norm ∈ d.map Prod.fst := by
  induction d with
  | nil => simp [dictHas]
  | cons p rest ih =>
    obtain ⟨k, v⟩ := p
    unfold dictHas
    by_cases e : k = norm
    · simp [e]
    · have e2 : ¬ norm = k := fun h => e h.symm
      simp [e, e2, ih]

theorem dictHas_perm (d1 d2 : List (Str × Str)) (hp : d1.Perm d2) (norm : Str) :
    dictHas d1 norm = dictHas d2 norm := by
  have h : dictHas d1 norm = true ↔ dictHas d2 norm = true := by
    rw [dictHas_iff, dictHas_iff]
    exact (hp.map Prod.fst).mem_iff
  cases h1 : dictHas d1 norm <;> cases h2 : dictHas d2 norm <;> simp_all

theorem Next_congr (lg1 lg2 : LetterGen) (hc : lg1.cdf = lg2.cdf)
    (ht : lg1.total = lg2.total) (R : Rng) (s : R.State) : lg1.Next R s = lg2.Next R s := by
  unfold LetterGen.Next
  rw [hc, ht]

theorem redraw_congr (R : Rng) (G G2 : Globals) (h : SameGlobals G G2) (cm : countMap)
    (fuel : Nat) : ∀ (l : Str) (s : R.State), redraw R G cm fuel l s = redraw R G2 cm fuel l s := by
  induction fuel with
  | zero => intro l s; rfl
  | succ n ih =>
    intro l s
    unfold redraw
    rw [h.2.2.1 l]
    cases R.Int63n s (1 + countMap.get G2.pointVals l * countMap.get cm l) with
    | error e => rfl
    | ok p =>
      obtain ⟨x, s2⟩ := p
      simp only []
      rw [Next_congr G.letterGen G2.letterGen h.2.2.2.1 h.2.2.2.2 R s2]
      by_cases hx : x > 0
      · simp only [hx, if_true]
        cases G2.letterGen.Next R s2 with
        | error e => rfl
        | ok q => exact ih q.1 q.2
      · simp only [hx, if_false]

theorem RandLetter_congr (R : Rng) (G G2 : Globals) (h : SameGlobals G G2) (fuel : Nat)
    (letters : List Str) (s : R.State) :
    RandLetter R G fuel letters s = RandLetter R G2 fuel letters s := by
  unfold RandLetter
  rw [Next_congr G.letterGen G2.letterGen h.2.2.2.1 h.2.2.2.2 R s]
  cases G2.letterGen.Next R s with
  | error e => rfl
  | ok q => exact redraw_congr R G G2 h _ fuel q.1 q.2

theorem drawN_congr (R : Rng) (G G2 : Globals) (h : SameGlobals G G2) (fuel : Nat) (n : Nat) :
    ∀ (letters : List Str) (s : R.State),
      drawN R G fuel n letters s = drawN R G2 fuel n letters s := by
  induction n with
  | zero => intro letters s; rfl
  | succ n ih =>
    intro letters s
    unfold drawN
    rw [RandLetter_congr R G G2 h fuel letters s]
    cases RandLetter R G2 fuel letters s with
    | error e => rfl
    | ok q => exact ih _ _

theorem replaceTiles_congr (R : Rng) (G G2 : Globals) (h : SameGlobals G G2) (fuel : Nat)
    (rest : List Str) :
    ∀ (done : List Str) (cm : countMap) (s : R.State),
      replaceTiles R G fuel done rest cm s = replaceTiles R G2 fuel done rest cm s := by
  induction rest with
  | nil => intro done cm s; rfl
  | cons l rest ih =>
    intro done cm s
    unfold replaceTiles
    by_cases hc : countMap.get cm l > 0
    · simp only [hc, if_true]
      rw [RandLetter_congr R G G2 h fuel _ s]
      cases RandLetter R G2 fuel (done ++ l :: rest) s with
      | error e => rfl
      | ok q => exact ih _ _ _
    · simp only [hc, if_false]
      exact ih _ _ _

theorem commitMove_congr (R : Rng) (G G2 : Globals) (h : SameGlobals G G2) (fuel : Nat)
    (g : Game R) (norm : Str) (cm : countMap) :
    commitMove R G fuel g norm cm = commitMove R G2 fuel g norm cm := by
  unfold commitMove
  rw [replaceTiles_congr R G G2 h fuel g.Letters [] cm g.rng, h.1]

theorem DoMove_congr (U : CaseMap) (R : Rng) (G G2 : Globals) (h : SameGlobals G G2)
    (fuel : Nat) (g : Game R) (m : Str) :
    DoMove U R G fuel g m = DoMove U R G2 fuel g m := by
  unfold DoMove Draw
  simp only [drawN_congr R G G2 h fuel, h.2.1, commitMove_congr R G G2 h fuel]

theorem unwindFrom_congr (U : CaseMap) (R : Rng) (G G2 : Globals) (h : SameGlobals G G2)
    (fuel : Nat) (moves : List Str) :
    ∀ (i : Nat) (g : Game R),
      unwindFrom U R G fuel i g moves = unwindFrom U R G2 fuel i g moves := by
  induction moves with
  | nil => intro i g; rfl
  | cons m rest ih =>
    intro i g
    unfold unwindFrom
    rw [DoMove_congr U R G G2 h fuel g m]
    cases DoMove U R G2 fuel g m with
    | error e => rfl
    | ok q =>
      obtain ⟨r, g1⟩ := q
      cases r with
      | some err => rfl
      | none => exact ih _ _

/-- The replay is the same under package variables that the game cannot tell apart. -/
theorem Unwind_congr (U : CaseMap) (R : Rng) (G G2 : Globals) (h : SameGlobals G G2)
    (fuel : Nat) (g : Game R) (moves : List Str) :
    Unwind U R G fuel g moves = Unwind U R G2 fuel g moves := by
  unfold Unwind Draw
  simp only [drawN_congr R G G2 h fuel]
  cases drawN R G2 fuel (kSize - g.Letters.length) g.Letters
      (R.newSource (Int.xor g.Seed g.Started)) with
  | error e => rfl
  | ok q => exact unwindFrom_congr U R G G2 h fuel moves 0 _

theorem Score_congr (U : CaseMap) (pv1 pv2 : List (Str × Int))
    (h : ∀ l, countMap.get pv1 l = countMap.get pv2 l) (moves : List Str) :
    Score U pv1 moves = Score U pv2 moves := by
  have hw : ∀ w, ScoreWord U pv1 w = ScoreWord U pv2 w := by
    intro w
    unfold ScoreWord
    simp only [h]
  unfold Score
  simp only [hw]

/-- C17: the table and the total that `NewLetterGenFreqs` builds are the same for every order
in which the weight mapping is enumerated; and package variables whose maps hold the same
entries in another order give, for the same game, moves and random source, the same result of
`Unwind`, with the same `Letters`, `Moves` and `Over`, and the same score. -/
theorem C17_replay_independent_of_map_order (f1 f2 : List (Str × Int)) (hp : f1.Perm f2)
    (hn : (f1.map Prod.fst).Nodup) :
    (NewLetterGenFreqs f1).cdf = (NewLetterGenFreqs f2).cdf ∧
    (NewLetterGenFreqs f1).total = (NewLetterGenFreqs f2).total ∧
    ∀ (k : Int) (d1 d2 : List (Str × Str)) (pv1 pv2 : List (Str × Int)),
      d1.Perm d2 → pv1.Perm pv2 → (pv1.map Prod.fst).Nodup →
      ∀ (U : CaseMap) (R : Rng) (fuel : Nat) (g : Game R) (moves : List Str),
        Unwind U R ⟨k, d1, pv1, NewLetterGenFreqs f1⟩ fuel g moves =
          Unwind U R ⟨k, d2, pv2, NewLetterGenFreqs f2⟩ fuel g moves ∧
        ∀ ms : List Str, Score U pv1 ms = Score U pv2 ms := by
  obtain ⟨hc, ht⟩ := NewLetterGenFreqs_perm f1 f2 hp hn
  refine ⟨hc, ht, ?_⟩
  intro k d1 d2 pv1 pv2 hd hpv hpn U R fuel g moves
  have hsame : SameGlobals ⟨k, d1, pv1, NewLetterGenFreqs f1⟩ ⟨k, d2, pv2, NewLetterGenFreqs f2⟩ :=
    ⟨rfl, dictHas_perm d1 d2 hd, get_perm pv1 pv2 hpv hpn, hc, ht⟩
  exact ⟨Unwind_congr U R _ _ hsame fuel g moves,
    fun ms => Score_congr U pv1 pv2 (get_perm pv1 pv2 hpv hpn) ms⟩

/-- C17 at a concrete input: the weights A 2, C 5, B 0 enumerated in two orders give one
table. -/
theorem C17_map_order_witness :
    [((['A'] : Str), (2 : Int)), (['C'], 5), (['B'], 0)].Perm
      [(['B'], 0), (['A'], 2), (['C'], 5)] ∧
    (NewLetterGenFreqs [(['A'], 2), (['C'], 5), (['B'], 0)]).cdf =
      (NewLetterGenFreqs [(['B'], 0), (['A'], 2), (['C'], 5)]).cdf ∧
    (NewLetterGenFreqs [(['B'], 0), (['A'], 2), (['C'], 5)]).cdf =
      [⟨['A'], 2⟩, ⟨['B'], 2⟩, ⟨['C'], 7⟩] :=
  have hp : [((['A'] : Str), (2 : Int)), (['C'], 5), (['B'], 0)].Perm
      [(['B'], 0), (['A'], 2), (['C'], 5)] := by decide
  ⟨hp, (C17_replay_independent_of_map_order _ _ hp (by decide)).1, by decide⟩

end lex

namespace words
theorem wordUnits_qu (c d : Char) (rest : Str) (hc : c = 'q' ∨ c = 'Q')
    (hd : d = 'u' ∨ d = 'U') :
    wordUnits (c :: d :: rest) = (wordUnits rest).map (· + 1) := by
  rw [wordUnits.eq_def]
  simp [hc, hd]

theorem wordUnits_rune (c : Char) (rest : Str) (hc : isWordRune c = true) :
    wordUnits (c :: rest) = (wordUnits rest).map (· + 1) := by
  have hq : ¬ (c = 'q' ∨ c = 'Q') := by
    rintro (h | h) <;> subst h <;> revert hc <;> decide
  rw [wordUnits.eq_def]
  simp [hq, hc]

/-- The matcher finds a count of units only for a text that is made of units. -/
theorem wordUnits_sound (l : Str) :
    ∀ n, wordUnits l = some n →
      ∃ units : List Str, units.length = n ∧ (∀ u ∈ units, isUnit u = true) ∧
        units.flatten = l := by
  induction l using wordUnits.induct with
  | case1 =>
    intro n h
    simp only [wordUnits, Option.some.injEq] at h
    exact ⟨[], by simpa using h, by simp, rfl⟩
  | case2 c hc =>
    intro n h
    rw [wordUnits.eq_def] at h
    simp [hc] at h
  | case3 c hc d rest2 hd ih =>
    intro n h
    rw [wordUnits_qu c d rest2 hc hd] at h
    cases hr : wordUnits rest2 with
    | none => simp [hr] at h
    | some k =>
      simp only [hr, Option.map_some', Option.some.injEq] at h
      obtain ⟨units, h1, h2, h3⟩ := ih k hr
      refine ⟨[c, d] :: units, by simp [h1, h], ?_, by simp [h3]⟩
      intro u hu
      rcases List.mem_cons.1 hu with e | hm
      · subst e
        rcases hc with hc | hc <;> rcases hd with hd | hd <;> subst hc <;> subst hd <;> rfl
      · exact h2 u hm
  | case4 c hc d rest2 hd =>
    intro n h
    rw [wordUnits.eq_def] at h
    simp [hc, hd] at h
  | case5 c rest hq hc ih =>
    intro n h
    rw [wordUnits_rune c rest hc] at h
    cases hr : wordUnits rest with
    | none => simp [hr] at h
    | some k =>
      simp only [hr, Option.map_some', Option.some.injEq] at h
      obtain ⟨units, h1, h2, h3⟩ := ih k hr
      refine ⟨[c] :: units, by simp [h1, h], ?_, by simp [h3]⟩
      intro u hu
      rcases List.mem_cons.1 hu with e | hm
      · subst e
        exact hc
      · exact h2 u hm
  | case6 c rest hq hc =>
    intro n h
    rw [wordUnits.eq_def] at h
    simp [hq, hc] at h

/-- The matcher counts the units of every text that is made of units. -/
theorem wordUnits_complete (units : List Str) (h : ∀ u ∈ units, isUnit u = true) :
    wordUnits units.flatten = some units.length := by
  induction units with
  | nil => rfl
  | cons u rest ih =>
    have hu := h u (List.mem_cons_self _ _)
    have ih2 := ih (fun v hv => h v (List.mem_cons_of_mem _ hv))
    match u, hu with
    | [c], hu =>
      simp only [List.flatten_cons, List.singleton_append, List.length_cons]
      rw [wordUnits_rune c _ hu, ih2]
      rfl
    | [c, d], hu =>
      simp only [isUnit, Bool.and_eq_true, Bool.or_eq_true, decide_eq_true_eq] at hu
      simp only [List.flatten_cons, List.cons_append, List.nil_append, List.length_cons]
      rw [wordUnits_qu c d _ hu.1 hu.2, ih2]
      rfl

/-- The pattern `wordRE` matches exactly the texts made of three or more units. -/
theorem wordRE_iff_units (l : Str) :
    wordRE l = true ↔
      ∃ units : List Str, 3 ≤ units.length ∧ (∀ u ∈ units, isUnit u = true) ∧
        units.flatten = l := by
  unfold wordRE
  constructor
  · intro h
    cases hw : wordUnits l with
    | none => simp [hw] at h
    | some n =>
      simp only [hw, decide_eq_true_eq] at h
      obtain ⟨units, h1, h2, h3⟩ := wordUnits_sound l n hw
      exact ⟨units, by omega, h2, h3⟩
  · rintro ⟨units, h1, h2, h3⟩
    rw [← h3, wordUnits_complete units h2]
    simpa using h1

/-- An ASCII code point is in the class of `wordRE` exactly if it is a letter other than `q`
and `Q`. -/
theorem isWordRune_ascii (c : Char) (h : c.toNat < 128) :
    isWordRune c = true ↔
      ((97 ≤ c.toNat ∧ c.toNat ≤ 122) ∨ (65 ≤ c.toNat ∧ c.toNat ≤ 90)) ∧ c ≠ 'q' ∧ c ≠ 'Q' := by
  have hq : c = 'q' ↔ c.toNat = 113 := by
    constructor
    · intro e; subst e; rfl
    · intro e
      have := Char.ofNat_toNat c
      rw [e] at this
      exact this.symm
  have hQ : c = 'Q' ↔ c.toNat = 81 := by
    constructor
    · intro e; subst e; rfl
    · intro e
      have := Char.ofNat_toNat c
      rw [e] at this
      exact this.symm
  unfold isWordRune
  simp only [Bool.or_eq_true, Bool.and_eq_true, decide_eq_true_eq, bne_iff_ne, ne_eq,
    beq_iff_eq, hq, hQ]
  omega

/-- What `LoadValid` emits: the lines of the scanner, in their order, that are made of three
or more units and whose normal form has from `kMinLen` to `maxLen` bytes. -/
theorem LoadValid_spec (U : CaseMap) (lines : List Str) (maxLen : Int) :
    (LoadValid U lines maxLen).Sublist (scanLines lines) ∧
    ∀ l, l ∈ LoadValid U lines maxLen ↔
      l ∈ scanLines lines ∧
      (∃ units : List Str, 3 ≤ units.length ∧ (∀ u ∈ units, isUnit u = true) ∧
        units.flatten = l) ∧
      kMinLen ≤ byteLen (Normalize U l) ∧ (byteLen (Normalize U l) : Int) ≤ maxLen := by
  refine ⟨List.filter_sublist _, ?_⟩
  intro l
  unfold LoadValid
  rw [List.mem_filter, ← wordRE_iff_units]
  simp only [Bool.and_eq_true, Bool.not_eq_true', Bool.or_eq_false_iff, decide_eq_false_iff_not,
    not_lt, gt_iff_lt]
  tauto

/-- The scanner hands out lines below 64 KiB that do not end in a carriage return as they
are. -/
theorem scanLines_clean (lines : List Str) (h1 : ∀ l ∈ lines, byteLen l < 65536)
    (h2 : ∀ l ∈ lines, l.getLast? ≠ some '\r') : scanLines lines = lines := by
  unfold scanLines
  have ht : lines.takeWhile (fun l => decide (byteLen l < 65536)) = lines := by
    rw [List.takeWhile_eq_self_iff]
    intro l hl
    simpa using h1 l hl
  rw [ht]
  conv_rhs => rw [← List.map_id lines]
  apply List.map_congr_left
  intro l hl
  simp [h2 l hl]

theorem byteLen_replicate_a (n : Nat) : byteLen (List.replicate n 'a') = n := by
  induction n with
  | zero => rfl
  | succ n ih =>
    have h1 : Char.utf8Size 'a' = 1 := by decide
    unfold byteLen at ih ⊢
    simp only [List.replicate_succ, List.map_cons, List.sum_cons, ih, h1]
    omega

theorem scanLines_long (l : Str) (rest : List Str) (h : ¬ byteLen l < 65536) :
    scanLines (l :: rest) = [] := by
  unfold scanLines
  rw [List.takeWhile_cons]
  simp [h]

/-- C11, at two failing inputs. A line of three Kelvin signs (U+212A, not an ASCII letter)
matches `wordRE`, whose case-insensitive class also holds the code points that fold to `k`
and `s`, and `LoadValid` emits it for the maximal length 16. And after a line of 65536 bytes
the scanner stops, so the line "moon" that follows is dropped, although `LoadValid` emits
"moon" when it stands alone. -/
theorem C11_LoadValid_kelvin_and_long_line (U : CaseMap) :
    (∀ c ∈ ['\u212A', '\u212A', '\u212A'], ¬ c.toNat < 128) ∧
    LoadValid U [['\u212A', '\u212A', '\u212A']] 16 = [['\u212A', '\u212A', '\u212A']] ∧
    LoadValid U [List.replicate 65536 'a', "moon".toList] 16 = [] ∧
    LoadValid U ["moon".toList] 16 = ["moon".toList] := by
  refine ⟨by decide, ?_, ?_, ?_⟩
  · have hs : scanLines [['\u212A', '\u212A', '\u212A']] = [['\u212A', '\u212A', '\u212A']] := by
      decide
    have hre : wordRE ['\u212A', '\u212A', '\u212A'] = true := by decide
    have hnorm : Normalize U ['\u212A', '\u212A', '\u212A'] =
        [U.toUpper '\u212A', U.toUpper '\u212A', U.toUpper '\u212A'] := by
      unfold Normalize ToUpper
      simp only [List.map_cons, List.map_nil]
      by_cases hq : U.toUpper '\u212A' = 'Q'
      · rw [hq]
        decide
      · rw [qFixer_other _ _ hq, qFixer_other _ _ hq, qFixer_other _ _ hq]
        rfl
    have h1 := Char.utf8Size_pos (U.toUpper '\u212A')
    have h4 := Char.utf8Size_le_four (U.toUpper '\u212A')
    have hlen : byteLen (Normalize U ['\u212A', '\u212A', '\u212A']) =
        3 * (U.toUpper '\u212A').utf8Size := by
      rw [hnorm]
      unfold byteLen
      simp only [List.map_cons, List.map_nil, List.sum_cons, List.sum_nil]
      omega
    unfold LoadValid
    rw [hs]
    have hgt : ¬ ((3 * (U.toUpper '\u212A').utf8Size : Nat) : Int) > 16 := by omega
    have hlt : ¬ 3 * (U.toUpper '\u212A').utf8Size < kMinLen := by
      unfold kMinLen
      omega
    simp only [List.filter, hre, hlen, hgt, hlt, decide_False, Bool.or_false, Bool.not_false,
      Bool.and_true]
  · unfold LoadValid
    rw [scanLines_long _ _ (by rw [byteLen_replicate_a]; omega)]
    rfl
  · have hs : scanLines ["moon".toList] = ["moon".toList] := by decide
    unfold LoadValid
    rw [hs]
    simp only [List.filter, Normalize_ascii U "moon".toList (by decide)]
    decide

end words

namespace lex
open words
theorem scriptRng_Int63n (script s : List Int) (n : Int) (hn : 0 < n) :
    (scriptRng script).Int63n s n =
      .ok (match s with
        | [] => (0, [])
        | x :: rest => (x % n, rest)) := by
  unfold Rng.Int63n
  rw [if_neg (by omega)]
  rfl

/-- With a scripted random source, `Next` on a sampler with a positive total returns a letter
and uses up at most one draw of the script. -/
theorem scriptRng_Next (script : List Int) (f : List (Str × Int))
    (hn : (f.map Prod.fst).Nodup) (ht : 0 < (NewLetterGenFreqs f).total) (s : List Int) :
    ∃ l, (NewLetterGenFreqs f).Next (scriptRng script) s = .ok (l, s.tail) := by
  unfold LetterGen.Next
  rw [scriptRng_Int63n script s _ ht]
  cases s with
  | nil =>
    obtain ⟨l, hl, _⟩ := scanCdf_total f hn 0 (le_refl 0) ht
    exact ⟨l, by simp only [hl]; rfl⟩
  | cons x rest =>
    obtain ⟨l, hl, _⟩ := scanCdf_total f hn (x % (NewLetterGenFreqs f).total)
      (Int.emod_nonneg _ (by omega)) (Int.emod_lt_of_pos _ ht)
    exact ⟨l, by simp only [hl]; rfl⟩

theorem scriptRng_redraw (script : List Int) (G : Globals) (f : List (Str × Int))
    (hG : G.letterGen = NewLetterGenFreqs f) (hn : (f.map Prod.fst).Nodup)
    (ht : 0 < (NewLetterGenFreqs f).total) (hpv : ∀ p ∈ G.pointVals, 0 ≤ p.2)
    (letters : List Str) :
    ∀ (n : Nat) (s : List Int), s.length ≤ n → ∀ l : Str,
      ∃ fuel v, redraw (scriptRng script) G (CountLetters letters) fuel l s = .ok v := by
  have hpos : ∀ l : Str,
      0 < 1 + countMap.get G.pointVals l * countMap.get (CountLetters letters) l := by
    intro l
    have h1 := get_nonneg_of G.pointVals hpv l
    have h2 := get_CountLetters_nonneg letters l
    have := mul_nonneg h1 h2
    omega
  intro n
  induction n with
  | zero =>
    intro s hs l
    have : s = [] := List.length_eq_zero.1 (by omega)
    subst this
    refine ⟨1, (l, []), ?_⟩
    unfold redraw
    rw [scriptRng_Int63n script [] _ (hpos l)]
    simp
  | succ n ih =>
    intro s hs l
    cases s with
    | nil =>
      refine ⟨1, (l, []), ?_⟩
      unfold redraw
      rw [scriptRng_Int63n script [] _ (hpos l)]
      simp
    | cons x rest =>
      by_cases hx : x % (1 + countMap.get G.pointVals l *
          countMap.get (CountLetters letters) l) > 0
      · obtain ⟨l2, hl2⟩ := scriptRng_Next script f hn ht rest
        obtain ⟨fuel, v, hv⟩ := ih rest.tail (by
          have := List.length_tail rest
          simp only [List.length_cons] at hs
          omega) l2
        refine ⟨fuel + 1, v, ?_⟩
        unfold redraw
        rw [scriptRng_Int63n script (x :: rest) _ (hpos l)]
        simp only [hx, if_true, hG, hl2]
        exact hv
      · refine ⟨1, (l, rest), ?_⟩
        unfold redraw
        rw [scriptRng_Int63n script (x :: rest) _ (hpos l)]
        simp only [hx, if_false]

/-- The rejection loop of `RandLetter` halts with every scripted random source, that is with
every finite list of draws followed by zeros, when the sampler has a positive total and no
point value is negative. -/
theorem scriptRng_halts (script : List Int) (G : Globals) (f : List (Str × Int))
    (hG : G.letterGen = NewLetterGenFreqs f) (hn : (f.map Prod.fst).Nodup)
    (ht : 0 < (NewLetterGenFreqs f).total) (hpv : ∀ p ∈ G.pointVals, 0 ≤ p.2) :
    SamplerHalts (scriptRng script) G := by
  intro letters s
  obtain ⟨l, hl⟩ := scriptRng_Next script f hn ht s
  obtain ⟨fuel, ⟨l2, s2⟩, hv⟩ :=
    scriptRng_redraw script G f hG hn ht hpv letters (List.length (List.tail s)) (List.tail s)
      (le_refl _) l
  refine ⟨fuel, l2, s2, ?_⟩
  unfold RandLetter
  rw [hG]
  simp only [hl]
  exact hv

/-- The rejection loop of `RandLetter` halts with every scripted random source in the game
that `init` sets up. -/
theorem scriptRng_halts_init (script : List Int) (U : CaseMap) (dev : Bool) (lines : List Str)
    (G : Globals) (hI : init U dev lines = some G) : SamplerHalts (scriptRng script) G := by
  have h : ∃ f, invertPoints (initFreqs asciiCase) = some f ∧
      (f.map Prod.fst).Nodup ∧ 0 < (NewLetterGenFreqs f).total ∧
      ∀ p ∈ initFreqs asciiCase, 0 ≤ p.2 := by
    cases hi : invertPoints (initFreqs asciiCase) with
    | none =>
      have : (invertPoints (initFreqs asciiCase)).isSome = true := by decide
      rw [hi] at this
      cases this
    | some f =>
      have hd : (invertPoints (initFreqs asciiCase)).all
          (fun f => decide ((f.map Prod.fst).Nodup) &&
            decide (0 < (NewLetterGenFreqs f).total)) = true := by decide
      have hp : ∀ p ∈ initFreqs asciiCase, 0 ≤ p.2 := by decide
      rw [hi] at hd
      simp only [Option.all_some, Bool.and_eq_true, decide_eq_true_eq] at hd
      exact ⟨f, rfl, hd.1, hd.2, hp⟩
  obtain ⟨f, hf, h1, h2, h3⟩ := h
  unfold init at hI
  rw [initFreqs_ascii, hf] at hI
  simp only [Option.map_some', Option.some.injEq] at hI
  subst hI
  exact scriptRng_halts script _ f rfl h1 h2 h3

/-- C2: whenever `DoMove` returns, it returns `nil` exactly for a legal move, that is the
empty move, or a move whose normal form the tiles cover and the dictionary holds; this holds
for every random source. A move that is not legal returns at once with an error and leaves
the game as it was: a non-empty move that the tiles do not cover gets the "can't spell" error
whether or not the dictionary holds it, and the "unknown word" error is returned only when the
tiles cover the move. A legal move returns, with `nil`, once the rejection loop of
`RandLetter` halts; only this last part depends on the random source. -/
theorem C2_DoMove_succeeds_iff_legal (U : CaseMap) (R : Rng) (G : Globals) (g : Game R)
    (m : Str) :
    (∀ fuel r g2, DoMove U R G fuel g m = .ok (r, g2) →
      (r = none ↔
        (m = [] ∨ ((CountLetters g.Letters).Contains (Count U (Normalize U m)) = true ∧
          dictHas G.dict (Normalize U m) = true)))) ∧
    (¬ (m = [] ∨ ((CountLetters g.Letters).Contains (Count U (Normalize U m)) = true ∧
          dictHas G.dict (Normalize U m) = true)) →
      ∀ fuel, ∃ e, DoMove U R G fuel g m = .ok (some e, g)) ∧
    (∀ fuel, m ≠ [] →
      (CountLetters g.Letters).Contains (Count U (Normalize U m)) = false →
      DoMove U R G fuel g m =
        .ok (some (.cantSpell (Normalize U m) (CountLetters g.Letters)), g)) ∧
    (∀ fuel, m ≠ [] →
      (CountLetters g.Letters).Contains (Count U (Normalize U m)) = true →
      dictHas G.dict (Normalize U m) = false →
      DoMove U R G fuel g m = .ok (some (.unknownWord (Normalize U m)), g)) ∧
    (∀ fuel norm g2, DoMove U R G fuel g m = .ok (some (.unknownWord norm), g2) →
      (CountLetters g.Letters).Contains (Count U (Normalize U m)) = true) ∧
    (SamplerHalts R G →
      (m = [] ∨ ((CountLetters g.Letters).Contains (Count U (Normalize U m)) = true ∧
        dictHas G.dict (Normalize U m) = true)) →
      ∃ fuel g2, DoMove U R G fuel g m = .ok (none, g2)) := by
  have hbad : ¬ (m = [] ∨ ((CountLetters g.Letters).Contains (Count U (Normalize U m)) = true ∧
        dictHas G.dict (Normalize U m) = true)) →
      ∀ fuel, ∃ e, DoMove U R G fuel g m = .ok (some e, g) := by
    intro hl fuel
    push_neg at hl
    obtain ⟨hm, hl⟩ := hl
    cases hc : (CountLetters g.Letters).Contains (Count U (Normalize U m))
    · exact ⟨_, DoMove_cantSpell U R G fuel g m hm hc⟩
    · have hd : dictHas G.dict (Normalize U m) = false := by
        cases hd : dictHas G.dict (Normalize U m)
        · rfl
        · exact absurd hd (hl hc)
      exact ⟨_, DoMove_unknownWord U R G fuel g m hm hc hd⟩
  refine ⟨?_, hbad, ?_, ?_, ?_, ?_⟩
  · intro fuel r g2 h
    constructor
    · intro hr
      subst hr
      by_contra hl
      obtain ⟨e, he⟩ := hbad hl fuel
      rw [he] at h
      cases h
    · intro hl
      cases r with
      | none => rfl
      | some e =>
        exfalso
        obtain ⟨hm, _, hcase⟩ := (DoMove_error_iff U R G fuel g m e g2).1 h
        rcases hl with hl | ⟨hc, hd⟩
        · exact hm hl
        · rcases hcase with h1 | h2
          · rw [hc] at h1
            exact absurd h1.1 (by simp)
          · rw [hd] at h2
            exact absurd h2.2.1 (by simp)
  · intro fuel hm hc
    exact DoMove_cantSpell U R G fuel g m hm hc
  · intro fuel hm hc hd
    exact DoMove_unknownWord U R G fuel g m hm hc hd
  · intro fuel norm g2 h
    obtain ⟨_, _, hcase⟩ := (DoMove_error_iff U R G fuel g m _ g2).1 h
    rcases hcase with h1 | h2
    · cases h1.2
    · exact h2.1
  · intro hH hl
    exact DoMove_legal_terminates U R G hH g m hl

/-- C2 at a concrete input: on the board ASTRONOMERASTRON, with the random source that draws
12000, 1, 17000, 0 and then zeros, the word "moon" is legal and `DoMove` returns `nil` for it,
and the word "noodle", which the tiles do not cover, gets the "can't spell" error. -/
theorem C2_DoMove_witness :
    ((CountLetters (Split "ASTRONOMERASTRON".toList)).Contains
        (Count asciiCase (Normalize asciiCase "moon".toList)) = true ∧
      dictHas sampleGlobals.dict (Normalize asciiCase "moon".toList) = true) ∧
    (∃ fuel g2, DoMove asciiCase (scriptRng []) sampleGlobals fuel
        (sampleGame (scriptRng []) [12000, 1, 17000, 0] "ASTRONOMERASTRON") "moon".toList =
      .ok (none, g2)) ∧
    (∀ fuel, DoMove asciiCase zeroRng sampleGlobals fuel
        (sampleGame zeroRng () "ASTRONOMERASTRON") "noodle".toList =
      .ok (some (.cantSpell (Normalize asciiCase "noodle".toList)
        (CountLetters (sampleGame zeroRng () "ASTRONOMERASTRON").Letters)),
        sampleGame zeroRng () "ASTRONOMERASTRON")) :=
  ⟨by decide,
    (C2_DoMove_succeeds_iff_legal asciiCase (scriptRng []) sampleGlobals
      (sampleGame (scriptRng []) [12000, 1, 17000, 0] "ASTRONOMERASTRON")
      "moon".toList).2.2.2.2.2
      (scriptRng_halts_init [] asciiCase false sampleWords sampleGlobals
        (Option.some_get _).symm)
      (Or.inr (by decide)),
    fun fuel => (C2_DoMove_succeeds_iff_legal asciiCase zeroRng sampleGlobals
      (sampleGame zeroRng () "ASTRONOMERASTRON") "noodle".toList).2.2.1 fuel (by decide)
      (by decide)⟩

end lex
